import Mathlib

/-!
# ExprTree: tokeniser, shunting yard, tree builder, evaluation and renderings

A shallow embedding of `Assignment1/Assignment1/ExprTree.cpp`.

* A `std::string` is the list of its characters, a `vector`, `queue` or `stack` is a list
  (a stack keeps its top at the head).
* A `TreeNode *` is a value of `TreeNode`: `null`, or a node that carries the address of
  the heap object it points to, so that the pointer comparison of
  `postOrderTraversalString` can be stated.
* An `int` is an `Int`; an operation whose result leaves the range of a 32-bit `int`, a
  division by zero, a dereferenced null pointer, `back()`/`front()`/`pop()` on an empty
  container: all of these have no defined result in C++ and the embedded function
  returns `none` there.
* `atoi` on a digit string beyond the range of `int` is one of these, and `to_number`
  returns `none` there. Every C library returns some `int` for it all the same; the
  functions with a name in `With` are the same code with that `int` given by a parameter
  `lib`, for the properties that hold whatever the numbers in the tree are.
-/

namespace Assignment1

/-! ## Characters and strings -/

/-- Text of a `std::string`. -/
abbrev Str := List Char

/-- Source lines 7-21: the ten decimal digits. -/
def isdigit (c : Char) : Bool :=
  c == '0' || c == '1' || c == '2' || c == '3' || c == '4' ||
  c == '5' || c == '6' || c == '7' || c == '8' || c == '9'

/-- White space of the "C" locale, which is what `operator>>` skips:
space, `\t`, `\n`, `\v`, `\f`, `\r`. -/
def isspace (c : Char) : Bool :=
  c == ' ' || c == '\t' || c == '\n' || c == Char.ofNat 11 || c == Char.ofNat 12 || c == '\r'

/-- Source lines 26-31: non-empty and the scan over leading digits reaches the end. -/
def is_number (s : Str) : Bool :=
  !s.isEmpty && (s.dropWhile isdigit).isEmpty

/-- Least value of a 32-bit `int`. -/
def INT_MIN : Int := -2147483648

/-- Greatest value of a 32-bit `int`. -/
def INT_MAX : Int := 2147483647

/-- An arithmetic result as an `int`: defined only inside the range of the type. -/
def checkedInt (x : Int) : Option Int :=
  if INT_MIN ≤ x ∧ x ≤ INT_MAX then some x else none

/-- Value of a run of decimal digits, most significant first. -/
def digitsValue (ds : Str) : Int :=
  ds.foldl (fun acc c => 10 * acc + ((c.toNat : Int) - 48)) 0

/-- The C library function `atoi`: skip leading white space, read an optional sign, then
the longest run of digits; the value is undefined when it does not fit in an `int`. -/
def atoi (s : Str) : Option Int :=
  let body := s.dropWhile isspace
  match body with
  | '-' :: rest => checkedInt (- digitsValue (rest.takeWhile isdigit))
  | '+' :: rest => checkedInt (digitsValue (rest.takeWhile isdigit))
  | _ => checkedInt (digitsValue (body.takeWhile isdigit))

/-- Source lines 36-38. -/
def to_number (s : Str) : Option Int := atoi s

/-- Source lines 154-158 (and the numeral printed for a value node): the decimal numeral
of an `int`, with a leading `-` for a negative one. -/
def to_string (n : Int) : Str :=
  if n < 0 then '-' :: Nat.toDigits 10 n.natAbs else Nat.toDigits 10 n.toNat

/-- Source lines 53-60: the character is written to a string stream and read back with
`operator>>`, which skips white space; a white-space character therefore comes back as
the empty string, any other character as the one-character string. -/
def charToString (c : Char) : Str :=
  if isspace c then [] else [c]

/-- Source lines 62-68: keep every character other than `' '`, in order. -/
def removeSpaces : Str → Str
  | [] => []
  | c :: rest => if c != ' ' then c :: removeSpaces rest else removeSpaces rest

/-- The loop of `tokenise` (source lines 190-198) on the characters still to read, with
the current `charHolder` and the `tokens` pushed so far, followed by the final flush of
lines 199-200. -/
def tokeniseLoop : Str → Str → List Str → List Str
  | [], charHolder, tokens =>
    if !charHolder.isEmpty then tokens ++ [charHolder] else tokens
  | c :: rest, charHolder, tokens =>
    if !isdigit c then
      tokeniseLoop rest []
        ((if !charHolder.isEmpty then tokens ++ [charHolder] else tokens) ++ [charToString c])
    else
      tokeniseLoop rest (charHolder ++ [c]) tokens

/-- Source lines 186-202. -/
def ExprTree.tokenise (expression : Str) : List Str :=
  tokeniseLoop (removeSpaces expression) [] []

/-! ## Nodes -/

/-- Modelled from the spec: the tag of a node (the header that declares `Operator` and
`TreeNode` is not among the sources). `Value` tags a numeric leaf; `Plus`, `Minus`,
`Times`, `Divide` are the operator kinds; `NoOp` is the placeholder. -/
inductive Operator where
  | Value | Plus | Minus | Times | Divide | NoOp
  deriving DecidableEq

/-- Modelled from the spec: a `TreeNode *`. It is `null`, or points to a heap object
with the address `addr`, holding a tag, an `int` value (read for `Value` nodes only) and
two child pointers. -/
inductive TreeNode where
  | null : TreeNode
  | node (addr : Nat) (op : Operator) (value : Int) (leftChild rightChild : TreeNode) : TreeNode
  deriving DecidableEq

/-- Modelled from the spec: `isValue()` of a node with this tag. -/
def Operator.isValue (op : Operator) : Bool := op == .Value

/-- Modelled from the spec: `isOperator()` of a node with this tag, true for a real
operator, false for a value and for the `NoOp` placeholder. -/
def Operator.isOperator (op : Operator) : Bool := op != .Value && op != .NoOp

/-- Modelled from the spec: `new TreeNode(int)` at address `addr`, a leaf. -/
def TreeNode.ofValue (addr : Nat) (v : Int) : TreeNode := .node addr .Value v .null .null

/-- Modelled from the spec: `new TreeNode(Operator)` at address `addr`, without children. -/
def TreeNode.ofOperator (addr : Nat) (op : Operator) : TreeNode := .node addr op 0 .null .null

/-- The test `p != 0` of a pointer. -/
def TreeNode.isNull : TreeNode → Bool
  | .null => true
  | .node _ _ _ _ _ => false

/-- Pointer comparison `p == q`: both null, or both pointing to the same address. -/
def TreeNode.samePointer : TreeNode → TreeNode → Bool
  | .null, .null => true
  | .node a _ _ _ _, .node b _ _ _ _ => a == b
  | _, _ => false

/-- Modelled from the spec: the symbol `toString()` gives for a node with this tag and
value: the decimal numeral for a value, the operator character for an operator. The
spec names no symbol for the `NoOp` placeholder, so its text `noOp` is a parameter. -/
def symbol (noOp : Str) (op : Operator) (value : Int) : Str :=
  match op with
  | .Value => to_string value
  | .Plus => ['+']
  | .Minus => ['-']
  | .Times => ['*']
  | .Divide => ['/']
  | .NoOp => noOp

/-- An `ExprTree` object: the root pointer and the cached node count. -/
structure ExprTree where
  root : TreeNode
  _size : Int
  deriving DecidableEq

/-! ## Helpers of ExprTree.cpp -/

/-- Source lines 45-51; `addr` is the address of the node that `new` returns. -/
def createOperatorNode (addr : Nat) (op : Str) : TreeNode :=
  if op = ['+'] then TreeNode.ofOperator addr .Plus
  else if op = ['-'] then TreeNode.ofOperator addr .Minus
  else if op = ['*'] then TreeNode.ofOperator addr .Times
  else if op = ['/'] then TreeNode.ofOperator addr .Divide
  else TreeNode.ofOperator addr .NoOp

/-- The loop of `convertToVectorOfNodes` from index `i` on: the node made for the token
at index `i` is the `i`-th object allocated, and its address is taken to be `i`, so that
distinct nodes have distinct addresses. -/
def convertFrom (i : Nat) : List Str → Option (List TreeNode)
  | [] => some []
  | token :: rest =>
    (if is_number token then (to_number token).map (TreeNode.ofValue i)
     else some (createOperatorNode i token)).bind fun node =>
    (convertFrom (i + 1) rest).map fun nodes => node :: nodes

/-- Source lines 73-78. -/
def convertToVectorOfNodes (tokens : List Str) : Option (List TreeNode) :=
  convertFrom 0 tokens

/-- Source lines 83-87. -/
def calculateTreeSize : TreeNode → Int
  | .null => 0
  | .node _ _ _ l r => calculateTreeSize l + calculateTreeSize r + 1

/-- Source lines 92-96: the comparison `node == tree.getRoot()` is a comparison of
pointers. -/
def postOrderTraversalString (noOp : Str) (tree : ExprTree) : TreeNode → Str
  | .null => []
  | .node a op v l r =>
    postOrderTraversalString noOp tree l ++ postOrderTraversalString noOp tree r
      ++ symbol noOp op v
      ++ (if (TreeNode.node a op v l r).samePointer tree.root then [] else [' '])

/-- Source lines 98-102. -/
def precedence (op : Operator) : Int :=
  if op = .Plus ∨ op = .Minus then 1 else 2

/-- Source lines 117-120: move entries from the operator stack to the output while the
stack is non-empty and the tag of its top is not `NoOp`. Returns the stack and the
output after the loop. -/
def popUntilNoOp : List TreeNode → List TreeNode → Option (List TreeNode × List TreeNode)
  | [], out => some ([], out)
  | .null :: _, _ => none
  | .node a op v l r :: below, out =>
    if op != .NoOp then popUntilNoOp below (out ++ [.node a op v l r])
    else some (.node a op v l r :: below, out)

/-- Source lines 124-128: move entries from the operator stack to the output while the
stack is non-empty, its top is a real operator, and the precedence `p` of the incoming
operator is at most that of the top. -/
def popOperators (p : Int) : List TreeNode → List TreeNode → Option (List TreeNode × List TreeNode)
  | [], out => some ([], out)
  | .null :: _, _ => none
  | .node a op v l r :: below, out =>
    if op.isOperator && decide (p ≤ precedence op) then
      popOperators p below (out ++ [.node a op v l r])
    else some (.node a op v l r :: below, out)

/-- The `for` loop of `shuntingYard` (source lines 111-131) over the remaining pairs
`(infixTokens[i], infixNodes[i])`, with the operator stack and the output queue. -/
def shuntingYardLoop : List (Str × TreeNode) → List TreeNode → List TreeNode →
    Option (List TreeNode × List TreeNode)
  | [], operators, out => some (operators, out)
  | (_, .null) :: _, _, _ => none
  | (token, .node a op v l r) :: rest, operators, out =>
    if op.isValue then
      shuntingYardLoop rest operators (out ++ [.node a op v l r])
    else if token = ['('] then
      shuntingYardLoop rest (.node a op v l r :: operators) out
    else if token = [')'] then
      match popUntilNoOp operators out with
      | some (_ :: below, out1) => shuntingYardLoop rest below out1
      | _ => none
    else
      match popOperators (precedence op) operators out with
      | some (operators1, out1) => shuntingYardLoop rest (.node a op v l r :: operators1) out1
      | none => none

/-- Source lines 107-137: the nodes in postfix order; the last loop moves what is left on
the operator stack to the output, top first. -/
def shuntingYard (infixTokens : List Str) : Option (List TreeNode) :=
  (convertToVectorOfNodes infixTokens).bind fun infixNodes =>
  (shuntingYardLoop (infixTokens.zip infixNodes) [] []).map fun (operators, out) =>
    out ++ operators

/-- Source lines 142-149. -/
def queueToVector (inputQueue : List TreeNode) : List TreeNode := inputQueue

/-! ## ExprTree -/

/-- Source lines 163-166. -/
def ExprTree.empty : ExprTree := { root := .null, _size := 0 }

/-- Source lines 171-174. -/
def ExprTree.ofRoot (r : TreeNode) : ExprTree := { root := r, _size := calculateTreeSize r }

/-- Source line 321. -/
def ExprTree.getRoot (t : ExprTree) : TreeNode := t.root

/-- Source line 311. -/
def ExprTree.size (t : ExprTree) : Int := t._size

/-- Source line 316. -/
def ExprTree.isEmpty (t : ExprTree) : Bool := t._size == 0

/-- The loop of `buildTree` (source lines 211-222). The vector `nodesForTree` is kept
with its back at the head of the list. An operator takes the back as its right child and
the next one as its left child; with fewer than two nodes in the vector, `back()` is
called on an empty vector. Each node object occurs once in the postfix sequence, so
setting the children of one node changes no other entry. -/
def buildLoop : List TreeNode → List TreeNode → Option (List TreeNode)
  | [], nodesForTree => some nodesForTree
  | .null :: _, _ => none
  | .node a op v l r :: rest, nodesForTree =>
    if op.isValue then buildLoop rest (.node a op v l r :: nodesForTree)
    else
      match nodesForTree with
      | right :: left :: below => buildLoop rest (.node a op v left right :: below)
      | _ => none

/-- Source lines 208-224: `front()` of the vector is the last entry of the list, and is
undefined for an empty vector. -/
def ExprTree.buildTree (tokens : List Str) : Option ExprTree :=
  (shuntingYard tokens).bind fun queue =>
  (buildLoop (queueToVector queue) []).bind fun nodesForTree =>
  (nodesForTree.getLast?).map ExprTree.ofRoot

/-- Source lines 230-239. The result is undefined for a null pointer, for a division by
zero, for a result outside the range of `int`, and for a `NoOp` node, where control
leaves the `switch` and the function ends without a `return`. -/
def ExprTree.evaluate : TreeNode → Option Int
  | .null => none
  | .node _ op v l r =>
    if op.isValue then some v
    else
      match op with
      | .Plus =>
        (ExprTree.evaluate l).bind fun x => (ExprTree.evaluate r).bind fun y => checkedInt (x + y)
      | .Minus =>
        (ExprTree.evaluate l).bind fun x => (ExprTree.evaluate r).bind fun y => checkedInt (x - y)
      | .Times =>
        (ExprTree.evaluate l).bind fun x => (ExprTree.evaluate r).bind fun y => checkedInt (x * y)
      | .Divide =>
        (ExprTree.evaluate l).bind fun x => (ExprTree.evaluate r).bind fun y =>
          if y = 0 then none else checkedInt (Int.tdiv x y)
      | _ => none

/-- Source lines 245-247. -/
def ExprTree.evaluateWholeTree (t : ExprTree) : Option Int := ExprTree.evaluate t.getRoot

/-- Source lines 303-306. -/
def ExprTree.postfixOrder (noOp : Str) (t : ExprTree) : Str :=
  postOrderTraversalString noOp t t.root

/-- Number of heap objects below a pointer, as a natural number. -/
def TreeNode.count : TreeNode → Nat
  | .null => 0
  | .node _ _ _ l r => l.count + r.count + 1

/-- Total number of heap objects below the pointers of a stack. -/
def stackCount : List TreeNode → Nat
  | [] => 0
  | t :: rest => t.count + stackCount rest

/-- Push of a child pointer guarded by `child != 0` (source lines 262-265). -/
def pushChild (child : TreeNode) (nodeStack : List TreeNode) : List TreeNode :=
  if child.isNull then nodeStack else child :: nodeStack

/-- What a run of `prefixOrder` does: the string it returns, `none` when the run has no
defined result, and how many times it executed `nodeStack.pop()` while the stack was
empty. -/
structure PrefixRun where
  result : Option Str
  emptyPops : Nat
  deriving DecidableEq

set_option linter.unusedVariables false in
/-- The `while` loop of `prefixOrder` (source lines 259-268). After the two pushes, line
266 sets `currentNode` to the top of the stack, or to 0 when the stack is empty, and line
267 calls `nodeStack.pop()` in either case. On an empty stack that call has no defined
behaviour, as `operators.pop()` has in `shuntingYard`: the run has no defined result from
there on, and the call is counted. A run that leaves the loop without such a call returns
the string built (line 269). -/
def prefixLoop (noOp : Str) (size : Int) (currentNode : TreeNode) (nodeStack : List TreeNode)
    (nodeCount : Int) (prefixString : Str) (emptyPops : Nat) : PrefixRun :=
  match currentNode with
  | .null => { result := some prefixString, emptyPops := emptyPops }
  | .node _ op v l r =>
    match h : pushChild l (pushChild r nodeStack) with
    | top :: below =>
      prefixLoop noOp size top below (nodeCount + 1)
        (prefixString ++ (symbol noOp op v ++ (if nodeCount + 1 = size then [] else [' '])))
        emptyPops
    | [] => { result := none, emptyPops := emptyPops + 1 }
termination_by currentNode.count + stackCount nodeStack
decreasing_by
  have hc : ∀ (c : TreeNode) (st : List TreeNode),
      stackCount (pushChild c st) = c.count + stackCount st := by
    intro c st
    cases c <;> simp [pushChild, TreeNode.isNull, stackCount, TreeNode.count]
  have h2 := congrArg stackCount h
  rw [hc, hc] at h2
  simp only [stackCount, TreeNode.count] at h2 ⊢
  omega

/-- Source lines 254-270. -/
def ExprTree.prefixOrder (noOp : Str) (t : ExprTree) : PrefixRun :=
  prefixLoop noOp t._size t.root [] 0 [] 0

/-- Work left for the loop of `infixOrder`: every node below the current pointer is still
to be pushed and popped, every stacked node is still to be popped and its right subtree
still to be visited. -/
def infixWork (currentNode : TreeNode) (nodeStack : List TreeNode) : Nat :=
  2 * currentNode.count + (nodeStack.map fun n =>
    match n with
    | .null => 0
    | .node _ _ _ _ r => 2 * r.count + 1).sum

/-- The `while` loop of `infixOrder` (source lines 282-294). A stacked pointer is never
null; were it null, `currentNode->toString()` would dereference it. -/
def infixLoop (noOp : Str) (size : Int) (currentNode : TreeNode) (nodeStack : List TreeNode)
    (nodeCount : Int) (infixString : Str) : Option Str :=
  match currentNode with
  | .node a op v l r =>
    infixLoop noOp size l (.node a op v l r :: nodeStack) (nodeCount + 1) infixString
  | .null =>
    match nodeStack with
    | [] => some infixString
    | .null :: _ => none
    | .node _ op v _ r :: below =>
      infixLoop noOp size r below nodeCount
        (infixString ++ (symbol noOp op v ++ (if nodeCount = size then [] else [' '])))
termination_by infixWork currentNode nodeStack
decreasing_by
  all_goals simp only [infixWork, TreeNode.count, List.map_cons, List.sum_cons]
  all_goals omega

/-- Source lines 277-296. -/
def ExprTree.infixOrder (noOp : Str) (t : ExprTree) : Option Str :=
  infixLoop noOp t._size t.root [] 0 []

/-! ## Number tokens beyond the range of `int` -/

/-- Source lines 36-38 with the C library in view. For a digit string whose value fits in
an `int`, `atoi` returns that value. Beyond the range the C standard defines no value
(`to_number` is `none` there), and the library the program is linked with returns some
`int` all the same: `lib` is what it returns. Nothing is assumed of `lib`. -/
def to_numberWith (lib : Str → Int) (s : Str) : Int :=
  match to_number s with
  | some v => v
  | none => lib s

/-- The loop of `convertToVectorOfNodes` from index `i` on, as `convertFrom`, with
`to_numberWith lib` for the call of `to_number`. -/
def convertFromWith (lib : Str → Int) (i : Nat) : List Str → List TreeNode
  | [] => []
  | token :: rest =>
    (if is_number token then TreeNode.ofValue i (to_numberWith lib token)
     else createOperatorNode i token) :: convertFromWith lib (i + 1) rest

/-- Source lines 73-78, with `to_numberWith lib` for the call of `to_number`. -/
def convertToVectorOfNodesWith (lib : Str → Int) (tokens : List Str) : List TreeNode :=
  convertFromWith lib 0 tokens

/-- Source lines 107-137, with `convertToVectorOfNodesWith lib` for the call of
`convertToVectorOfNodes`; the loops are those of `shuntingYard`. -/
def shuntingYardWith (lib : Str → Int) (infixTokens : List Str) : Option (List TreeNode) :=
  (shuntingYardLoop (infixTokens.zip (convertToVectorOfNodesWith lib infixTokens)) [] []).map
    fun (operators, out) => out ++ operators

/-- Source lines 208-224, with `shuntingYardWith lib` for the call of `shuntingYard`; the
loop is that of `buildTree`. -/
def ExprTree.buildTreeWith (lib : Str → Int) (tokens : List Str) : Option ExprTree :=
  (shuntingYardWith lib tokens).bind fun queue =>
  (buildLoop (queueToVector queue) []).bind fun nodesForTree =>
  (nodesForTree.getLast?).map ExprTree.ofRoot

/-! ## Reference notions the claims are stated with -/

/-- Symbols joined by exactly one space: no space before the first or after the last. -/
def joinSpaced (symbols : List Str) : Str := [' '].intercalate symbols

/-- The nodes reachable from a pointer, each as the pointer to it. -/
def TreeNode.reachable : TreeNode → List TreeNode
  | .null => []
  | .node a op v l r => .node a op v l r :: (l.reachable ++ r.reachable)

/-- Addresses of the nodes reachable from a pointer. -/
def TreeNode.addresses : TreeNode → List Nat
  | .null => []
  | .node a _ _ l r => a :: (l.addresses ++ r.addresses)

/-- Symbols of the nodes in in-order: the left subtree, the node, the right subtree. -/
def TreeNode.inOrder (noOp : Str) : TreeNode → List Str
  | .null => []
  | .node _ op v l r => l.inOrder noOp ++ symbol noOp op v :: r.inOrder noOp

/-- Symbols of the nodes in post-order: the left subtree, the right subtree, the node. -/
def TreeNode.postOrder (noOp : Str) : TreeNode → List Str
  | .null => []
  | .node _ op v l r => l.postOrder noOp ++ r.postOrder noOp ++ [symbol noOp op v]

/-- Every value node reachable from the pointer has no child, and every other node has
two children. -/
def TreeNode.shaped : TreeNode → Bool
  | .null => true
  | .node _ op _ l r =>
    (if op.isValue then l.isNull && r.isNull else !l.isNull && !r.isNull)
      && l.shaped && r.shaped

/-- The three ways the code makes an `ExprTree`: the default constructor, the constructor
from a root pointer, and `buildTree`. -/
inductive Constructed : ExprTree → Prop
  | empty : Constructed ExprTree.empty
  | ofRoot (r : TreeNode) : Constructed (ExprTree.ofRoot r)
  | built (tokens : List Str) (t : ExprTree) :
      ExprTree.buildTree tokens = some t → Constructed t

/-- The right child pointer of a node (`getRightChild()`). -/
def TreeNode.right : TreeNode → TreeNode
  | .null => .null
  | .node _ _ _ _ r => r

/-- Symbols still to come from the stack of `infixOrder`: each stacked node, followed by
its right subtree in in-order. -/
def stackedSymbols (noOp : Str) : List TreeNode → List Str
  | [] => []
  | .null :: rest => stackedSymbols noOp rest
  | .node _ op v _ r :: rest => symbol noOp op v :: (r.inOrder noOp ++ stackedSymbols noOp rest)

/-- Nodes not yet counted by `infixOrder` that hang to the right of the stacked nodes. -/
def stackedRightCount : List TreeNode → Nat
  | [] => 0
  | n :: rest => n.right.count + stackedRightCount rest

/-- A number token: a non-empty string of digits. -/
def isNumeral (t : Str) : Bool := !t.isEmpty && t.all isdigit

/-- A single character that is not a digit. -/
def isSingleNonDigit (t : Str) : Bool :=
  match t with
  | [c] => !isdigit c
  | _ => false

/-- A maximal-run tokenisation: every token is a number token or a single non-digit
character, and no two adjacent tokens are both number tokens. -/
def MaximalRuns (ts : List Str) : Prop :=
  (∀ t ∈ ts, isNumeral t = true ∨ isSingleNonDigit t = true) ∧
  ts.Chain' (fun s t => ¬ (isNumeral s = true ∧ isNumeral t = true))

/-! ## The grammar and its reference evaluator -/

/-- The operators of the rule `expr`. -/
inductive AddOp where
  | plus | minus
  deriving DecidableEq

/-- The operators of the rule `term`. -/
inductive MulOp where
  | times | divide
  deriving DecidableEq

mutual
/-- The rule `expr := term (('+'|'-') term)*`, read from the left: an expression is a
term, or an expression followed by one more operator and term. -/
inductive GExpr where
  | term (t : GTerm) : GExpr
  | add (e : GExpr) (op : AddOp) (t : GTerm) : GExpr
/-- The rule `term := factor (('*'|'/') factor)*`, read from the left. -/
inductive GTerm where
  | factor (f : GFactor) : GTerm
  | mul (t : GTerm) (op : MulOp) (f : GFactor) : GTerm
/-- The rule `factor := NUMBER | '(' expr ')'`; a number is given by its digits. -/
inductive GFactor where
  | number (digits : Str) : GFactor
  | paren (e : GExpr) : GFactor
end

/-- The character of an additive operator. -/
def AddOp.text : AddOp → Str
  | .plus => ['+']
  | .minus => ['-']

/-- The character of a multiplicative operator. -/
def MulOp.text : MulOp → Str
  | .times => ['*']
  | .divide => ['/']

mutual
/-- The tokens of an expression, in the order they are written. -/
def GExpr.tokens : GExpr → List Str
  | .term t => t.tokens
  | .add e op t => e.tokens ++ op.text :: t.tokens
/-- The tokens of a term. -/
def GTerm.tokens : GTerm → List Str
  | .factor f => f.tokens
  | .mul t op f => t.tokens ++ op.text :: f.tokens
/-- The tokens of a factor. -/
def GFactor.tokens : GFactor → List Str
  | .number digits => [digits]
  | .paren e => ['('] :: (e.tokens ++ [[')']])
end

mutual
/-- Every number of the expression is one or more digits. -/
def GExpr.wellFormed : GExpr → Bool
  | .term t => t.wellFormed
  | .add e _ t => e.wellFormed && t.wellFormed
/-- Every number of the term is one or more digits. -/
def GTerm.wellFormed : GTerm → Bool
  | .factor f => f.wellFormed
  | .mul t _ f => t.wellFormed && f.wellFormed
/-- Every number of the factor is one or more digits. -/
def GFactor.wellFormed : GFactor → Bool
  | .number digits => isNumeral digits
  | .paren e => e.wellFormed
end

/-- The number a decimal numeral denotes. -/
def numeralValue (digits : Str) : Nat :=
  Nat.ofDigits 10 (digits.reverse.map fun c => c.toNat - '0'.toNat)

mutual
/-- Reference evaluator: the value of an expression, its operators applied from left to
right; `none` when a number or a result does not fit in an `int`, or on a division by
zero. -/
def GExpr.value : GExpr → Option Int
  | .term t => t.value
  | .add e .plus t =>
    e.value.bind fun x => t.value.bind fun y => checkedInt (x + y)
  | .add e .minus t =>
    e.value.bind fun x => t.value.bind fun y => checkedInt (x - y)
/-- Reference evaluator for a term: `*` and `/` bind tighter than `+` and `-` because a
term is evaluated before the expression around it; `/` rounds toward zero. -/
def GTerm.value : GTerm → Option Int
  | .factor f => f.value
  | .mul t .times f =>
    t.value.bind fun x => f.value.bind fun y => checkedInt (x * y)
  | .mul t .divide f =>
    t.value.bind fun x => f.value.bind fun y =>
      if y = 0 then none else checkedInt (Int.tdiv x y)
/-- Reference evaluator for a factor: a number denotes itself, parentheses denote the
value of what they enclose. -/
def GFactor.value : GFactor → Option Int
  | .number digits => checkedInt (numeralValue digits)
  | .paren e => e.value
end

/-- The node tag of an additive operator. -/
def AddOp.tag : AddOp → Operator
  | .plus => .Plus
  | .minus => .Minus

/-- The node tag of a multiplicative operator. -/
def MulOp.tag : MulOp → Operator
  | .times => .Times
  | .divide => .Divide

mutual
/-- The tree of an expression whose first token has index `i`: every node has the index
of its token for address. -/
def GExpr.tree (i : Nat) : GExpr → TreeNode
  | .term t => t.tree i
  | .add e op t =>
    .node (i + e.tokens.length) op.tag 0 (e.tree i) (t.tree (i + e.tokens.length + 1))
/-- The tree of a term whose first token has index `i`. -/
def GTerm.tree (i : Nat) : GTerm → TreeNode
  | .factor f => f.tree i
  | .mul t op f =>
    .node (i + t.tokens.length) op.tag 0 (t.tree i) (f.tree (i + t.tokens.length + 1))
/-- The tree of a factor whose first token has index `i`. -/
def GFactor.tree (i : Nat) : GFactor → TreeNode
  | .number digits => TreeNode.ofValue i (digitsValue digits)
  | .paren e => e.tree (i + 1)
end

mutual
/-- The tokens of an expression paired with the nodes `convertToVectorOfNodes` makes for
them, the first token having index `i`. -/
def GExpr.items (i : Nat) : GExpr → List (Str × TreeNode)
  | .term t => t.items i
  | .add e op t =>
    e.items i ++ (op.text, TreeNode.ofOperator (i + e.tokens.length) op.tag)
      :: t.items (i + e.tokens.length + 1)
/-- The tokens of a term paired with their nodes. -/
def GTerm.items (i : Nat) : GTerm → List (Str × TreeNode)
  | .factor f => f.items i
  | .mul t op f =>
    t.items i ++ (op.text, TreeNode.ofOperator (i + t.tokens.length) op.tag)
      :: f.items (i + t.tokens.length + 1)
/-- The tokens of a factor paired with their nodes. -/
def GFactor.items (i : Nat) : GFactor → List (Str × TreeNode)
  | .number digits => [(digits, TreeNode.ofValue i (digitsValue digits))]
  | .paren e =>
    (['('], TreeNode.ofOperator i .NoOp)
      :: (e.items (i + 1) ++ [([')'], TreeNode.ofOperator (i + 1 + e.tokens.length) .NoOp)])
end

/-- The nodes below a pointer in post-order, each without its children: the postfix
sequence from which `buildTree` makes the tree. -/
def TreeNode.postNodes : TreeNode → List TreeNode
  | .null => []
  | .node a op v l r => l.postNodes ++ r.postNodes ++ [.node a op v .null .null]

/-- Operators left on the stack of `shuntingYard`, top first, after a term whose first
token has index `i` has been read. -/
def GTerm.pending (i : Nat) : GTerm → List TreeNode
  | .factor _ => []
  | .mul t op _ => [TreeNode.ofOperator (i + t.tokens.length) op.tag]

/-- Nodes `shuntingYard` has sent to the output after reading a term. -/
def GTerm.emitted (i : Nat) : GTerm → List TreeNode
  | .factor f => (f.tree i).postNodes
  | .mul t _ f => (t.tree i).postNodes ++ (f.tree (i + t.tokens.length + 1)).postNodes

/-- Operators left on the stack of `shuntingYard`, top first, after an expression whose
first token has index `i` has been read. -/
def GExpr.pending (i : Nat) : GExpr → List TreeNode
  | .term t => t.pending i
  | .add e op t =>
    t.pending (i + e.tokens.length + 1) ++ [TreeNode.ofOperator (i + e.tokens.length) op.tag]

/-- Nodes `shuntingYard` has sent to the output after reading an expression. -/
def GExpr.emitted (i : Nat) : GExpr → List TreeNode
  | .term t => t.emitted i
  | .add e _ t => (e.tree i).postNodes ++ t.emitted (i + e.tokens.length + 1)

/-- The loop of lines 124-128 for an incoming operator of precedence `p` stops at once on
this stack: it is empty, or its top is not a real operator of precedence `p` or more. -/
def Stops (p : Int) : List TreeNode → Prop
  | [] => True
  | .null :: _ => False
  | .node _ op _ _ _ :: _ => ¬ (op.isOperator = true ∧ p ≤ precedence op)

/-- Every entry is a childless real operator of precedence `p` or more. -/
def IsOps (p : Int) (pend : List TreeNode) : Prop :=
  ∀ x ∈ pend, ∃ a op, x = TreeNode.ofOperator a op ∧ op.isOperator = true ∧ p ≤ precedence op

/-! ## Outcomes of a call -/

/-- Modelled from the spec: the error kinds of its section 7. None of them is declared
or raised anywhere in ExprTree.cpp. -/
inductive ErrorKind where
  | MalformedExpression | UnrecognizedToken | DivisionByZero | EmptyTreeEvaluation
  deriving DecidableEq

/-- How a call can end for its caller: it returns a value, it reports a failure of some
kind, or it performs an operation for which C++ defines no behaviour. -/
inductive Outcome (α : Type) where
  | returned (value : α) : Outcome α
  | failure (kind : ErrorKind) : Outcome α
  | undefined : Outcome α

/-- The outcome of a call of the embedded code. ExprTree.cpp has no `throw`, no error
code and no error value, so a call returns or is undefined; it never reports a failure. -/
def outcome {α : Type} : Option α → Outcome α
  | some a => .returned a
  | none => .undefined

/-- The nodes `evaluate` is called on when it is called on a pointer: the node itself
and, below a node that is not a value, the nodes of both subtrees. -/
def TreeNode.evaluated : TreeNode → List TreeNode
  | .null => []
  | .node a op v l r =>
    if op.isValue then [.node a op v l r]
    else .node a op v l r :: (l.evaluated ++ r.evaluated)

/-- The token of an operator tag (empty for a tag that is not an operator). -/
def Operator.text : Operator → Str
  | .Plus => ['+']
  | .Minus => ['-']
  | .Times => ['*']
  | .Divide => ['/']
  | _ => []

/-! ## Conditions on the tokens of an expression -/

/-- Every number token denotes a value that fits in an `int`. -/
def numbersFit (tokens : List Str) : Bool :=
  tokens.all fun t => !isNumeral t || decide ((numeralValue t : Int) ≤ INT_MAX)

/-- No number token has a leading zero: it is `0`, or it does not start with `0`. -/
def noLeadingZeros (tokens : List Str) : Bool :=
  tokens.all fun t => !isNumeral t || t == ['0'] || t.head? != some '0'

/-- A token other than `(` and `)`. -/
def notParenthesis (t : Str) : Bool := t != ['('] && t != [')']

/-- No token is one of the operators `+ - * /`. -/
def operatorFree (tokens : List Str) : Bool :=
  tokens.all fun t => t != ['+'] && t != ['-'] && t != ['*'] && t != ['/']

/-- A node as the data model has it in a finished tree: a value without children, or an
operator `+ - * /` with two children. -/
def TreeNode.modelNode : TreeNode → Bool
  | .null => false
  | .node _ op _ l r =>
    (op.isValue && l.isNull && r.isNull) || (op.isOperator && !l.isNull && !r.isNull)

/-- The pointer is to a value node. -/
def TreeNode.isValueNode : TreeNode → Bool
  | .null => false
  | .node _ op _ _ _ => op.isValue

/-- A character a postfix rendering of a tree of values and operators is made of: a
space, a digit, or one of `+ - * /`. -/
def postfixChar (c : Char) : Bool :=
  c == ' ' || isdigit c || c == '+' || c == '-' || c == '*' || c == '/'

/-- The same nodes with every stored value set to 0: what is left of a tree when the
numbers in it are disregarded. -/
def TreeNode.erase : TreeNode → TreeNode
  | .null => .null
  | .node a op _ l r => .node a op 0 l.erase r.erase

/-! ## Size -/

theorem calculateTreeSize_eq_length (n : TreeNode) :
    calculateTreeSize n = (n.reachable.length : Int) := by
  induction n with
  | null => rfl
  | node a op v l r ihl ihr =>
    simp only [calculateTreeSize, TreeNode.reachable, List.length_cons, List.length_append, ihl,
      ihr]
    push_cast
    ring

theorem reachable_eq_nil (n : TreeNode) : n.reachable = [] ↔ n = .null := by
  cases n <;> simp [TreeNode.reachable]

theorem ofRoot_facts (r : TreeNode) :
    (ExprTree.ofRoot r).size = ((ExprTree.ofRoot r).root.reachable.length : Int) ∧
    ((ExprTree.ofRoot r).isEmpty = true ↔ (ExprTree.ofRoot r).size = 0) ∧
    ((ExprTree.ofRoot r).isEmpty = true ↔ (ExprTree.ofRoot r).root = .null) := by
  refine ⟨?_, ?_, ?_⟩
  · simp [ExprTree.ofRoot, ExprTree.size, calculateTreeSize_eq_length]
  · simp [ExprTree.isEmpty, ExprTree.size]
  · simp only [ExprTree.isEmpty, ExprTree.ofRoot, calculateTreeSize_eq_length, beq_iff_eq]
    rw [← reachable_eq_nil]
    constructor
    · intro h
      exact List.length_eq_zero.mp (by exact_mod_cast h)
    · intro h
      simp [h]

theorem buildTree_eq_ofRoot (tokens : List Str) (t : ExprTree)
    (h : ExprTree.buildTree tokens = some t) : ∃ r, t = ExprTree.ofRoot r := by
  simp only [ExprTree.buildTree, Option.bind_eq_some, Option.map_eq_some'] at h
  obtain ⟨_, _, _, _, r, _, hr⟩ := h
  exact ⟨r, hr.symm⟩

/-- C6: for a tree made by `ExprTree()`, by `ExprTree(root)` or by `buildTree`, `size()`
is the number of nodes reachable from the root, and `isEmpty()` holds exactly when
`size()` is 0, which is exactly when the tree has no root. -/
theorem size_counts_reachable_nodes (t : ExprTree) (h : Constructed t) :
    t.size = (t.root.reachable.length : Int) ∧
    (t.isEmpty = true ↔ t.size = 0) ∧
    (t.isEmpty = true ↔ t.root = .null) := by
  cases h with
  | empty => simp [ExprTree.empty, ExprTree.size, ExprTree.isEmpty, TreeNode.reachable]
  | ofRoot r => exact ofRoot_facts r
  | built tokens t hb =>
    obtain ⟨r, rfl⟩ := buildTree_eq_ofRoot tokens t hb
    exact ofRoot_facts r

/-- Witness of C6 on the tree built from `3 + 4 * 2`, which has five nodes. -/
theorem size_counts_reachable_nodes_witness :
    ExprTree.buildTree (ExprTree.tokenise "3 + 4 * 2".toList) =
      some (ExprTree.ofRoot
        (.node 1 .Plus 0 (.node 0 .Value 3 .null .null)
          (.node 3 .Times 0 (.node 2 .Value 4 .null .null) (.node 4 .Value 2 .null .null)))) ∧
    (ExprTree.ofRoot
        (.node 1 .Plus 0 (.node 0 .Value 3 .null .null)
          (.node 3 .Times 0 (.node 2 .Value 4 .null .null) (.node 4 .Value 2 .null .null)))).size
      = 5 :=
  ⟨by decide,
   (size_counts_reachable_nodes _ (Constructed.built (ExprTree.tokenise "3 + 4 * 2".toList) _
      (by decide))).1⟩

/-! ## Joining with spaces -/

theorem joinSpaced_nil : joinSpaced [] = [] := rfl

theorem joinSpaced_singleton (x : Str) : joinSpaced [x] = x := by
  simp [joinSpaced, List.intercalate]

theorem joinSpaced_cons_cons (x y : Str) (ys : List Str) :
    joinSpaced (x :: y :: ys) = x ++ ' ' :: joinSpaced (y :: ys) := by
  simp [joinSpaced, List.intercalate]

theorem joinSpaced_cons_of_ne_nil (x : Str) (xs : List Str) (h : xs ≠ []) :
    joinSpaced (x :: xs) = x ++ ' ' :: joinSpaced xs := by
  cases xs with
  | nil => exact absurd rfl h
  | cons y ys => exact joinSpaced_cons_cons x y ys

theorem joinSpaced_concat (xs : List Str) (y : Str) :
    joinSpaced (xs ++ [y]) = (xs.map fun x => x ++ [' ']).flatten ++ y := by
  induction xs with
  | nil => simp [joinSpaced_singleton]
  | cons x xs ih =>
    rw [List.cons_append, joinSpaced_cons_of_ne_nil _ _ (by simp), ih]
    simp

/-! ## Postfix rendering -/

theorem postOrderTraversalString_inner (noOp : Str) (tree : ExprTree) (n : TreeNode)
    (h : ∀ x ∈ n.reachable, x.samePointer tree.root = false) :
    postOrderTraversalString noOp tree n
      = ((n.postOrder noOp).map fun x => x ++ [' ']).flatten := by
  induction n with
  | null => rfl
  | node a op v l r ihl ihr =>
    have hl := ihl (fun x hx => h x (by simp [TreeNode.reachable, hx]))
    have hr := ihr (fun x hx => h x (by simp [TreeNode.reachable, hx]))
    have hself := h (.node a op v l r) (by simp [TreeNode.reachable])
    simp [postOrderTraversalString, TreeNode.postOrder, hl, hr, hself]

theorem samePointer_false_of_not_mem (a : Nat) (op : Operator) (v : Int) (l r n : TreeNode)
    (h : a ∉ n.addresses) :
    ∀ x ∈ n.reachable, x.samePointer (.node a op v l r) = false := by
  induction n with
  | null => simp [TreeNode.reachable]
  | node b op1 v1 l1 r1 ihl ihr =>
    simp only [TreeNode.addresses, List.mem_cons, List.mem_append, not_or] at h
    intro x hx
    simp only [TreeNode.reachable, List.mem_cons, List.mem_append] at hx
    rcases hx with rfl | hx | hx
    · simp only [TreeNode.samePointer, beq_eq_false_iff_ne, ne_eq]
      exact fun e => h.1 e.symm
    · exact ihl h.2.1 x hx
    · exact ihr h.2.2 x hx

/-- C7: for a tree whose nodes are distinct heap objects, `postfixOrder` returns the
symbols of the nodes in post-order (left subtree, right subtree, node) joined by exactly
one space, with no leading or trailing space, and the empty string for the empty tree.
`symbol` gives the decimal numeral of a value node and the operator character of an
operator node. -/
theorem postfixOrder_eq_joinSpaced (noOp : Str) (t : ExprTree)
    (h : t.root.addresses.Nodup) :
    ExprTree.postfixOrder noOp t = joinSpaced (t.root.postOrder noOp) ∧
    (t.root = .null → ExprTree.postfixOrder noOp t = []) := by
  obtain ⟨root, size⟩ := t
  cases root with
  | null => simp [ExprTree.postfixOrder, postOrderTraversalString, TreeNode.postOrder, joinSpaced_nil]
  | node a op v l r =>
    simp only [TreeNode.addresses, List.nodup_cons, List.mem_append, not_or] at h
    have hl := postOrderTraversalString_inner noOp ⟨.node a op v l r, size⟩ l
      (samePointer_false_of_not_mem a op v l r l h.1.1)
    have hr := postOrderTraversalString_inner noOp ⟨.node a op v l r, size⟩ r
      (samePointer_false_of_not_mem a op v l r r h.1.2)
    refine ⟨?_, by simp⟩
    simp only [ExprTree.postfixOrder, postOrderTraversalString, TreeNode.postOrder, hl, hr,
      joinSpaced_concat, TreeNode.samePointer, beq_self_eq_true, if_true, List.append_nil,
      List.map_append, List.flatten_append]

/-- Witness of C7 on the tree of `3 + 4 * 2`, rendered as `3 4 2 * +`. -/
theorem postfixOrder_eq_joinSpaced_witness :
    (TreeNode.node 1 .Plus 0 (.node 0 .Value 3 .null .null)
      (.node 3 .Times 0 (.node 2 .Value 4 .null .null)
        (.node 4 .Value 2 .null .null))).addresses.Nodup ∧
    ExprTree.postfixOrder [] (ExprTree.ofRoot
      (.node 1 .Plus 0 (.node 0 .Value 3 .null .null)
        (.node 3 .Times 0 (.node 2 .Value 4 .null .null) (.node 4 .Value 2 .null .null))))
      = "3 4 2 * +".toList :=
  ⟨by decide, (postfixOrder_eq_joinSpaced [] (ExprTree.ofRoot
      (.node 1 .Plus 0 (.node 0 .Value 3 .null .null)
        (.node 3 .Times 0 (.node 2 .Value 4 .null .null) (.node 4 .Value 2 .null .null))))
      (by decide)).1⟩

/-! ## Prefix rendering -/

theorem stackCount_pushChild (c : TreeNode) (st : List TreeNode) :
    stackCount (pushChild c st) = c.count + stackCount st := by
  cases c <;> simp [pushChild, TreeNode.isNull, stackCount, TreeNode.count]

theorem pushChild_ne_null (c : TreeNode) (st : List TreeNode)
    (h : ∀ x ∈ st, x ≠ TreeNode.null) : ∀ x ∈ pushChild c st, x ≠ TreeNode.null := by
  cases c with
  | null => simpa [pushChild, TreeNode.isNull] using h
  | node a op v l r =>
    intro x hx
    simp only [pushChild, TreeNode.isNull, Bool.false_eq_true, if_false, List.mem_cons] at hx
    rcases hx with rfl | hx
    · simp
    · exact h x hx

theorem prefixLoop_result (noOp : Str) (size : Int) :
    ∀ (n : Nat) (cur : TreeNode) (st : List TreeNode) (k : Int) (s : Str) (p : Nat),
      cur.count + stackCount st = n → cur ≠ .null → (∀ x ∈ st, x ≠ TreeNode.null) →
      (prefixLoop noOp size cur st k s p).result = none := by
  intro n
  induction n using Nat.strong_induction_on with
  | _ n ih =>
    intro cur st k s p hn hcur hst
    cases cur with
    | null => exact absurd rfl hcur
    | node a op v l r =>
      have hcount : stackCount (pushChild l (pushChild r st))
          = l.count + (r.count + stackCount st) := by
        rw [stackCount_pushChild, stackCount_pushChild]
      have hnn := pushChild_ne_null l _ (pushChild_ne_null r st hst)
      rw [prefixLoop]
      split
      next top below heq =>
        rw [heq] at hcount hnn
        simp only [stackCount] at hcount
        simp only [TreeNode.count] at hn
        exact ih (top.count + stackCount below) (by omega) top below _ _ _ rfl
          (hnn top (by simp)) (fun x hx => hnn x (by simp [hx]))
      next heq => rfl

/-- C8, on the code: for the empty tree `prefixOrder` returns the empty string, as the
claim says; for every non-empty tree, whatever its cached size, the run calls
`nodeStack.pop()` on the empty stack in its last iteration (line 267) and has no defined
result, so it does not return the pre-order rendering. -/
theorem prefixOrder_no_defined_result (noOp : Str) (t : ExprTree) :
    (t.root = .null → (ExprTree.prefixOrder noOp t).result = some []) ∧
    (t.root ≠ .null → (ExprTree.prefixOrder noOp t).result = none) := by
  constructor
  · intro h
    simp [ExprTree.prefixOrder, h, prefixLoop]
  · intro h
    rw [ExprTree.prefixOrder]
    exact prefixLoop_result noOp t._size _ t.root [] 0 [] 0 rfl h (by simp)

/-- Witness of C8 on the tree of the single leaf 3, as `ExprTree(TreeNode *)` makes it:
`prefixOrder` has no defined result, where the pre-order rendering is `3`. -/
theorem prefixOrder_no_defined_result_witness :
    (ExprTree.ofRoot (.node 0 .Value 3 .null .null)).root ≠ .null ∧
    (ExprTree.prefixOrder [] (ExprTree.ofRoot (.node 0 .Value 3 .null .null))).result = none :=
  ⟨by decide,
    (prefixOrder_no_defined_result [] (ExprTree.ofRoot (.node 0 .Value 3 .null .null))).2
      (by decide)⟩

/-! ## Infix rendering -/

theorem count_pos_of_ne_null (n : TreeNode) (h : n ≠ .null) : 1 ≤ n.count := by
  cases n with
  | null => exact absurd rfl h
  | node a op v l r => simp [TreeNode.count]

theorem inOrder_eq_nil (noOp : Str) (n : TreeNode) : n.inOrder noOp = [] ↔ n = .null := by
  cases n <;> simp [TreeNode.inOrder]

theorem shaped_node (a : Nat) (op : Operator) (v : Int) (l r : TreeNode)
    (h : (TreeNode.node a op v l r).shaped = true) :
    l.shaped = true ∧ r.shaped = true ∧ (l ≠ .null → r ≠ .null) := by
  simp only [TreeNode.shaped, Bool.and_eq_true] at h
  refine ⟨h.1.2, h.2, ?_⟩
  intro hl
  have h1 := h.1.1
  cases l with
  | null => exact absurd rfl hl
  | node a1 op1 v1 l1 r1 =>
    cases r with
    | null => cases hv : op.isValue <;> simp [hv, TreeNode.isNull] at h1
    | node a2 op2 v2 l2 r2 => simp

theorem infixLoop_output (noOp : Str) (size : Int) :
    ∀ (n : Nat) (cur : TreeNode) (st : List TreeNode) (k : Int) (s : Str),
      infixWork cur st = n →
      cur.shaped = true → (∀ x ∈ st, x ≠ TreeNode.null ∧ x.shaped = true) →
      k + ((cur.count + stackedRightCount st : Nat) : Int) = size →
      (cur ≠ .null → ∀ b ∈ st, b.right ≠ .null) → (∀ b ∈ st.tail, b.right ≠ .null) →
      infixLoop noOp size cur st k s
        = some (s ++ joinSpaced (cur.inOrder noOp ++ stackedSymbols noOp st)) := by
  intro n
  induction n using Nat.strong_induction_on with
  | _ n ih =>
    intro cur st k s hn hcur hst hk htop htail
    cases cur with
    | node a op v l r =>
      obtain ⟨hl, hr, hlr⟩ := shaped_node a op v l r hcur
      rw [infixLoop]
      rw [ih (infixWork l (.node a op v l r :: st))
        (by rw [← hn]; simp only [infixWork, TreeNode.count, List.map_cons, List.sum_cons]; omega)
        l _ _ _ rfl hl]
      · simp [TreeNode.inOrder, stackedSymbols]
      · intro x hx
        rcases List.mem_cons.mp hx with rfl | hx
        · exact ⟨by simp, hcur⟩
        · exact hst x hx
      · rw [← hk]
        simp only [stackedRightCount, TreeNode.right, TreeNode.count]
        push_cast
        ring
      · intro hne b hb
        rcases List.mem_cons.mp hb with rfl | hb
        · exact hlr hne
        · exact htop (by simp) b hb
      · intro b hb
        exact htop (by simp) b (by simpa using hb)
    | null =>
      cases st with
      | nil => simp [infixLoop, TreeNode.inOrder, stackedSymbols, joinSpaced_nil]
      | cons top below =>
        cases top with
        | null => exact absurd rfl (hst .null (by simp)).1
        | node a op v l r =>
          obtain ⟨_, hr, _⟩ := shaped_node a op v l r (hst _ (by simp)).2
          rw [infixLoop]
          rw [ih (infixWork r below)
            (by rw [← hn]; simp only [infixWork, TreeNode.count, List.map_cons, List.sum_cons]; omega)
            r below _ _ rfl hr (fun x hx => hst x (by simp [hx]))]
          · simp only [TreeNode.inOrder, stackedSymbols, List.nil_append]
            by_cases hrest : r.inOrder noOp ++ stackedSymbols noOp below = []
            · rw [hrest]
              rw [List.append_eq_nil] at hrest
              have hrnull := (inOrder_eq_nil noOp r).mp hrest.1
              have hbelow : below = [] := by
                cases below with
                | nil => rfl
                | cons b bs =>
                  have hb := (hst b (by simp)).1
                  cases b with
                  | null => exact absurd rfl hb
                  | node _ _ _ _ _ => simp [stackedSymbols] at hrest
              subst hrnull hbelow
              have : k = size := by simpa [stackedRightCount, TreeNode.count, TreeNode.right] using hk
              simp [this, joinSpaced_singleton, joinSpaced_nil]
            · have hne : k ≠ size := by
                have hpos : 1 ≤ r.count + stackedRightCount below := by
                  by_cases hrn : r = .null
                  · subst hrn
                    cases below with
                    | nil => simp [TreeNode.inOrder, stackedSymbols] at hrest
                    | cons b bs =>
                      have := count_pos_of_ne_null b.right (htail b (by simp))
                      simp only [stackedRightCount]
                      omega
                  · have := count_pos_of_ne_null r hrn
                    omega
                simp only [stackedRightCount, TreeNode.count, TreeNode.right] at hk
                push_cast at hk
                omega
              rw [joinSpaced_cons_of_ne_nil _ _ hrest]
              simp [hne]
          · rw [← hk]
            simp only [stackedRightCount, TreeNode.right, TreeNode.count]
            push_cast
            ring
          · intro _ b hb
            exact htail b (by simpa using hb)
          · intro b hb
            exact htail b (by simpa using List.mem_of_mem_tail hb)

theorem count_cast_eq_calculateTreeSize (n : TreeNode) :
    (n.count : Int) = calculateTreeSize n := by
  induction n with
  | null => rfl
  | node a op v l r ihl ihr =>
    simp only [calculateTreeSize, TreeNode.count, ← ihl, ← ihr]
    push_cast
    ring

/-- C9: for a tree in which every value node has no child and every other node has two,
and whose cached size equals its node count, `infixOrder` returns the symbols of the
nodes in in-order (left subtree, node, right subtree) joined by exactly one space, with
nothing added (no parentheses, no leading or trailing space), and the empty string for
the empty tree. -/
theorem infixOrder_eq_joinSpaced (noOp : Str) (t : ExprTree)
    (hshape : t.root.shaped = true) (hsize : t._size = calculateTreeSize t.root) :
    ExprTree.infixOrder noOp t = some (joinSpaced (t.root.inOrder noOp)) ∧
    (t.root = .null → ExprTree.infixOrder noOp t = some []) := by
  obtain ⟨root, size⟩ := t
  simp only at hshape hsize
  have main : ExprTree.infixOrder noOp ⟨root, size⟩ = some (joinSpaced (root.inOrder noOp)) := by
    rw [ExprTree.infixOrder, infixLoop_output noOp size _ root [] 0 [] rfl hshape (by simp)
      (by simp [stackedRightCount, hsize, count_cast_eq_calculateTreeSize]) (by simp) (by simp)]
    simp [stackedSymbols]
  refine ⟨main, ?_⟩
  intro hnull
  simp only at hnull
  rw [main, hnull]
  rfl

/-- Witness of C9 on the tree of `3 + 4 * 2`, rendered as `3 + 4 * 2`. -/
theorem infixOrder_eq_joinSpaced_witness :
    (ExprTree.ofRoot
      (.node 1 .Plus 0 (.node 0 .Value 3 .null .null)
        (.node 3 .Times 0 (.node 2 .Value 4 .null .null)
          (.node 4 .Value 2 .null .null)))).root.shaped = true ∧
    ExprTree.infixOrder [] (ExprTree.ofRoot
      (.node 1 .Plus 0 (.node 0 .Value 3 .null .null)
        (.node 3 .Times 0 (.node 2 .Value 4 .null .null)
          (.node 4 .Value 2 .null .null)))) = some "3 + 4 * 2".toList :=
  ⟨by decide, (infixOrder_eq_joinSpaced [] (ExprTree.ofRoot
      (.node 1 .Plus 0 (.node 0 .Value 3 .null .null)
        (.node 3 .Times 0 (.node 2 .Value 4 .null .null) (.node 4 .Value 2 .null .null))))
      (by decide) (by decide)).1⟩

/-! ## Evaluation -/

/-- C10: `evaluate` applies the operator of a node to the value of the left child first
and of the right child second, and `Divide` is the quotient rounded toward zero (its
magnitude is the magnitude of the left value divided by that of the right, rounded
down): with the left child evaluating to `x`, the right child to `y`, and the result in
the range of `int`. The tree of `(1 - 4) / 2` evaluates to -1. -/
theorem evaluate_applies_left_then_right (a : Nat) (v x y : Int) (l r : TreeNode)
    (hl : ExprTree.evaluate l = some x) (hr : ExprTree.evaluate r = some y) :
    (INT_MIN ≤ x + y ∧ x + y ≤ INT_MAX →
      ExprTree.evaluate (.node a .Plus v l r) = some (x + y)) ∧
    (INT_MIN ≤ x - y ∧ x - y ≤ INT_MAX →
      ExprTree.evaluate (.node a .Minus v l r) = some (x - y)) ∧
    (INT_MIN ≤ x * y ∧ x * y ≤ INT_MAX →
      ExprTree.evaluate (.node a .Times v l r) = some (x * y)) ∧
    (y ≠ 0 → INT_MIN ≤ Int.tdiv x y ∧ Int.tdiv x y ≤ INT_MAX →
      ExprTree.evaluate (.node a .Divide v l r) = some (Int.tdiv x y) ∧
      (Int.tdiv x y).natAbs = x.natAbs / y.natAbs ∧
      (0 ≤ x → 0 < y → 0 ≤ Int.tdiv x y) ∧ (x ≤ 0 → 0 < y → Int.tdiv x y ≤ 0)) ∧
    (ExprTree.buildTree (ExprTree.tokenise "(1 - 4) / 2".toList)).bind
      ExprTree.evaluateWholeTree = some (-1) := by
  have hplus : ExprTree.evaluate (.node a .Plus v l r) = checkedInt (x + y) := by
    simp [ExprTree.evaluate, Operator.isValue, hl, hr]
  have hminus : ExprTree.evaluate (.node a .Minus v l r) = checkedInt (x - y) := by
    simp [ExprTree.evaluate, Operator.isValue, hl, hr]
  have htimes : ExprTree.evaluate (.node a .Times v l r) = checkedInt (x * y) := by
    simp [ExprTree.evaluate, Operator.isValue, hl, hr]
  have hdiv : ExprTree.evaluate (.node a .Divide v l r)
      = if y = 0 then none else checkedInt (Int.tdiv x y) := by
    simp [ExprTree.evaluate, Operator.isValue, hl, hr]
  refine ⟨?_, ?_, ?_, ?_, by decide⟩
  · intro h
    rw [hplus, checkedInt, if_pos h]
  · intro h
    rw [hminus, checkedInt, if_pos h]
  · intro h
    rw [htimes, checkedInt, if_pos h]
  · intro hy h
    refine ⟨by rw [hdiv, if_neg hy, checkedInt, if_pos h], ?_, ?_, ?_⟩
    · exact Int.natAbs_tdiv x y
    · intro hx hy0
      exact Int.tdiv_nonneg hx hy0.le
    · intro hx hy0
      have hneg := Int.tdiv_nonneg (neg_nonneg.mpr hx) hy0.le
      rw [Int.neg_tdiv] at hneg
      omega

/-- Witness of C10: a `Divide` node over the leaves -3 and 2 evaluates to -1. -/
theorem evaluate_applies_left_then_right_witness :
    ExprTree.evaluate (.node 2 .Divide 0 (.node 0 .Value (-3) .null .null)
      (.node 1 .Value 2 .null .null)) = some (-1) :=
  ((evaluate_applies_left_then_right 2 0 (-3) 2 (.node 0 .Value (-3) .null .null)
      (.node 1 .Value 2 .null .null) (by decide) (by decide)).2.2.2.1
    (by decide) (by decide)).1

/-! ## The worked examples -/

/-- C2, on the code: for the input `3 + 4 * 2`, `tokenise` returns the five tokens,
`shuntingYard` returns the nodes 3, 4, 2, `*`, `+`, `buildTree` returns the tree with
root `+`, left child the leaf 3 and right child `*` over 4 and 2, `evaluateWholeTree`
returns 11, and the infix and postfix renderings are `3 + 4 * 2` and `3 4 2 * +`, all as
the claim says; `prefixOrder` on that tree calls `nodeStack.pop()` on the empty stack
after the last node (line 267) and has no defined result, so it does not return
`+ 3 * 4 2`. -/
theorem example_three_plus_four_times_two (noOp : Str) :
    ExprTree.tokenise "3 + 4 * 2".toList = [['3'], ['+'], ['4'], ['*'], ['2']] ∧
    shuntingYard [['3'], ['+'], ['4'], ['*'], ['2']] =
      some [.node 0 .Value 3 .null .null, .node 2 .Value 4 .null .null,
        .node 4 .Value 2 .null .null, .node 3 .Times 0 .null .null,
        .node 1 .Plus 0 .null .null] ∧
    ExprTree.buildTree [['3'], ['+'], ['4'], ['*'], ['2']] =
      some { root := .node 1 .Plus 0 (.node 0 .Value 3 .null .null)
               (.node 3 .Times 0 (.node 2 .Value 4 .null .null) (.node 4 .Value 2 .null .null)),
             _size := 5 } ∧
    (ExprTree.buildTree (ExprTree.tokenise "3 + 4 * 2".toList)).bind
      ExprTree.evaluateWholeTree = some 11 ∧
    (ExprTree.buildTree (ExprTree.tokenise "3 + 4 * 2".toList)).map
      (fun t => ExprTree.prefixOrder noOp t) = some { result := none, emptyPops := 1 } ∧
    (ExprTree.buildTree (ExprTree.tokenise "3 + 4 * 2".toList)).bind
      (ExprTree.infixOrder noOp) = some "3 + 4 * 2".toList ∧
    (ExprTree.buildTree (ExprTree.tokenise "3 + 4 * 2".toList)).map
      (ExprTree.postfixOrder noOp) = some "3 4 2 * +".toList := by
  have hb : ExprTree.buildTree (ExprTree.tokenise "3 + 4 * 2".toList) =
      some { root := .node 1 .Plus 0 (.node 0 .Value 3 .null .null)
               (.node 3 .Times 0 (.node 2 .Value 4 .null .null) (.node 4 .Value 2 .null .null)),
             _size := 5 } := by decide
  refine ⟨by decide, by decide, by decide, by decide, ?_, ?_, ?_⟩
  · rw [hb]
    simp [ExprTree.prefixOrder, prefixLoop, pushChild, TreeNode.isNull]
  · rw [hb]
    simp [ExprTree.infixOrder, infixLoop, symbol, to_string]
    rfl
  · rw [hb]
    rfl

/-- C3: the tree built from `(1 + 2) * 3` evaluates to 9 and its postfix rendering is
`1 2 + 3 *`; the postfix node sequence is 1, 2, `+`, 3, `*`, with no placeholder for the
parenthesis in it. -/
theorem example_parenthesised_sum_times_three (noOp : Str) :
    (ExprTree.buildTree (ExprTree.tokenise "(1 + 2) * 3".toList)).bind
      ExprTree.evaluateWholeTree = some 9 ∧
    (ExprTree.buildTree (ExprTree.tokenise "(1 + 2) * 3".toList)).map
      (ExprTree.postfixOrder noOp) = some "1 2 + 3 *".toList ∧
    shuntingYard (ExprTree.tokenise "(1 + 2) * 3".toList) =
      some [.node 1 .Value 1 .null .null, .node 3 .Value 2 .null .null,
        .node 2 .Plus 0 .null .null, .node 6 .Value 3 .null .null,
        .node 5 .Times 0 .null .null] := by
  have hb : ExprTree.buildTree (ExprTree.tokenise "(1 + 2) * 3".toList) =
      some { root := .node 5 .Times 0
               (.node 2 .Plus 0 (.node 1 .Value 1 .null .null) (.node 3 .Value 2 .null .null))
               (.node 6 .Value 3 .null .null),
             _size := 5 } := by decide
  refine ⟨by decide, ?_, by decide⟩
  rw [hb]
  rfl

/-! ## Tokeniser -/

theorem removeSpaces_eq_filter (e : Str) : removeSpaces e = e.filter (fun c => c != ' ') := by
  induction e with
  | nil => rfl
  | cons c cs ih =>
    by_cases h : c = ' '
    · simp [removeSpaces, h, ih]
    · simp [removeSpaces, List.filter_cons, h, ih]

theorem tokeniseLoop_digits (ds : Str) (hds : ∀ c ∈ ds, isdigit c = true) :
    ∀ (more holder : Str) (acc : List Str),
      tokeniseLoop (ds ++ more) holder acc = tokeniseLoop more (holder ++ ds) acc := by
  induction ds with
  | nil => intro more holder acc; simp
  | cons d ds ih =>
    intro more holder acc
    have hd : isdigit d = true := hds d (by simp)
    rw [List.cons_append, tokeniseLoop]
    simp only [hd, Bool.not_true, Bool.false_eq_true, if_false]
    rw [ih (fun c hc => hds c (by simp [hc]))]
    simp

theorem isNumeral_iff (t : Str) :
    isNumeral t = true ↔ t ≠ [] ∧ ∀ c ∈ t, isdigit c = true := by
  cases t <;> simp [isNumeral]

theorem isSingleNonDigit_iff (t : Str) :
    isSingleNonDigit t = true ↔ ∃ c, t = [c] ∧ isdigit c = false := by
  match t with
  | [] => simp [isSingleNonDigit]
  | [c] => simp [isSingleNonDigit]
  | _ :: _ :: _ => simp [isSingleNonDigit]

theorem not_numeral_of_single (t : Str) (h : isSingleNonDigit t = true) :
    isNumeral t = false := by
  obtain ⟨c, rfl, hc⟩ := (isSingleNonDigit_iff t).mp h
  simp [isNumeral, hc]

theorem MaximalRuns.tail {t : Str} {ts : List Str} (h : MaximalRuns (t :: ts)) :
    MaximalRuns ts :=
  ⟨fun x hx => h.1 x (by simp [hx]), h.2.tail⟩

/-- Running the loop of `tokenise` on the text of a maximal-run tokenisation without
white space gives that tokenisation back. -/
theorem tokeniseLoop_flatten :
    ∀ (n : Nat) (ts : List Str), ts.length = n → MaximalRuns ts →
      (∀ t ∈ ts, ∀ c ∈ t, isspace c = false) →
      ∀ acc : List Str, tokeniseLoop ts.flatten [] acc = acc ++ ts := by
  intro n
  induction n using Nat.strong_induction_on with
  | _ n ih =>
    intro ts hlen hmax hsp acc
    cases ts with
    | nil => simp [tokeniseLoop]
    | cons t rest =>
      have hrestmax := hmax.tail
      have hrestsp : ∀ t ∈ rest, ∀ c ∈ t, isspace c = false :=
        fun x hx => hsp x (by simp [hx])
      simp only [List.length_cons] at hlen
      rcases hmax.1 t (by simp) with hnum | hsing
      · -- a number token, followed by nothing or by a single non-digit character
        obtain ⟨hne, hdig⟩ := (isNumeral_iff t).mp hnum
        have hne2 : t.isEmpty = false := by cases t <;> simp at hne ⊢
        rw [List.flatten_cons, tokeniseLoop_digits t hdig, List.nil_append]
        cases rest with
        | nil => simp [tokeniseLoop, hne2]
        | cons u rest2 =>
          have hu : isSingleNonDigit u = true := by
            rcases hmax.1 u (by simp) with h1 | h1
            · exact absurd ⟨hnum, h1⟩ (List.chain'_cons.mp hmax.2).1
            · exact h1
          obtain ⟨c, rfl, hc⟩ := (isSingleNonDigit_iff u).mp hu
          have hcsp : isspace c = false := hsp [c] (by simp) c (by simp)
          rw [List.flatten_cons, List.singleton_append, tokeniseLoop]
          simp only [hc, Bool.not_false, if_true, hne2, charToString, hcsp, Bool.false_eq_true,
            if_false]
          rw [ih rest2.length (by simp only [List.length_cons] at hlen; omega) rest2 rfl
            hrestmax.tail (fun x hx => hrestsp x (by simp [hx]))]
          simp
      · -- a single non-digit character
        obtain ⟨c, rfl, hc⟩ := (isSingleNonDigit_iff t).mp hsing
        have hcsp : isspace c = false := hsp [c] (by simp) c (by simp)
        rw [List.flatten_cons, List.singleton_append, tokeniseLoop]
        simp only [hc, Bool.not_false, if_true, List.isEmpty_nil, Bool.not_true,
          Bool.false_eq_true, if_false, charToString, hcsp]
        rw [ih rest.length (by omega) rest rfl hrestmax hrestsp]
        simp

/-- Every text without white space has a maximal-run tokenisation. -/
theorem exists_maximalRuns (s : Str) :
    ∃ ts : List Str, MaximalRuns ts ∧ ts.flatten = s := by
  induction s with
  | nil => exact ⟨[], ⟨by simp, List.chain'_nil⟩, rfl⟩
  | cons c s ih =>
    obtain ⟨ts, hmax, hflat⟩ := ih
    by_cases hc : isdigit c = true
    · cases ts with
      | nil =>
        refine ⟨[[c]], ⟨?_, List.chain'_singleton _⟩, by simp [← hflat]⟩
        intro t ht
        simp only [List.mem_singleton] at ht
        subst ht
        exact Or.inl (by simp [isNumeral, hc])
      | cons t rest =>
        by_cases ht : isNumeral t = true
        · refine ⟨(c :: t) :: rest, ⟨?_, ?_⟩, by simp [← hflat]⟩
          · intro x hx
            rcases List.mem_cons.mp hx with rfl | hx
            · obtain ⟨_, hd⟩ := (isNumeral_iff t).mp ht
              exact Or.inl ((isNumeral_iff _).mpr ⟨by simp, by
                intro d hd2
                rcases List.mem_cons.mp hd2 with rfl | hd2
                · exact hc
                · exact hd d hd2⟩)
            · exact hmax.1 x (by simp [hx])
          · cases rest with
            | nil => exact List.chain'_singleton _
            | cons u rest2 =>
              have h2 := List.chain'_cons.mp hmax.2
              exact List.chain'_cons.mpr ⟨fun h => h2.1 ⟨ht, h.2⟩, h2.2⟩
        · refine ⟨[c] :: t :: rest, ⟨?_, ?_⟩, by simp [← hflat]⟩
          · intro x hx
            rcases List.mem_cons.mp hx with rfl | hx
            · exact Or.inl (by simp [isNumeral, hc])
            · exact hmax.1 x hx
          · exact List.chain'_cons.mpr ⟨fun h => ht h.2, hmax.2⟩
    · have hc2 : isdigit c = false := by simpa using hc
      refine ⟨[c] :: ts, ⟨?_, ?_⟩, by simp [← hflat]⟩
      · intro x hx
        rcases List.mem_cons.mp hx with rfl | hx
        · exact Or.inr (by simp [isSingleNonDigit, hc2])
        · exact hmax.1 x hx
      · cases ts with
        | nil => exact List.chain'_singleton _
        | cons t rest =>
          exact List.chain'_cons.mpr ⟨fun h => by simp [isNumeral, hc2] at h, hmax.2⟩

theorem tokenise_eq_of_maximalRuns (e : Str) (ts : List Str)
    (hsp : ∀ c ∈ e, isspace c = true → c = ' ')
    (hmax : MaximalRuns ts) (hflat : ts.flatten = e.filter (fun c => c != ' ')) :
    ExprTree.tokenise e = ts := by
  have hns : ∀ t ∈ ts, ∀ c ∈ t, isspace c = false := by
    intro t ht c hc
    have hmem : c ∈ ts.flatten := List.mem_flatten.mpr ⟨t, ht, hc⟩
    rw [hflat, List.mem_filter] at hmem
    by_contra hcon
    have := hsp c hmem.1 (by simpa using hcon)
    simp [this] at hmem
  rw [ExprTree.tokenise, removeSpaces_eq_filter, ← hflat,
    tokeniseLoop_flatten ts.length ts rfl hmax hns]
  simp

/-- C4: for an input whose only white-space characters are `' '`, `tokenise` returns the
maximal-run tokenisation of the input with its spaces removed: every token is a non-empty
string of digits or a single non-digit character, no two adjacent tokens are both digit
strings, no token is empty, the tokens concatenate to the input without its spaces, and
no other token sequence has these properties. -/
theorem tokenise_maximal_runs (e : Str) (hsp : ∀ c ∈ e, isspace c = true → c = ' ') :
    MaximalRuns (ExprTree.tokenise e) ∧
    (∀ t ∈ ExprTree.tokenise e, t ≠ []) ∧
    (ExprTree.tokenise e).flatten = e.filter (fun c => c != ' ') ∧
    (∀ ts : List Str, MaximalRuns ts → ts.flatten = e.filter (fun c => c != ' ') →
      ts = ExprTree.tokenise e) := by
  obtain ⟨ts, hmax, hflat⟩ := exists_maximalRuns (e.filter (fun c => c != ' '))
  have heq := tokenise_eq_of_maximalRuns e ts hsp hmax hflat
  rw [heq]
  refine ⟨hmax, ?_, hflat, ?_⟩
  · intro t ht
    rcases hmax.1 t ht with h | h
    · exact ((isNumeral_iff t).mp h).1
    · obtain ⟨c, rfl, _⟩ := (isSingleNonDigit_iff t).mp h
      simp
  · intro ts2 hmax2 hflat2
    rw [← heq]
    exact (tokenise_eq_of_maximalRuns e ts2 hsp hmax2 hflat2).symm

/-- Witness of C4: in `1 2+ 3` the digits separated only by a space merge into `12`. -/
theorem tokenise_maximal_runs_witness :
    (∀ c ∈ "1 2+ 3".toList, isspace c = true → c = ' ') ∧
    ExprTree.tokenise "1 2+ 3".toList = [['1', '2'], ['+'], ['3']] ∧
    (ExprTree.tokenise "1 2+ 3".toList).flatten
      = "1 2+ 3".toList.filter (fun c => c != ' ') :=
  ⟨by decide, by decide, (tokenise_maximal_runs "1 2+ 3".toList (by decide)).2.2.1⟩

/-- C5, as stated, fails: with tabs for white space, `1<TAB>+<TAB>2` tokenises to five
tokens, two of them empty, not to the three tokens of `1+2`. -/
theorem tokenise_tab_counterexample :
    ExprTree.tokenise ['1', '\t', '+', '\t', '2'] = [['1'], [], ['+'], [], ['2']] ∧
    ['1', '\t', '+', '\t', '2'].filter (fun c => !isspace c) = ['1', '+', '2'] ∧
    ExprTree.tokenise ['1', '+', '2'] = [['1'], ['+'], ['2']] ∧
    ExprTree.tokenise ['1', '\t', '+', '\t', '2']
      ≠ ExprTree.tokenise (['1', '\t', '+', '\t', '2'].filter (fun c => !isspace c)) := by
  decide

theorem mem_tokeniseLoop (s : Str) :
    ∀ (holder : Str) (acc : List Str) (t : Str), t ∈ tokeniseLoop s holder acc →
      ∀ c ∈ t, c ∈ s ∨ c ∈ holder ∨ ∃ u ∈ acc, c ∈ u := by
  induction s with
  | nil =>
    intro holder acc t ht c hc
    simp only [tokeniseLoop] at ht
    split at ht
    · rcases List.mem_append.mp ht with h | h
      · exact Or.inr (Or.inr ⟨t, h, hc⟩)
      · simp only [List.mem_singleton] at h
        subst h
        exact Or.inr (Or.inl hc)
    · exact Or.inr (Or.inr ⟨t, ht, hc⟩)
  | cons d s ih =>
    intro holder acc t ht c hc
    rw [tokeniseLoop] at ht
    split at ht
    · rcases ih _ _ t ht c hc with h | h | ⟨u, hu, hcu⟩
      · exact Or.inl (by simp [h])
      · simp at h
      · rcases List.mem_append.mp hu with hu | hu
        · split at hu
          · rcases List.mem_append.mp hu with hu | hu
            · exact Or.inr (Or.inr ⟨u, hu, hcu⟩)
            · simp only [List.mem_singleton] at hu
              subst hu
              exact Or.inr (Or.inl hcu)
          · exact Or.inr (Or.inr ⟨u, hu, hcu⟩)
        · simp only [List.mem_singleton] at hu
          subst hu
          simp only [charToString] at hcu
          split at hcu
          · simp at hcu
          · simp only [List.mem_singleton] at hcu
            exact Or.inl (by simp [hcu])
    · rcases ih _ _ t ht c hc with h | h | h
      · exact Or.inl (by simp [h])
      · rcases List.mem_append.mp h with h | h
        · exact Or.inr (Or.inl h)
        · simp only [List.mem_singleton] at h
          exact Or.inl (by simp [h])
      · exact Or.inr (Or.inr h)

/-- C5 amended: `tokenise` discards every space character `' '`: the tokens of an input
are the tokens of the input with every `' '` removed, and no token contains a `' '`;
`1 + 2` tokenises to `1`, `+`, `2`. -/
theorem tokenise_discards_spaces (e : Str) :
    ExprTree.tokenise e = ExprTree.tokenise (e.filter (fun c => c != ' ')) ∧
    (∀ t ∈ ExprTree.tokenise e, ' ' ∉ t) ∧
    ExprTree.tokenise "1 + 2".toList = [['1'], ['+'], ['2']] := by
  refine ⟨?_, ?_, by decide⟩
  · simp only [ExprTree.tokenise, removeSpaces_eq_filter, List.filter_filter, Bool.and_self]
  · intro t ht hmem
    rw [ExprTree.tokenise, removeSpaces_eq_filter] at ht
    rcases mem_tokeniseLoop _ _ _ t ht ' ' hmem with h | h | ⟨u, hu, _⟩
    · simp at h
    · simp at h
    · simp at hu

/-! ## From the text of an expression to its value -/

theorem isdigit_cases (c : Char) (h : isdigit c = true) :
    c = '0' ∨ c = '1' ∨ c = '2' ∨ c = '3' ∨ c = '4' ∨ c = '5' ∨ c = '6' ∨ c = '7' ∨ c = '8'
      ∨ c = '9' := by
  simpa [isdigit, or_assoc] using h

theorem isdigit_facts (c : Char) (h : isdigit c = true) :
    48 ≤ c.toNat ∧ isspace c = false ∧ c ≠ '-' ∧ c ≠ '+' ∧ c ≠ '(' ∧ c ≠ ')' := by
  rcases isdigit_cases c h with h | h | h | h | h | h | h | h | h | h <;> subst h <;> decide

theorem digitsValue_concat (ds : Str) (c : Char) :
    digitsValue (ds ++ [c]) = 10 * digitsValue ds + ((c.toNat : Int) - 48) := by
  simp [digitsValue, List.foldl_append]

theorem digitsValue_eq_numeralValue (ds : Str) (h : ∀ c ∈ ds, isdigit c = true) :
    digitsValue ds = (numeralValue ds : Int) := by
  induction ds using List.reverseRecOn with
  | nil => simp [digitsValue, numeralValue]
  | append_singleton ds c ih =>
    have hc := (isdigit_facts c (h c (by simp))).1
    rw [digitsValue_concat, ih (fun d hd => h d (by simp [hd]))]
    simp only [numeralValue, List.reverse_append, List.reverse_singleton, List.singleton_append,
      List.map_cons, Nat.ofDigits_cons]
    have : (('0' : Char).toNat) = 48 := by decide
    rw [this]
    push_cast [Nat.cast_sub hc]
    ring

theorem to_number_numeral (ds : Str) (h : isNumeral ds = true) :
    to_number ds = checkedInt (digitsValue ds) := by
  obtain ⟨hne, hdig⟩ := (isNumeral_iff ds).mp h
  cases ds with
  | nil => exact absurd rfl hne
  | cons d rest =>
    obtain ⟨_, hsp, hminus, hplus, _, _⟩ := isdigit_facts d (hdig d (by simp))
    have htake : (d :: rest).takeWhile isdigit = d :: rest :=
      List.takeWhile_eq_self_iff.mpr hdig
    have hdrop : (d :: rest).dropWhile isspace = d :: rest := by
      simp [List.dropWhile_cons, hsp]
    simp only [to_number, atoi, hdrop]
    split
    · rename_i heq
      exact absurd (List.cons.inj heq).1 hminus
    · rename_i heq
      exact absurd (List.cons.inj heq).1 hplus
    · rw [htake]

theorem is_number_eq_isNumeral (t : Str) : is_number t = isNumeral t := by
  cases t with
  | nil => rfl
  | cons c cs =>
    simp only [is_number, isNumeral, List.isEmpty_cons, Bool.not_false, Bool.true_and]
    rw [Bool.eq_iff_iff]
    simp only [List.isEmpty_iff, List.dropWhile_eq_nil_iff, List.all_eq_true]

/-! ### The tree builder on a postfix sequence -/

theorem buildLoop_postNodes (t : TreeNode) :
    t.shaped = true → t ≠ .null → ∀ (rest st : List TreeNode),
      buildLoop (t.postNodes ++ rest) st = buildLoop rest (t :: st) := by
  induction t with
  | null => intro _ h; exact absurd rfl h
  | node a op v l r ihl ihr =>
    intro hs _ rest st
    by_cases hv : op.isValue = true
    · simp only [TreeNode.shaped, hv, if_true, Bool.and_eq_true] at hs
      have hl : l = .null := by cases l <;> simp_all [TreeNode.isNull]
      have hr : r = .null := by cases r <;> simp_all [TreeNode.isNull]
      subst hl hr
      simp [TreeNode.postNodes, buildLoop, hv]
    · simp only [TreeNode.shaped, hv, Bool.false_eq_true, if_false, Bool.and_eq_true,
        Bool.not_eq_true'] at hs
      have hl : l ≠ .null := by
        intro h; subst h; simp [TreeNode.isNull] at hs
      have hr : r ≠ .null := by
        intro h; subst h; simp [TreeNode.isNull] at hs
      simp only [TreeNode.postNodes, List.append_assoc]
      rw [ihl hs.1.2 hl, ihr hs.2 hr]
      simp [buildLoop, hv]

/-! ### The tokens of an expression -/

theorem maximalRuns_join (l1 l2 : List Str) (x : Str) (hx : isSingleNonDigit x = true)
    (h1 : MaximalRuns l1) (h2 : MaximalRuns l2) : MaximalRuns (l1 ++ x :: l2) := by
  have hnum : isNumeral x = false := not_numeral_of_single x hx
  refine ⟨?_, ?_⟩
  · intro t ht
    rcases List.mem_append.mp ht with h | h
    · exact h1.1 t h
    · rcases List.mem_cons.mp h with rfl | h
      · exact Or.inr hx
      · exact h2.1 t h
  · refine List.chain'_append.mpr ⟨h1.2, List.chain'_cons'.mpr ⟨?_, h2.2⟩, ?_⟩
    · intro y _ hxy
      simp [hnum] at hxy
    · intro a _ b hb hab
      simp only [List.head?_cons, Option.mem_def, Option.some.injEq] at hb
      subst hb
      simp [hnum] at hab

theorem maximalRuns_nil : MaximalRuns [] := ⟨by simp, List.chain'_nil⟩

theorem AddOp.add_facts (op : AddOp) :
    isSingleNonDigit op.text = true ∧ (∀ c ∈ op.text, isspace c = false) ∧
    is_number op.text = false ∧ op.text ≠ ['('] ∧ op.text ≠ [')'] ∧
    (∀ i, createOperatorNode i op.text = TreeNode.ofOperator i op.tag) ∧
    op.tag.isValue = false ∧ op.tag.isOperator = true ∧ precedence op.tag = 1 := by
  cases op <;>
    exact ⟨by decide, by decide, by decide, by decide, by decide, fun _ => rfl, by decide,
      by decide, by decide⟩

theorem MulOp.mul_facts (op : MulOp) :
    isSingleNonDigit op.text = true ∧ (∀ c ∈ op.text, isspace c = false) ∧
    is_number op.text = false ∧ op.text ≠ ['('] ∧ op.text ≠ [')'] ∧
    (∀ i, createOperatorNode i op.text = TreeNode.ofOperator i op.tag) ∧
    op.tag.isValue = false ∧ op.tag.isOperator = true ∧ precedence op.tag = 2 := by
  cases op <;>
    exact ⟨by decide, by decide, by decide, by decide, by decide, fun _ => rfl, by decide,
      by decide, by decide⟩

mutual
theorem GExpr.expr_tokens_ok : ∀ e : GExpr, e.wellFormed = true →
    MaximalRuns e.tokens ∧ ∀ t ∈ e.tokens, ∀ c ∈ t, isspace c = false
  | .term t => fun h => GTerm.term_tokens_ok t (by simpa [GExpr.wellFormed] using h)
  | .add e op t => fun h => by
    simp only [GExpr.wellFormed, Bool.and_eq_true] at h
    obtain ⟨h1, h2⟩ := GExpr.expr_tokens_ok e h.1
    obtain ⟨h3, h4⟩ := GTerm.term_tokens_ok t h.2
    refine ⟨maximalRuns_join _ _ _ op.add_facts.1 h1 h3, ?_⟩
    intro x hx
    simp only [GExpr.tokens, List.mem_append, List.mem_cons] at hx
    rcases hx with hx | rfl | hx
    · exact h2 x hx
    · exact op.add_facts.2.1
    · exact h4 x hx
theorem GTerm.term_tokens_ok : ∀ t : GTerm, t.wellFormed = true →
    MaximalRuns t.tokens ∧ ∀ x ∈ t.tokens, ∀ c ∈ x, isspace c = false
  | .factor f => fun h => GFactor.factor_tokens_ok f (by simpa [GTerm.wellFormed] using h)
  | .mul t op f => fun h => by
    simp only [GTerm.wellFormed, Bool.and_eq_true] at h
    obtain ⟨h1, h2⟩ := GTerm.term_tokens_ok t h.1
    obtain ⟨h3, h4⟩ := GFactor.factor_tokens_ok f h.2
    refine ⟨maximalRuns_join _ _ _ op.mul_facts.1 h1 h3, ?_⟩
    intro x hx
    simp only [GTerm.tokens, List.mem_append, List.mem_cons] at hx
    rcases hx with hx | rfl | hx
    · exact h2 x hx
    · exact op.mul_facts.2.1
    · exact h4 x hx
theorem GFactor.factor_tokens_ok : ∀ f : GFactor, f.wellFormed = true →
    MaximalRuns f.tokens ∧ ∀ x ∈ f.tokens, ∀ c ∈ x, isspace c = false
  | .number ds => fun h => by
    simp only [GFactor.wellFormed] at h
    refine ⟨⟨?_, List.chain'_singleton _⟩, ?_⟩
    · intro t ht
      simp only [GFactor.tokens, List.mem_singleton] at ht
      subst ht
      exact Or.inl h
    · intro x hx c hc
      simp only [GFactor.tokens, List.mem_singleton] at hx
      subst hx
      exact (isdigit_facts c (((isNumeral_iff _).mp h).2 c hc)).2.1
  | .paren e => fun h => by
    simp only [GFactor.wellFormed] at h
    obtain ⟨h1, h2⟩ := GExpr.expr_tokens_ok e h
    refine ⟨?_, ?_⟩
    · have := maximalRuns_join e.tokens [] [')'] (by decide) h1 maximalRuns_nil
      exact maximalRuns_join [] _ ['('] (by decide) maximalRuns_nil this
    · intro x hx
      simp only [GFactor.tokens, List.mem_append, List.mem_cons, List.mem_singleton,
        List.not_mem_nil, or_false] at hx
      rcases hx with rfl | hx | rfl
      · decide
      · exact h2 x hx
      · decide
end

mutual
theorem GExpr.expr_items_fst : ∀ (e : GExpr) (i : Nat), (e.items i).map Prod.fst = e.tokens
  | .term t, i => by simp [GExpr.items, GExpr.tokens, GTerm.term_items_fst t i]
  | .add e op t, i => by
    simp [GExpr.items, GExpr.tokens, GExpr.expr_items_fst e i, GTerm.term_items_fst t]
theorem GTerm.term_items_fst : ∀ (t : GTerm) (i : Nat), (t.items i).map Prod.fst = t.tokens
  | .factor f, i => by simp [GTerm.items, GTerm.tokens, GFactor.factor_items_fst f i]
  | .mul t op f, i => by
    simp [GTerm.items, GTerm.tokens, GTerm.term_items_fst t i, GFactor.factor_items_fst f]
theorem GFactor.factor_items_fst : ∀ (f : GFactor) (i : Nat), (f.items i).map Prod.fst = f.tokens
  | .number ds, i => by simp [GFactor.items, GFactor.tokens]
  | .paren e, i => by simp [GFactor.items, GFactor.tokens, GExpr.expr_items_fst e]
end

mutual
theorem GExpr.expr_tree_shaped : ∀ (e : GExpr) (i : Nat),
    (e.tree i).shaped = true ∧ e.tree i ≠ .null
  | .term t, i => by simpa [GExpr.tree] using GTerm.term_tree_shaped t i
  | .add e op t, i => by
    obtain ⟨h1, h2⟩ := GExpr.expr_tree_shaped e i
    obtain ⟨h3, h4⟩ := GTerm.term_tree_shaped t (i + e.tokens.length + 1)
    have hl : (e.tree i).isNull = false := by
      cases h : e.tree i <;> simp_all [TreeNode.isNull]
    have hr : (t.tree (i + e.tokens.length + 1)).isNull = false := by
      cases h : t.tree (i + e.tokens.length + 1) <;> simp_all [TreeNode.isNull]
    simp [GExpr.tree, TreeNode.shaped, op.add_facts.2.2.2.2.2.2.1, h1, h3, hl, hr]
theorem GTerm.term_tree_shaped : ∀ (t : GTerm) (i : Nat),
    (t.tree i).shaped = true ∧ t.tree i ≠ .null
  | .factor f, i => by simpa [GTerm.tree] using GFactor.factor_tree_shaped f i
  | .mul t op f, i => by
    obtain ⟨h1, h2⟩ := GTerm.term_tree_shaped t i
    obtain ⟨h3, h4⟩ := GFactor.factor_tree_shaped f (i + t.tokens.length + 1)
    have hl : (t.tree i).isNull = false := by
      cases h : t.tree i <;> simp_all [TreeNode.isNull]
    have hr : (f.tree (i + t.tokens.length + 1)).isNull = false := by
      cases h : f.tree (i + t.tokens.length + 1) <;> simp_all [TreeNode.isNull]
    simp [GTerm.tree, TreeNode.shaped, op.mul_facts.2.2.2.2.2.2.1, h1, h3, hl, hr]
theorem GFactor.factor_tree_shaped : ∀ (f : GFactor) (i : Nat),
    (f.tree i).shaped = true ∧ f.tree i ≠ .null
  | .number ds, i => by
    simp [GFactor.tree, TreeNode.ofValue, TreeNode.shaped, Operator.isValue, TreeNode.isNull]
  | .paren e, i => by simpa [GFactor.tree] using GExpr.expr_tree_shaped e (i + 1)
end

/-! ### Conversion to nodes and evaluation of the tree -/

theorem convertFrom_append : ∀ (xs : List Str) (i : Nat) (ys : List Str)
    (a b : List TreeNode), convertFrom i xs = some a →
    convertFrom (i + xs.length) ys = some b → convertFrom i (xs ++ ys) = some (a ++ b) := by
  intro xs
  induction xs with
  | nil =>
    intro i ys a b ha hb
    simp only [convertFrom, Option.some.injEq] at ha
    subst ha
    simpa using hb
  | cons x xs ih =>
    intro i ys a b ha hb
    simp only [convertFrom, Option.bind_eq_some, Option.map_eq_some'] at ha
    obtain ⟨node, hnode, nodes, hnodes, rfl⟩ := ha
    have hb2 : convertFrom (i + 1 + xs.length) ys = some b := by
      have : i + 1 + xs.length = i + (x :: xs).length := by simp; omega
      rw [this]; exact hb
    have := ih (i + 1) ys nodes b hnodes hb2
    simp only [List.cons_append, convertFrom, hnode, Option.some_bind, List.append_eq, this,
      Option.map_some']

theorem convertFrom_operator (i : Nat) (tok : Str) (h : is_number tok = false) :
    convertFrom i [tok] = some [createOperatorNode i tok] := by
  simp [convertFrom, h]

theorem checkedInt_eq_some (x v : Int) (h : checkedInt x = some v) : v = x := by
  simp only [checkedInt] at h
  split at h
  · exact (Option.some.inj h).symm
  · exact absurd h (by simp)

theorem GExpr.value_add (e : GExpr) (op : AddOp) (t : GTerm) (v : Int)
    (h : (GExpr.add e op t).value = some v) :
    ∃ x y, e.value = some x ∧ t.value = some y ∧
      ∀ (a : Nat) (l r : TreeNode), ExprTree.evaluate l = some x →
        ExprTree.evaluate r = some y → ExprTree.evaluate (.node a op.tag 0 l r) = some v := by
  cases op <;>
  · simp only [GExpr.value, Option.bind_eq_some] at h
    obtain ⟨x, hx, y, hy, hxy⟩ := h
    refine ⟨x, y, hx, hy, ?_⟩
    intro a l r hl hr
    simp [ExprTree.evaluate, AddOp.tag, Operator.isValue, hl, hr, hxy]

theorem GTerm.value_mul (t : GTerm) (op : MulOp) (f : GFactor) (v : Int)
    (h : (GTerm.mul t op f).value = some v) :
    ∃ x y, t.value = some x ∧ f.value = some y ∧
      ∀ (a : Nat) (l r : TreeNode), ExprTree.evaluate l = some x →
        ExprTree.evaluate r = some y → ExprTree.evaluate (.node a op.tag 0 l r) = some v := by
  cases op <;>
  · simp only [GTerm.value, Option.bind_eq_some] at h
    obtain ⟨x, hx, y, hy, hxy⟩ := h
    refine ⟨x, y, hx, hy, ?_⟩
    intro a l r hl hr
    simp [ExprTree.evaluate, MulOp.tag, Operator.isValue, hl, hr, hxy]

mutual
theorem GExpr.expr_convert_evaluate : ∀ (e : GExpr) (v : Int), e.wellFormed = true →
    e.value = some v → ∀ i : Nat,
      convertFrom i e.tokens = some ((e.items i).map Prod.snd) ∧
      ExprTree.evaluate (e.tree i) = some v
  | .term t, v => fun hwf hv i => by
    simpa [GExpr.tokens, GExpr.items, GExpr.tree] using
      GTerm.term_convert_evaluate t v (by simpa [GExpr.wellFormed] using hwf)
        (by simpa [GExpr.value] using hv) i
  | .add e op t, v => fun hwf hv i => by
    simp only [GExpr.wellFormed, Bool.and_eq_true] at hwf
    obtain ⟨x, y, hx, hy, hstep⟩ := GExpr.value_add e op t v hv
    obtain ⟨h1, h2⟩ := GExpr.expr_convert_evaluate e x hwf.1 hx i
    obtain ⟨h3, h4⟩ := GTerm.term_convert_evaluate t y hwf.2 hy (i + e.tokens.length + 1)
    refine ⟨?_, hstep _ _ _ h2 h4⟩
    have hop := convertFrom_operator (i + e.tokens.length) op.text op.add_facts.2.2.1
    rw [op.add_facts.2.2.2.2.2.1] at hop
    have hmid := convertFrom_append [op.text] (i + e.tokens.length) t.tokens _ _ hop
      (by simpa using h3)
    have := convertFrom_append e.tokens i (op.text :: t.tokens) _ _ h1 (by simpa using hmid)
    simpa [GExpr.tokens, GExpr.items] using this
theorem GTerm.term_convert_evaluate : ∀ (t : GTerm) (v : Int), t.wellFormed = true →
    t.value = some v → ∀ i : Nat,
      convertFrom i t.tokens = some ((t.items i).map Prod.snd) ∧
      ExprTree.evaluate (t.tree i) = some v
  | .factor f, v => fun hwf hv i => by
    simpa [GTerm.tokens, GTerm.items, GTerm.tree] using
      GFactor.factor_convert_evaluate f v (by simpa [GTerm.wellFormed] using hwf)
        (by simpa [GTerm.value] using hv) i
  | .mul t op f, v => fun hwf hv i => by
    simp only [GTerm.wellFormed, Bool.and_eq_true] at hwf
    obtain ⟨x, y, hx, hy, hstep⟩ := GTerm.value_mul t op f v hv
    obtain ⟨h1, h2⟩ := GTerm.term_convert_evaluate t x hwf.1 hx i
    obtain ⟨h3, h4⟩ := GFactor.factor_convert_evaluate f y hwf.2 hy (i + t.tokens.length + 1)
    refine ⟨?_, hstep _ _ _ h2 h4⟩
    have hop := convertFrom_operator (i + t.tokens.length) op.text op.mul_facts.2.2.1
    rw [op.mul_facts.2.2.2.2.2.1] at hop
    have hmid := convertFrom_append [op.text] (i + t.tokens.length) f.tokens _ _ hop
      (by simpa using h3)
    have := convertFrom_append t.tokens i (op.text :: f.tokens) _ _ h1 (by simpa using hmid)
    simpa [GTerm.tokens, GTerm.items] using this
theorem GFactor.factor_convert_evaluate : ∀ (f : GFactor) (v : Int), f.wellFormed = true →
    f.value = some v → ∀ i : Nat,
      convertFrom i f.tokens = some ((f.items i).map Prod.snd) ∧
      ExprTree.evaluate (f.tree i) = some v
  | .number ds, v => fun hwf hv i => by
    simp only [GFactor.wellFormed] at hwf
    simp only [GFactor.value] at hv
    rw [← digitsValue_eq_numeralValue ds ((isNumeral_iff ds).mp hwf).2] at hv
    have hv2 := checkedInt_eq_some _ _ hv
    subst hv2
    refine ⟨?_, by simp [GFactor.tree, TreeNode.ofValue, ExprTree.evaluate, Operator.isValue]⟩
    simp [GFactor.tokens, GFactor.items, convertFrom, is_number_eq_isNumeral, hwf,
      to_number_numeral ds hwf, hv]
  | .paren e, v => fun hwf hv i => by
    obtain ⟨h1, h2⟩ := GExpr.expr_convert_evaluate e v (by simpa [GFactor.wellFormed] using hwf)
      (by simpa [GFactor.value] using hv) (i + 1)
    refine ⟨?_, by simpa [GFactor.tree] using h2⟩
    have hclose := convertFrom_operator (i + 1 + e.tokens.length) [')'] (by decide)
    have hmid := convertFrom_append e.tokens (i + 1) [[')']] _ _ h1 hclose
    have hopen := convertFrom_operator i ['('] (by decide)
    have := convertFrom_append [['(']] i (e.tokens ++ [[')']]) _ _ hopen (by simpa using hmid)
    simpa [GFactor.tokens, GFactor.items, createOperatorNode] using this
end

/-! ### The shunting yard on the tokens of an expression -/

theorem GTerm.term_emitted_pending (t : GTerm) (i : Nat) :
    t.emitted i ++ t.pending i = (t.tree i).postNodes := by
  cases t with
  | factor f => simp [GTerm.emitted, GTerm.pending, GTerm.tree]
  | mul t op f =>
    simp [GTerm.emitted, GTerm.pending, GTerm.tree, TreeNode.postNodes, TreeNode.ofOperator]

theorem GExpr.expr_emitted_pending (e : GExpr) (i : Nat) :
    e.emitted i ++ e.pending i = (e.tree i).postNodes := by
  cases e with
  | term t => simpa [GExpr.emitted, GExpr.pending, GExpr.tree] using t.term_emitted_pending i
  | add e op t =>
    have := t.term_emitted_pending (i + e.tokens.length + 1)
    simp only [GExpr.emitted, GExpr.pending, GExpr.tree, TreeNode.postNodes,
      TreeNode.ofOperator, List.append_assoc]
    rw [← List.append_assoc (t.emitted _), this]

theorem GTerm.term_pending_isOps (t : GTerm) (i : Nat) : IsOps 2 (t.pending i) := by
  cases t with
  | factor f => intro x hx; simp [GTerm.pending] at hx
  | mul t op f =>
    intro x hx
    simp only [GTerm.pending, List.mem_singleton] at hx
    exact ⟨_, _, hx, op.mul_facts.2.2.2.2.2.2.2.1, by rw [op.mul_facts.2.2.2.2.2.2.2.2]⟩

theorem IsOps.weaken {pend : List TreeNode} (h : IsOps 2 pend) : IsOps 1 pend := by
  intro x hx
  obtain ⟨a, op, rfl, h1, h2⟩ := h x hx
  exact ⟨a, op, rfl, h1, by omega⟩

theorem GExpr.expr_pending_isOps (e : GExpr) (i : Nat) : IsOps 1 (e.pending i) := by
  cases e with
  | term t => exact (t.term_pending_isOps i).weaken
  | add e op t =>
    intro x hx
    simp only [GExpr.pending, List.mem_append, List.mem_singleton] at hx
    rcases hx with hx | hx
    · exact (t.term_pending_isOps _).weaken x hx
    · exact ⟨_, _, hx, op.add_facts.2.2.2.2.2.2.2.1, by rw [op.add_facts.2.2.2.2.2.2.2.2]⟩

theorem popOperators_stops (p : Int) (ops out : List TreeNode) (h : Stops p ops) :
    popOperators p ops out = some (ops, out) := by
  match ops, h with
  | [], _ => rfl
  | .node a op v l r :: below, h =>
    simp only [Stops] at h
    have : (op.isOperator && decide (p ≤ precedence op)) = false := by
      rw [Bool.and_eq_false_iff]
      by_cases h1 : op.isOperator = true
      · right
        simpa using fun h2 => h ⟨h1, h2⟩
      · left
        simpa using h1
    simp [popOperators, this]

theorem popOperators_pending (p : Int) (ops : List TreeNode) (h : Stops p ops) :
    ∀ (pend out : List TreeNode), IsOps p pend →
      popOperators p (pend ++ ops) out = some (ops, out ++ pend) := by
  intro pend
  induction pend with
  | nil => intro out _; simpa using popOperators_stops p ops out h
  | cons x pend ih =>
    intro out hp
    obtain ⟨a, op, rfl, h1, h2⟩ := hp x (by simp)
    have := ih (out ++ [TreeNode.ofOperator a op]) (fun y hy => hp y (by simp [hy]))
    simp only [List.cons_append, TreeNode.ofOperator, popOperators, h1, h2, decide_True,
      Bool.and_self, if_true]
    simpa [TreeNode.ofOperator] using this

theorem popUntilNoOp_pending (j : Nat) (ops : List TreeNode) :
    ∀ (pend out : List TreeNode), IsOps 1 pend →
      popUntilNoOp (pend ++ TreeNode.ofOperator j .NoOp :: ops) out
        = some (TreeNode.ofOperator j .NoOp :: ops, out ++ pend) := by
  intro pend
  induction pend with
  | nil => intro out _; simp [popUntilNoOp, TreeNode.ofOperator]
  | cons x pend ih =>
    intro out hp
    obtain ⟨a, op, rfl, h1, _⟩ := hp x (by simp)
    have hne : (op != Operator.NoOp) = true := by
      cases op <;> simp_all [Operator.isOperator]
    have := ih (out ++ [TreeNode.ofOperator a op]) (fun y hy => hp y (by simp [hy]))
    simp only [List.cons_append, TreeNode.ofOperator, popUntilNoOp, hne, if_true]
    simpa [TreeNode.ofOperator] using this

theorem shuntingYardLoop_operator (tok : Str) (a : Nat) (op : Operator)
    (rest : List (Str × TreeNode)) (pend ops out : List TreeNode)
    (hv : op.isValue = false) (ho : tok ≠ ['(']) (hc : tok ≠ [')'])
    (hp : IsOps (precedence op) pend) (hs : Stops (precedence op) ops) :
    shuntingYardLoop ((tok, TreeNode.ofOperator a op) :: rest) (pend ++ ops) out
      = shuntingYardLoop rest (TreeNode.ofOperator a op :: ops) (out ++ pend) := by
  simp [shuntingYardLoop, TreeNode.ofOperator, hv, ho, hc,
    popOperators_pending (precedence op) ops hs pend out hp]

theorem stops_two_of_one {ops : List TreeNode} (h : Stops 1 ops) : Stops 2 ops := by
  match ops, h with
  | [], _ => trivial
  | .node a op v l r :: below, h =>
    simp only [Stops] at h ⊢
    exact fun h2 => h ⟨h2.1, by omega⟩

mutual
theorem GExpr.expr_shuntingYardLoop_items : ∀ (e : GExpr) (i : Nat)
    (rest : List (Str × TreeNode)) (ops out : List TreeNode), Stops 1 ops →
    shuntingYardLoop (e.items i ++ rest) ops out
      = shuntingYardLoop rest (e.pending i ++ ops) (out ++ e.emitted i)
  | .term t, i, rest, ops, out => fun hs => by
    simpa [GExpr.items, GExpr.pending, GExpr.emitted] using
      GTerm.term_shuntingYardLoop_items t i rest ops out (stops_two_of_one hs)
  | .add e op t, i, rest, ops, out => fun hs => by
    have hprec := op.add_facts.2.2.2.2.2.2.2.2
    simp only [GExpr.items, List.append_assoc, List.cons_append]
    rw [GExpr.expr_shuntingYardLoop_items e i _ ops out hs,
      shuntingYardLoop_operator _ _ _ _ _ _ _ op.add_facts.2.2.2.2.2.2.1
        op.add_facts.2.2.2.1 op.add_facts.2.2.2.2.1
        (by rw [hprec]; exact e.expr_pending_isOps i) (by rw [hprec]; exact hs),
      GTerm.term_shuntingYardLoop_items t _ rest _ _
        (by simp only [TreeNode.ofOperator, Stops, hprec]; exact fun h => by omega)]
    simp only [GExpr.pending, GExpr.emitted, List.append_assoc, List.singleton_append,
      ← e.expr_emitted_pending i]
theorem GTerm.term_shuntingYardLoop_items : ∀ (t : GTerm) (i : Nat)
    (rest : List (Str × TreeNode)) (ops out : List TreeNode), Stops 2 ops →
    shuntingYardLoop (t.items i ++ rest) ops out
      = shuntingYardLoop rest (t.pending i ++ ops) (out ++ t.emitted i)
  | .factor f, i, rest, ops, out => fun _ => by
    simpa [GTerm.items, GTerm.pending, GTerm.emitted] using
      GFactor.factor_shuntingYardLoop_items f i rest ops out
  | .mul t op f, i, rest, ops, out => fun hs => by
    have hprec := op.mul_facts.2.2.2.2.2.2.2.2
    simp only [GTerm.items, List.append_assoc, List.cons_append]
    rw [GTerm.term_shuntingYardLoop_items t i _ ops out hs,
      shuntingYardLoop_operator _ _ _ _ _ _ _ op.mul_facts.2.2.2.2.2.2.1
        op.mul_facts.2.2.2.1 op.mul_facts.2.2.2.2.1
        (by rw [hprec]; exact t.term_pending_isOps i) (by rw [hprec]; exact hs),
      GFactor.factor_shuntingYardLoop_items f _ rest _ _]
    simp only [GTerm.pending, GTerm.emitted, List.append_assoc, List.singleton_append,
      ← t.term_emitted_pending i]
theorem GFactor.factor_shuntingYardLoop_items : ∀ (f : GFactor) (i : Nat)
    (rest : List (Str × TreeNode)) (ops out : List TreeNode),
    shuntingYardLoop (f.items i ++ rest) ops out
      = shuntingYardLoop rest ops (out ++ (f.tree i).postNodes)
  | .number ds, i, rest, ops, out => by
    simp [GFactor.items, GFactor.tree, TreeNode.ofValue, shuntingYardLoop, Operator.isValue,
      TreeNode.postNodes]
  | .paren e, i, rest, ops, out => by
    have hopen : ∀ tail, shuntingYardLoop ((['('], TreeNode.ofOperator i .NoOp) :: tail) ops out
        = shuntingYardLoop tail (TreeNode.ofOperator i .NoOp :: ops) out := by
      intro tail
      simp [shuntingYardLoop, TreeNode.ofOperator, Operator.isValue]
    have hclose : ∀ (j : Nat) (pend out1 : List TreeNode), IsOps 1 pend →
        shuntingYardLoop (([')'], TreeNode.ofOperator j .NoOp) :: rest)
          (pend ++ TreeNode.ofOperator i .NoOp :: ops) out1
        = shuntingYardLoop rest ops (out1 ++ pend) := by
      intro j pend out1 hp
      simp [shuntingYardLoop, TreeNode.ofOperator, Operator.isValue]
      have := popUntilNoOp_pending i ops pend out1 hp
      simp only [TreeNode.ofOperator] at this
      rw [this]
    simp only [GFactor.items, List.append_assoc, List.cons_append, List.nil_append]
    rw [hopen, GExpr.expr_shuntingYardLoop_items e (i + 1) _ _ out
        (by simp [TreeNode.ofOperator, Stops, Operator.isOperator]),
      hclose _ _ _ (e.expr_pending_isOps (i + 1))]
    simp only [GFactor.tree, List.append_assoc, e.expr_emitted_pending (i + 1)]
end

theorem shuntingYard_tokens (e : GExpr) (v : Int) (hwf : e.wellFormed = true)
    (hv : e.value = some v) : shuntingYard e.tokens = some (e.tree 0).postNodes := by
  have hzip : e.tokens.zip ((e.items 0).map Prod.snd) = e.items 0 :=
    (List.zip_of_prod (e.expr_items_fst 0) rfl).symm
  have hloop := GExpr.expr_shuntingYardLoop_items e 0 [] [] [] trivial
  simp only [List.append_nil, List.nil_append] at hloop
  simp only [shuntingYard, convertToVectorOfNodes, (e.expr_convert_evaluate v hwf hv 0).1,
    Option.some_bind, hzip, hloop, shuntingYardLoop, Option.map_some', e.expr_emitted_pending 0]

theorem buildTree_tokens (e : GExpr) (v : Int) (hwf : e.wellFormed = true)
    (hv : e.value = some v) :
    ExprTree.buildTree e.tokens = some (ExprTree.ofRoot (e.tree 0)) := by
  have hb := buildLoop_postNodes (e.tree 0) (e.expr_tree_shaped 0).1 (e.expr_tree_shaped 0).2 [] []
  simp only [List.append_nil] at hb
  simp [ExprTree.buildTree, shuntingYard_tokens e v hwf hv, queueToVector, hb, buildLoop]

theorem tokenise_text (e : GExpr) (text : Str) (hwf : e.wellFormed = true)
    (htext : text.filter (fun c => c != ' ') = e.tokens.flatten) :
    ExprTree.tokenise text = e.tokens := by
  obtain ⟨hmax, hns⟩ := e.expr_tokens_ok hwf
  refine tokenise_eq_of_maximalRuns text e.tokens ?_ hmax htext.symm
  intro c hc hsp
  by_contra hne
  have hmem : c ∈ e.tokens.flatten := by
    rw [← htext, List.mem_filter]
    exact ⟨hc, by simpa using hne⟩
  obtain ⟨t, ht, hct⟩ := List.mem_flatten.mp hmem
  rw [hns t ht c hct] at hsp
  exact absurd hsp (by simp)

/-- C1: for an expression `e` of the grammar whose numbers are digit strings, and a text
that is the tokens of `e` with spaces put anywhere, if the reference evaluator gives `e`
the value `v` (so no number or result leaves the range of `int` and no division is by
zero), then `evaluateWholeTree(buildTree(tokenise(text)))` is `v`. -/
theorem evaluate_buildTree_tokenise (e : GExpr) (text : Str) (v : Int)
    (hwf : e.wellFormed = true)
    (htext : text.filter (fun c => c != ' ') = e.tokens.flatten)
    (hv : e.value = some v) :
    (ExprTree.buildTree (ExprTree.tokenise text)).bind ExprTree.evaluateWholeTree = some v := by
  rw [tokenise_text e text hwf htext, buildTree_tokens e v hwf hv]
  simpa [ExprTree.evaluateWholeTree, ExprTree.getRoot, ExprTree.ofRoot] using
    (e.expr_convert_evaluate v hwf hv 0).2

/-- Witness of C1: `8 - 3 - 2 * (1 + 1)` has the value 1. -/
theorem evaluate_buildTree_tokenise_witness :
    (GExpr.add (.add (.term (.factor (.number ['8']))) .minus (.factor (.number ['3']))) .minus
      (.mul (.factor (.number ['2'])) .times
        (.paren (.add (.term (.factor (.number ['1']))) .plus (.factor (.number ['1'])))))).value
      = some 1 ∧
    (ExprTree.buildTree (ExprTree.tokenise "8 - 3 - 2 * (1 + 1)".toList)).bind
      ExprTree.evaluateWholeTree = some 1 :=
  ⟨by decide,
   evaluate_buildTree_tokenise
    (.add (.add (.term (.factor (.number ['8']))) .minus (.factor (.number ['3']))) .minus
      (.mul (.factor (.number ['2'])) .times
        (.paren (.add (.term (.factor (.number ['1']))) .plus (.factor (.number ['1']))))))
    "8 - 3 - 2 * (1 + 1)".toList 1 (by decide) (by decide) (by decide)⟩

/-! ## Inputs outside the grammar -/

/-- C11, as stated, fails: on the tokens of `1 + ` the operator `+` finds a single node in
the vector, `back()` is then called on the empty vector, and the call ends without a
defined result; it does not report a `MalformedExpression` failure. -/
theorem buildTree_trailing_operator_counterexample :
    ExprTree.tokenise "1 + ".toList = [['1'], ['+']] ∧
    shuntingYard [['1'], ['+']] =
      some [.node 0 .Value 1 .null .null, .node 1 .Plus 0 .null .null] ∧
    buildLoop [.node 0 .Value 1 .null .null, .node 1 .Plus 0 .null .null] [] = none ∧
    outcome (ExprTree.buildTree (ExprTree.tokenise "1 + ".toList))
      ≠ Outcome.failure ErrorKind.MalformedExpression := by
  refine ⟨by decide, by decide, by decide, ?_⟩
  have h : ExprTree.buildTree (ExprTree.tokenise "1 + ".toList) = none := by decide
  rw [h]
  simp [outcome]

/-- C11 amended: for each of the inputs `1 + `, `(1 + 2` and the empty string,
`buildTree(tokenise(E))` returns no tree and reports no failure: the call reads `back()`
or `front()` of an empty vector and has no defined result. -/
theorem buildTree_malformed_undefined :
    ExprTree.buildTree (ExprTree.tokenise "1 + ".toList) = none ∧
    ExprTree.buildTree (ExprTree.tokenise "(1 + 2".toList) = none ∧
    ExprTree.buildTree (ExprTree.tokenise []) = none ∧
    outcome (ExprTree.buildTree (ExprTree.tokenise "1 + ".toList)) = Outcome.undefined ∧
    outcome (ExprTree.buildTree (ExprTree.tokenise "(1 + 2".toList)) = Outcome.undefined ∧
    outcome (ExprTree.buildTree (ExprTree.tokenise [])) = Outcome.undefined := by
  have h1 : ExprTree.buildTree (ExprTree.tokenise "1 + ".toList) = none := by decide
  have h2 : ExprTree.buildTree (ExprTree.tokenise "(1 + 2".toList) = none := by decide
  have h3 : ExprTree.buildTree (ExprTree.tokenise []) = none := by decide
  refine ⟨h1, h2, h3, ?_, ?_, ?_⟩
  · rw [h1]; rfl
  · rw [h2]; rfl
  · rw [h3]; rfl

/-! ## Division by zero -/

theorem evaluate_none_of_child (a : Nat) (op : Operator) (v : Int) (l r : TreeNode)
    (hv : op.isValue = false)
    (h : ExprTree.evaluate l = none ∨ ExprTree.evaluate r = none) :
    ExprTree.evaluate (.node a op v l r) = none := by
  rcases h with h | h
  · cases op <;> simp_all [ExprTree.evaluate, Operator.isValue]
  · cases op <;> simp_all [ExprTree.evaluate, Operator.isValue]

theorem evaluate_divide_by_zero (a : Nat) (v : Int) (l r : TreeNode)
    (hr : ExprTree.evaluate r = some 0) :
    ExprTree.evaluate (.node a .Divide v l r) = none := by
  cases hl : ExprTree.evaluate l <;> simp [ExprTree.evaluate, Operator.isValue, hl, hr]

theorem evaluate_none_of_evaluated (t : TreeNode) :
    ∀ d ∈ t.evaluated, ExprTree.evaluate d = none → ExprTree.evaluate t = none := by
  induction t with
  | null => intro d hd; simp [TreeNode.evaluated] at hd
  | node a op v l r ihl ihr =>
    intro d hd hnone
    by_cases hv : op.isValue = true
    · simp only [TreeNode.evaluated, hv, if_true, List.mem_singleton] at hd
      rw [← hd]; exact hnone
    · have hv2 : op.isValue = false := by simpa using hv
      simp only [TreeNode.evaluated, hv2, Bool.false_eq_true, if_false, List.mem_cons,
        List.mem_append] at hd
      rcases hd with rfl | hd | hd
      · exact hnone
      · exact evaluate_none_of_child a op v l r hv2 (Or.inl (ihl d hd hnone))
      · exact evaluate_none_of_child a op v l r hv2 (Or.inr (ihr d hd hnone))

/-- C12, as stated, fails: evaluating the tree of `5 / 0` divides 5 by 0; the call has no
defined result and does not report a `DivisionByZero` failure. -/
theorem evaluate_five_by_zero_counterexample :
    ExprTree.buildTree (ExprTree.tokenise "5 / 0".toList) =
      some { root := .node 1 .Divide 0 (.node 0 .Value 5 .null .null)
               (.node 2 .Value 0 .null .null),
             _size := 3 } ∧
    ExprTree.evaluate (.node 2 .Value 0 .null .null) = some 0 ∧
    outcome ((ExprTree.buildTree (ExprTree.tokenise "5 / 0".toList)).bind
        ExprTree.evaluateWholeTree) ≠ Outcome.failure ErrorKind.DivisionByZero := by
  refine ⟨by decide, by decide, ?_⟩
  have h : (ExprTree.buildTree (ExprTree.tokenise "5 / 0".toList)).bind
      ExprTree.evaluateWholeTree = none := by decide
  rw [h]
  simp [outcome]

/-- C12 amended: when evaluation reaches a `Divide` node whose right child evaluates to 0,
`evaluate` and `evaluateWholeTree` have no defined result: they return no integer and
report no failure. So it is for the tree of `5 / 0`. -/
theorem evaluate_undefined_on_zero_divisor (t : ExprTree) (a : Nat) (v : Int)
    (l r : TreeNode) (hreach : TreeNode.node a .Divide v l r ∈ t.root.evaluated)
    (hzero : ExprTree.evaluate r = some 0) :
    ExprTree.evaluate t.root = none ∧
    ExprTree.evaluateWholeTree t = none ∧
    outcome (ExprTree.evaluateWholeTree t) = Outcome.undefined ∧
    (ExprTree.buildTree (ExprTree.tokenise "5 / 0".toList)).bind
      ExprTree.evaluateWholeTree = none := by
  have h := evaluate_none_of_evaluated t.root _ hreach (evaluate_divide_by_zero a v l r hzero)
  have h2 : ExprTree.evaluateWholeTree t = none := h
  refine ⟨h, h2, by rw [h2]; rfl, by decide⟩

/-- Witness of C12 amended on the tree of `1 + 5 / 0`: the division is below the root. -/
theorem evaluate_undefined_on_zero_divisor_witness :
    ExprTree.evaluateWholeTree (ExprTree.ofRoot
      (.node 1 .Plus 0 (.node 0 .Value 1 .null .null)
        (.node 3 .Divide 0 (.node 2 .Value 5 .null .null) (.node 4 .Value 0 .null .null))))
      = none :=
  (evaluate_undefined_on_zero_divisor (ExprTree.ofRoot
      (.node 1 .Plus 0 (.node 0 .Value 1 .null .null)
        (.node 3 .Divide 0 (.node 2 .Value 5 .null .null) (.node 4 .Value 0 .null .null))))
    3 0 (.node 2 .Value 5 .null .null) (.node 4 .Value 0 .null .null)
    (by decide) (by decide)).2.1

/-! ## Unrecognised characters -/

/-- C13, as stated, fails: `buildTree(tokenise("1 ? 2"))` returns a tree, whose root is a
`NoOp` node, and reports no `UnrecognizedToken` failure. -/
theorem buildTree_question_mark_counterexample :
    ExprTree.tokenise "1 ? 2".toList = [['1'], ['?'], ['2']] ∧
    ExprTree.buildTree (ExprTree.tokenise "1 ? 2".toList) =
      some { root := .node 1 .NoOp 0 (.node 0 .Value 1 .null .null)
               (.node 2 .Value 2 .null .null),
             _size := 3 } ∧
    outcome (ExprTree.buildTree (ExprTree.tokenise "1 ? 2".toList))
      ≠ Outcome.failure ErrorKind.UnrecognizedToken := by
  refine ⟨by decide, by decide, ?_⟩
  have h : ExprTree.buildTree (ExprTree.tokenise "1 ? 2".toList) =
      some { root := .node 1 .NoOp 0 (.node 0 .Value 1 .null .null)
               (.node 2 .Value 2 .null .null),
             _size := 3 } := by decide
  rw [h]
  simp [outcome]

/-- C13 amended: an unrecognised character is not rejected when the tree is built. The
token of a character that is not a digit, not white space and not one of `+ - * /` is
given a `NoOp` node by `createOperatorNode`; `buildTree(tokenise("1 ? 2"))` returns the
tree with that node as root over the leaves 1 and 2, so a tree returned by `buildTree`
can contain a `NoOp` node, and evaluating that tree has no defined result. -/
theorem unrecognised_character_becomes_noOp :
    (∀ (c : Char) (i : Nat), isdigit c = false → isspace c = false →
      c ≠ '+' → c ≠ '-' → c ≠ '*' → c ≠ '/' →
      ExprTree.tokenise [c] = [[c]] ∧
      convertFrom i [[c]] = some [TreeNode.ofOperator i .NoOp]) ∧
    ExprTree.buildTree (ExprTree.tokenise "1 ? 2".toList) =
      some { root := .node 1 .NoOp 0 (.node 0 .Value 1 .null .null)
               (.node 2 .Value 2 .null .null),
             _size := 3 } ∧
    (ExprTree.buildTree (ExprTree.tokenise "1 ? 2".toList)).bind
      ExprTree.evaluateWholeTree = none := by
  refine ⟨?_, by decide, by decide⟩
  intro c i hd hs h1 h2 h3 h4
  have hsp : c ≠ ' ' := by
    intro h; subst h; simp [isspace] at hs
  refine ⟨?_, ?_⟩
  · simp [ExprTree.tokenise, removeSpaces, hsp, tokeniseLoop, hd, charToString, hs]
  · simp [convertFrom, is_number, List.dropWhile_cons, hd, createOperatorNode, h1, h2, h3, h4]

/-! ## The empty tree -/

/-- C14, as stated, fails: `evaluateWholeTree` on the tree made by `ExprTree()` does not
report an `EmptyTreeEvaluation` failure. -/
theorem evaluateWholeTree_empty_counterexample :
    ExprTree.empty.root = TreeNode.null ∧ ExprTree.empty.size = 0 ∧
    outcome (ExprTree.evaluateWholeTree ExprTree.empty)
      ≠ Outcome.failure ErrorKind.EmptyTreeEvaluation := by
  refine ⟨rfl, rfl, ?_⟩
  have h : ExprTree.evaluateWholeTree ExprTree.empty = none := rfl
  rw [h]
  simp [outcome]

/-- C14 amended: for the tree made by `ExprTree()` (no root, size 0),
`evaluateWholeTree` calls `evaluate` on the null root, which dereferences it: the call
has no defined result, returns no integer and reports no failure. So it is for every tree
without a root. -/
theorem evaluateWholeTree_empty_undefined :
    ExprTree.evaluateWholeTree ExprTree.empty = none ∧
    outcome (ExprTree.evaluateWholeTree ExprTree.empty) = Outcome.undefined ∧
    (∀ t : ExprTree, t.root = TreeNode.null → ExprTree.evaluateWholeTree t = none) := by
  refine ⟨rfl, rfl, ?_⟩
  intro t ht
  simp [ExprTree.evaluateWholeTree, ExprTree.getRoot, ht, ExprTree.evaluate]

/-! ## Nodes left on the operand stack -/

/-- C15, as stated, fails: the tokens of `1 (2)` leave the two leaves 1 and 2 in the
vector, and `buildTree` returns the tree made of the leaf 1 alone; it reports no
failure. -/
theorem buildTree_leftover_counterexample :
    ExprTree.tokenise "1 (2)".toList = [['1'], ['('], ['2'], [')']] ∧
    shuntingYard [['1'], ['('], ['2'], [')']] =
      some [.node 0 .Value 1 .null .null, .node 2 .Value 2 .null .null] ∧
    buildLoop [.node 0 .Value 1 .null .null, .node 2 .Value 2 .null .null] [] =
      some [.node 2 .Value 2 .null .null, .node 0 .Value 1 .null .null] ∧
    ExprTree.buildTree [['1'], ['('], ['2'], [')']] =
      some { root := .node 0 .Value 1 .null .null, _size := 1 } ∧
    (∀ k, outcome (ExprTree.buildTree [['1'], ['('], ['2'], [')']]) ≠ Outcome.failure k) := by
  refine ⟨by decide, by decide, by decide, by decide, ?_⟩
  intro k
  have h : ExprTree.buildTree [['1'], ['('], ['2'], [')']] =
      some { root := .node 0 .Value 1 .null .null, _size := 1 } := by decide
  rw [h]
  simp [outcome]

/-- C15 amended: `buildTree` does not check how many nodes are left on the operand stack
after all postfix nodes are processed. When one or more are left it returns the tree
rooted at the first of them (`front()`), without a failure: for the tokens of `1 (2)`,
which leave the leaves 1 and 2, the tree of the leaf 1. When none is left, `front()` is
called on an empty vector and the call has no defined result. -/
theorem buildTree_returns_front (tokens : List Str) (postfixNodes nodesForTree : List TreeNode)
    (hpost : shuntingYard tokens = some postfixNodes)
    (hbuild : buildLoop postfixNodes [] = some nodesForTree) :
    (∀ first, nodesForTree.getLast? = some first →
      ExprTree.buildTree tokens = some (ExprTree.ofRoot first)) ∧
    (nodesForTree = [] → ExprTree.buildTree tokens = none) ∧
    ExprTree.buildTree [['1'], ['('], ['2'], [')']] =
      some (ExprTree.ofRoot (.node 0 .Value 1 .null .null)) := by
  refine ⟨?_, ?_, by decide⟩
  · intro first hfirst
    simp [ExprTree.buildTree, hpost, queueToVector, hbuild, hfirst]
  · intro hnil
    simp [ExprTree.buildTree, hpost, queueToVector, hbuild, hnil]

/-- Witness of C15 amended on the tokens of `1 (2)`: two nodes are left, the first is the
leaf 1. -/
theorem buildTree_returns_front_witness :
    shuntingYard [['1'], ['('], ['2'], [')']] =
      some [.node 0 .Value 1 .null .null, .node 2 .Value 2 .null .null] ∧
    ExprTree.buildTree [['1'], ['('], ['2'], [')']] =
      some (ExprTree.ofRoot (.node 0 .Value 1 .null .null)) :=
  ⟨by decide,
   (buildTree_returns_front [['1'], ['('], ['2'], [')']]
      [.node 0 .Value 1 .null .null, .node 2 .Value 2 .null .null]
      [.node 2 .Value 2 .null .null, .node 0 .Value 1 .null .null]
      (by decide) (by decide)).1 (.node 0 .Value 1 .null .null) (by decide)⟩

/-! ## The pop on the empty stack in prefixOrder -/

theorem prefixLoop_emptyPops (noOp : Str) (size : Int) :
    ∀ (n : Nat) (cur : TreeNode) (st : List TreeNode) (k : Int) (s : Str) (p : Nat),
      cur.count + stackCount st = n → cur ≠ .null → (∀ x ∈ st, x ≠ TreeNode.null) →
      (prefixLoop noOp size cur st k s p).emptyPops = p + 1 := by
  intro n
  induction n using Nat.strong_induction_on with
  | _ n ih =>
    intro cur st k s p hn hcur hst
    cases cur with
    | null => exact absurd rfl hcur
    | node a op v l r =>
      have hcount : stackCount (pushChild l (pushChild r st))
          = l.count + (r.count + stackCount st) := by
        rw [stackCount_pushChild, stackCount_pushChild]
      have hnn := pushChild_ne_null l _ (pushChild_ne_null r st hst)
      rw [prefixLoop]
      split
      next top below heq =>
        rw [heq] at hcount hnn
        simp only [stackCount] at hcount
        simp only [TreeNode.count] at hn
        exact ih (top.count + stackCount below) (by omega) top below _ _ _ rfl
          (hnn top (by simp)) (fun x hx => hnn x (by simp [hx]))
      next heq => rfl

/-- C20, on the code: for every non-empty tree, a run of `prefixOrder` executes
`nodeStack.pop()` on the empty stack exactly once, in the iteration that processes the
last node; for the empty tree the loop body does not run. -/
theorem prefixOrder_pops_empty_stack (noOp : Str) (t : ExprTree)
    (h : t.root ≠ TreeNode.null) :
    (ExprTree.prefixOrder noOp t).emptyPops = 1 := by
  rw [ExprTree.prefixOrder,
    prefixLoop_emptyPops noOp t._size _ t.root [] 0 [] 0 rfl h (by simp)]

/-- Witness of C20 on the tree of the single leaf 3: its only iteration pops the empty
stack. -/
theorem prefixOrder_pops_empty_stack_witness :
    (ExprTree.ofRoot (.node 0 .Value 3 .null .null)).root ≠ TreeNode.null ∧
    (ExprTree.prefixOrder [] (ExprTree.ofRoot (.node 0 .Value 3 .null .null))).emptyPops = 1 :=
  ⟨by decide, prefixOrder_pops_empty_stack [] (ExprTree.ofRoot (.node 0 .Value 3 .null .null))
    (by decide)⟩

/-! ## Precedence and associativity -/

theorem shuntingYard_three_operands (a b c : Str) (x y z : Int) (op1 op2 : Operator)
    (ha : isNumeral a = true) (hb : isNumeral b = true) (hc : isNumeral c = true)
    (hx : to_number a = some x) (hy : to_number b = some y) (hz : to_number c = some z)
    (h1 : op1.isOperator = true) (h2 : op2.isOperator = true) :
    shuntingYard [a, op1.text, b, op2.text, c] =
      some (if precedence op2 ≤ precedence op1 then
        [.node 0 .Value x .null .null, .node 2 .Value y .null .null, .node 1 op1 0 .null .null,
          .node 4 .Value z .null .null, .node 3 op2 0 .null .null]
      else
        [.node 0 .Value x .null .null, .node 2 .Value y .null .null,
          .node 4 .Value z .null .null, .node 3 op2 0 .null .null,
          .node 1 op1 0 .null .null]) := by
  have hconv : convertToVectorOfNodes [a, op1.text, b, op2.text, c] =
      some [.node 0 .Value x .null .null, .node 1 op1 0 .null .null,
        .node 2 .Value y .null .null, .node 3 op2 0 .null .null,
        .node 4 .Value z .null .null] := by
    have t1 : isNumeral op1.text = false ∧
        createOperatorNode 1 op1.text = .node 1 op1 0 .null .null := by
      cases op1 <;> first | (exact absurd h1 (by decide)) | exact ⟨by decide, rfl⟩
    have t2 : isNumeral op2.text = false ∧
        createOperatorNode 3 op2.text = .node 3 op2 0 .null .null := by
      cases op2 <;> first | (exact absurd h2 (by decide)) | exact ⟨by decide, rfl⟩
    simp [convertToVectorOfNodes, convertFrom, is_number_eq_isNumeral, ha, hb, hc, hx, hy, hz,
      t1.1, t1.2, t2.1, t2.2, TreeNode.ofValue]
  rw [shuntingYard, hconv]
  cases op1 <;> first | (exact absurd h1 (by decide)) |
    (cases op2 <;> first | (exact absurd h2 (by decide)) |
      simp [shuntingYardLoop, popOperators, Operator.isValue, Operator.isOperator, precedence,
        Operator.text])

/-! ## Decimal numerals -/

theorem toDigitsCore_eq_append :
    ∀ (n fuel : Nat) (ds : List Char), n < fuel →
      Nat.toDigitsCore 10 fuel n ds = Nat.toDigits 10 n ++ ds := by
  intro n
  induction n using Nat.strong_induction_on with
  | _ n ih =>
    intro fuel ds hfuel
    cases fuel with
    | zero => omega
    | succ f =>
      by_cases h0 : n / 10 = 0
      · simp [Nat.toDigits, Nat.toDigitsCore, h0]
      · have hlt : n / 10 < n := Nat.div_lt_self (by omega) (by decide)
        have e1 : Nat.toDigitsCore 10 (f + 1) n ds
            = Nat.toDigitsCore 10 f (n / 10) (Nat.digitChar (n % 10) :: ds) := by
          simp [Nat.toDigitsCore, h0]
        have e2 : Nat.toDigits 10 n
            = Nat.toDigitsCore 10 n (n / 10) [Nat.digitChar (n % 10)] := by
          simp [Nat.toDigits, Nat.toDigitsCore, h0]
        rw [e1, e2, ih (n / 10) hlt f _ (by omega), ih (n / 10) hlt n _ hlt]
        simp

theorem toDigits_of_lt_ten (n : Nat) (h : n < 10) :
    Nat.toDigits 10 n = [Nat.digitChar n] := by
  have h0 : n / 10 = 0 := Nat.div_eq_of_lt h
  simp [Nat.toDigits, Nat.toDigitsCore, h0, Nat.mod_eq_of_lt h]

theorem toDigits_of_ten_le (n : Nat) (h : 10 ≤ n) :
    Nat.toDigits 10 n = Nat.toDigits 10 (n / 10) ++ [Nat.digitChar (n % 10)] := by
  have h0 : n / 10 ≠ 0 := by
    have := Nat.div_pos h (by decide : 0 < 10)
    omega
  have e2 : Nat.toDigits 10 n
      = Nat.toDigitsCore 10 n (n / 10) [Nat.digitChar (n % 10)] := by
    simp [Nat.toDigits, Nat.toDigitsCore, h0]
  rw [e2, toDigitsCore_eq_append (n / 10) n _ (Nat.div_lt_self (by omega) (by decide))]

theorem digitChar_facts (d : Nat) (h : d < 10) :
    isdigit (Nat.digitChar d) = true ∧ (Nat.digitChar d).toNat = 48 + d := by
  interval_cases d <;> decide

theorem digitChar_of_isdigit (c : Char) (h : isdigit c = true) :
    Nat.digitChar (c.toNat - 48) = c ∧ c.toNat - 48 < 10 ∧ (c = '0' ↔ c.toNat - 48 = 0) := by
  rcases isdigit_cases c h with h | h | h | h | h | h | h | h | h | h <;> subst h <;> decide

theorem toDigits_isNumeral (n : Nat) : isNumeral (Nat.toDigits 10 n) = true := by
  induction n using Nat.strong_induction_on with
  | _ n ih =>
    by_cases h : n < 10
    · rw [toDigits_of_lt_ten n h]
      simp [isNumeral, (digitChar_facts n h).1]
    · have h10 : 10 ≤ n := by omega
      rw [toDigits_of_ten_le n h10]
      have := ih (n / 10) (Nat.div_lt_self (by omega) (by decide))
      rw [isNumeral_iff] at this ⊢
      refine ⟨by simp, ?_⟩
      intro c hc
      rcases List.mem_append.mp hc with hc | hc
      · exact this.2 c hc
      · simp only [List.mem_singleton] at hc
        subst hc
        exact (digitChar_facts _ (Nat.mod_lt _ (by decide))).1

theorem digitsValue_toDigits (n : Nat) : digitsValue (Nat.toDigits 10 n) = (n : Int) := by
  induction n using Nat.strong_induction_on with
  | _ n ih =>
    by_cases h : n < 10
    · rw [toDigits_of_lt_ten n h]
      simp [digitsValue, (digitChar_facts n h).2]
    · have h10 : 10 ≤ n := by omega
      rw [toDigits_of_ten_le n h10, digitsValue_concat,
        ih (n / 10) (Nat.div_lt_self (by omega) (by decide)),
        (digitChar_facts _ (Nat.mod_lt n (by decide))).2]
      push_cast
      omega

theorem numeralValue_concat (ds : Str) (c : Char) :
    numeralValue (ds ++ [c]) = (c.toNat - 48) + 10 * numeralValue ds := by
  have : (('0' : Char).toNat) = 48 := by decide
  simp [numeralValue, Nat.ofDigits_cons, this]

theorem numeralValue_pos (ds : Str) (hnum : isNumeral ds = true)
    (hhead : ds.head? ≠ some '0') : 1 ≤ numeralValue ds := by
  induction ds using List.reverseRecOn with
  | nil => simp [isNumeral] at hnum
  | append_singleton init c ih =>
    obtain ⟨_, hdig⟩ := (isNumeral_iff _).mp hnum
    rw [numeralValue_concat]
    cases init with
    | nil =>
      have hc := hdig c (by simp)
      have hf := digitChar_of_isdigit c hc
      have hne : c ≠ '0' := by simpa using hhead
      have : c.toNat - 48 ≠ 0 := fun h => hne (hf.2.2.mpr h)
      simp only [numeralValue, List.reverse_nil, List.map_nil, Nat.ofDigits_nil]
      omega
    | cons d rest =>
      have := ih ((isNumeral_iff _).mpr
          ⟨by simp, fun x hx => hdig x (List.mem_append_left _ hx)⟩)
        (by simpa using hhead)
      omega

/-- The numeral printed for the value of a number without leading zeros is that number. -/
theorem toDigits_numeralValue (ds : Str) (hnum : isNumeral ds = true)
    (hzero : ds = ['0'] ∨ ds.head? ≠ some '0') :
    Nat.toDigits 10 (numeralValue ds) = ds := by
  induction ds using List.reverseRecOn with
  | nil => simp [isNumeral] at hnum
  | append_singleton init c ih =>
    obtain ⟨_, hdig⟩ := (isNumeral_iff _).mp hnum
    have hc := hdig c (by simp)
    have hf := digitChar_of_isdigit c hc
    rw [numeralValue_concat]
    cases init with
    | nil =>
      simp only [numeralValue, List.reverse_nil, List.map_nil, Nat.ofDigits_nil, Nat.mul_zero,
        Nat.add_zero, List.nil_append]
      rw [toDigits_of_lt_ten _ hf.2.1, hf.1]
    | cons d rest =>
      have hhead : (d :: rest).head? ≠ some '0' := by
        rcases hzero with h | h
        · have := congrArg List.length h
          simp at this
        · simpa using h
      have hinit : isNumeral (d :: rest) = true :=
        (isNumeral_iff _).mpr ⟨by simp, fun x hx => hdig x (List.mem_append_left _ hx)⟩
      have hpos := numeralValue_pos (d :: rest) hinit hhead
      have hten : 10 ≤ c.toNat - 48 + 10 * numeralValue (d :: rest) := by omega
      rw [toDigits_of_ten_le _ hten]
      have hdiv : (c.toNat - 48 + 10 * numeralValue (d :: rest)) / 10
          = numeralValue (d :: rest) := by omega
      have hmod : (c.toNat - 48 + 10 * numeralValue (d :: rest)) % 10 = c.toNat - 48 := by
        omega
      rw [hdiv, hmod, ih hinit (Or.inr hhead), hf.1]

theorem to_string_digitsValue (ds : Str) (hnum : isNumeral ds = true)
    (hzero : ds = ['0'] ∨ ds.head? ≠ some '0') :
    to_string (digitsValue ds) = ds := by
  rw [digitsValue_eq_numeralValue ds ((isNumeral_iff ds).mp hnum).2]
  have hnn : ¬ ((numeralValue ds : Int) < 0) := by omega
  simp only [to_string, hnn, if_false, Int.toNat_ofNat]
  exact toDigits_numeralValue ds hnum hzero

/-! ## The tree built from an expression of the grammar -/

theorem numbersFit_append (l1 l2 : List Str) :
    numbersFit (l1 ++ l2) = true ↔ numbersFit l1 = true ∧ numbersFit l2 = true := by
  simp [numbersFit, List.all_append]

theorem numbersFit_cons (x : Str) (l : List Str) :
    numbersFit (x :: l) = true → numbersFit l = true := by
  simp only [numbersFit, List.all_cons, Bool.and_eq_true]
  exact fun h => h.2

mutual
theorem GExpr.expr_convert_of_fit : ∀ (e : GExpr), e.wellFormed = true →
    numbersFit e.tokens = true → ∀ i : Nat,
      convertFrom i e.tokens = some ((e.items i).map Prod.snd)
  | .term t => fun hwf hfit i => by
    simpa [GExpr.tokens, GExpr.items] using
      GTerm.term_convert_of_fit t (by simpa [GExpr.wellFormed] using hwf)
        (by simpa [GExpr.tokens] using hfit) i
  | .add e op t => fun hwf hfit i => by
    simp only [GExpr.wellFormed, Bool.and_eq_true] at hwf
    simp only [GExpr.tokens, numbersFit_append] at hfit
    have h1 := GExpr.expr_convert_of_fit e hwf.1 hfit.1 i
    have h3 := GTerm.term_convert_of_fit t hwf.2 (numbersFit_cons _ _ hfit.2)
      (i + e.tokens.length + 1)
    have hop := convertFrom_operator (i + e.tokens.length) op.text op.add_facts.2.2.1
    rw [op.add_facts.2.2.2.2.2.1] at hop
    have hmid := convertFrom_append [op.text] (i + e.tokens.length) t.tokens _ _ hop
      (by simpa using h3)
    have := convertFrom_append e.tokens i (op.text :: t.tokens) _ _ h1 (by simpa using hmid)
    simpa [GExpr.tokens, GExpr.items] using this
theorem GTerm.term_convert_of_fit : ∀ (t : GTerm), t.wellFormed = true →
    numbersFit t.tokens = true → ∀ i : Nat,
      convertFrom i t.tokens = some ((t.items i).map Prod.snd)
  | .factor f => fun hwf hfit i => by
    simpa [GTerm.tokens, GTerm.items] using
      GFactor.factor_convert_of_fit f (by simpa [GTerm.wellFormed] using hwf)
        (by simpa [GTerm.tokens] using hfit) i
  | .mul t op f => fun hwf hfit i => by
    simp only [GTerm.wellFormed, Bool.and_eq_true] at hwf
    simp only [GTerm.tokens, numbersFit_append] at hfit
    have h1 := GTerm.term_convert_of_fit t hwf.1 hfit.1 i
    have h3 := GFactor.factor_convert_of_fit f hwf.2 (numbersFit_cons _ _ hfit.2)
      (i + t.tokens.length + 1)
    have hop := convertFrom_operator (i + t.tokens.length) op.text op.mul_facts.2.2.1
    rw [op.mul_facts.2.2.2.2.2.1] at hop
    have hmid := convertFrom_append [op.text] (i + t.tokens.length) f.tokens _ _ hop
      (by simpa using h3)
    have := convertFrom_append t.tokens i (op.text :: f.tokens) _ _ h1 (by simpa using hmid)
    simpa [GTerm.tokens, GTerm.items] using this
theorem GFactor.factor_convert_of_fit : ∀ (f : GFactor), f.wellFormed = true →
    numbersFit f.tokens = true → ∀ i : Nat,
      convertFrom i f.tokens = some ((f.items i).map Prod.snd)
  | .number ds => fun hwf hfit i => by
    simp only [GFactor.wellFormed] at hwf
    simp only [GFactor.tokens, numbersFit, List.all_cons, hwf, Bool.not_true, Bool.false_or,
      List.all_nil, Bool.and_true, decide_eq_true_eq] at hfit
    have hval := digitsValue_eq_numeralValue ds ((isNumeral_iff ds).mp hwf).2
    have hck : checkedInt (digitsValue ds) = some (digitsValue ds) := by
      have hlow : INT_MIN ≤ digitsValue ds := by
        rw [hval]
        have : INT_MIN ≤ 0 := by decide
        omega
      rw [checkedInt, if_pos ⟨hlow, by rw [hval]; exact hfit⟩]
    simp [GFactor.tokens, GFactor.items, convertFrom, is_number_eq_isNumeral, hwf,
      to_number_numeral ds hwf, hck]
  | .paren e => fun hwf hfit i => by
    simp only [GFactor.tokens] at hfit
    have hfit2 := ((numbersFit_append _ _).mp (numbersFit_cons _ _ hfit)).1
    have h1 := GExpr.expr_convert_of_fit e (by simpa [GFactor.wellFormed] using hwf) hfit2
      (i + 1)
    have hclose := convertFrom_operator (i + 1 + e.tokens.length) [')'] (by decide)
    have hmid := convertFrom_append e.tokens (i + 1) [[')']] _ _ h1 hclose
    have hopen := convertFrom_operator i ['('] (by decide)
    have := convertFrom_append [['(']] i (e.tokens ++ [[')']]) _ _ hopen (by simpa using hmid)
    simpa [GFactor.tokens, GFactor.items, createOperatorNode] using this
end

theorem shuntingYard_tokens_of_fit (e : GExpr) (hwf : e.wellFormed = true)
    (hfit : numbersFit e.tokens = true) :
    shuntingYard e.tokens = some (e.tree 0).postNodes := by
  have hzip : e.tokens.zip ((e.items 0).map Prod.snd) = e.items 0 :=
    (List.zip_of_prod (e.expr_items_fst 0) rfl).symm
  have hloop := GExpr.expr_shuntingYardLoop_items e 0 [] [] [] trivial
  simp only [List.append_nil, List.nil_append] at hloop
  simp only [shuntingYard, convertToVectorOfNodes, e.expr_convert_of_fit hwf hfit 0,
    Option.some_bind, hzip, hloop, shuntingYardLoop, Option.map_some', e.expr_emitted_pending 0]

theorem buildLoop_tree (e : GExpr) : buildLoop (e.tree 0).postNodes [] = some [e.tree 0] := by
  have hb := buildLoop_postNodes (e.tree 0) (e.expr_tree_shaped 0).1 (e.expr_tree_shaped 0).2
    [] []
  simp only [List.append_nil] at hb
  rw [hb]
  rfl

theorem buildTree_tokens_of_fit (e : GExpr) (hwf : e.wellFormed = true)
    (hfit : numbersFit e.tokens = true) :
    ExprTree.buildTree e.tokens = some (ExprTree.ofRoot (e.tree 0)) := by
  simp [ExprTree.buildTree, shuntingYard_tokens_of_fit e hwf hfit, queueToVector,
    buildLoop_tree e]

theorem isNull_eq_false_of_ne (n : TreeNode) (h : n ≠ .null) : n.isNull = false := by
  cases n with
  | null => exact absurd rfl h
  | node _ _ _ _ _ => rfl

mutual
theorem GExpr.expr_tree_modelNodes : ∀ (e : GExpr) (i : Nat),
    ∀ n ∈ (e.tree i).reachable, n.modelNode = true
  | .term t, i => by simpa [GExpr.tree] using GTerm.term_tree_modelNodes t i
  | .add e op t, i => by
    intro n hn
    simp only [GExpr.tree, TreeNode.reachable, List.mem_cons, List.mem_append] at hn
    rcases hn with rfl | hn | hn
    · simp [TreeNode.modelNode, op.add_facts.2.2.2.2.2.2.2.1,
        isNull_eq_false_of_ne _ (e.expr_tree_shaped i).2,
        isNull_eq_false_of_ne _ (t.term_tree_shaped (i + e.tokens.length + 1)).2]
    · exact GExpr.expr_tree_modelNodes e i n hn
    · exact GTerm.term_tree_modelNodes t _ n hn
theorem GTerm.term_tree_modelNodes : ∀ (t : GTerm) (i : Nat),
    ∀ n ∈ (t.tree i).reachable, n.modelNode = true
  | .factor f, i => by simpa [GTerm.tree] using GFactor.factor_tree_modelNodes f i
  | .mul t op f, i => by
    intro n hn
    simp only [GTerm.tree, TreeNode.reachable, List.mem_cons, List.mem_append] at hn
    rcases hn with rfl | hn | hn
    · simp [TreeNode.modelNode, op.mul_facts.2.2.2.2.2.2.2.1,
        isNull_eq_false_of_ne _ (t.term_tree_shaped i).2,
        isNull_eq_false_of_ne _ (f.factor_tree_shaped (i + t.tokens.length + 1)).2]
    · exact GTerm.term_tree_modelNodes t i n hn
    · exact GFactor.factor_tree_modelNodes f _ n hn
theorem GFactor.factor_tree_modelNodes : ∀ (f : GFactor) (i : Nat),
    ∀ n ∈ (f.tree i).reachable, n.modelNode = true
  | .number ds, i => by
    intro n hn
    simp only [GFactor.tree, TreeNode.ofValue, TreeNode.reachable, List.append_nil,
      List.mem_singleton] at hn
    subst hn
    rfl
  | .paren e, i => by simpa [GFactor.tree] using GExpr.expr_tree_modelNodes e (i + 1)
end

theorem modelNode_node (a : Nat) (op : Operator) (v : Int) (l r : TreeNode)
    (h : (TreeNode.node a op v l r).modelNode = true) :
    op ≠ .NoOp ∧ (op.isOperator = true → l ≠ .null ∧ r ≠ .null) ∧
    (op.isValue = true → l = .null ∧ r = .null) := by
  cases op <;> cases l <;> cases r <;>
    simp_all [TreeNode.modelNode, Operator.isValue, Operator.isOperator, TreeNode.isNull]

/-! ## The tree builder with number tokens beyond the range of `int` -/

theorem convertFromWith_of_convertFrom (lib : Str → Int) : ∀ (ts : List Str) (i : Nat)
    (ns : List TreeNode), convertFrom i ts = some ns → convertFromWith lib i ts = ns := by
  intro ts
  induction ts with
  | nil =>
    intro i ns h
    simpa [convertFrom, convertFromWith] using h
  | cons t ts ih =>
    intro i ns h
    simp only [convertFrom, Option.bind_eq_some, Option.map_eq_some'] at h
    obtain ⟨node, hnode, nodes, hnodes, rfl⟩ := h
    rw [convertFromWith, ih (i + 1) nodes hnodes]
    congr 1
    by_cases hnum : is_number t = true
    · simp only [hnum, if_true, Option.map_eq_some'] at hnode ⊢
      obtain ⟨v, hv, rfl⟩ := hnode
      simp [to_numberWith, hv]
    · simp only [hnum, Bool.false_eq_true, if_false, Option.some.injEq] at hnode ⊢
      exact hnode

theorem shuntingYardWith_of_shuntingYard (lib : Str → Int) (tokens : List Str)
    (q : List TreeNode) (h : shuntingYard tokens = some q) :
    shuntingYardWith lib tokens = some q := by
  simp only [shuntingYard, convertToVectorOfNodes, Option.bind_eq_some] at h
  obtain ⟨ns, hns, h⟩ := h
  rw [shuntingYardWith, convertToVectorOfNodesWith, convertFromWith_of_convertFrom lib tokens 0 ns hns]
  exact h

theorem buildTreeWith_of_buildTree (lib : Str → Int) (tokens : List Str) (t : ExprTree)
    (h : ExprTree.buildTree tokens = some t) : ExprTree.buildTreeWith lib tokens = some t := by
  cases hq : shuntingYard tokens with
  | none => simp [ExprTree.buildTree, hq] at h
  | some q =>
    rw [ExprTree.buildTree, hq] at h
    rw [ExprTree.buildTreeWith, shuntingYardWith_of_shuntingYard lib tokens q hq]
    exact h

theorem convertFromWith_append (lib : Str → Int) : ∀ (xs : List Str) (i : Nat) (ys : List Str),
    convertFromWith lib i (xs ++ ys)
      = convertFromWith lib i xs ++ convertFromWith lib (i + xs.length) ys := by
  intro xs
  induction xs with
  | nil => intro i ys; simp [convertFromWith]
  | cons x xs ih =>
    intro i ys
    have : i + 1 + xs.length = i + (x :: xs).length := by simp; omega
    simp only [List.cons_append, convertFromWith, List.append_eq, ih (i + 1) ys, this]

theorem erase_ofOperator (i : Nat) (op : Operator) :
    (TreeNode.ofOperator i op).erase = TreeNode.ofOperator i op := rfl

mutual
theorem GExpr.expr_convertFromWith_erase (lib : Str → Int) : ∀ (e : GExpr),
    e.wellFormed = true → ∀ i : Nat,
      (convertFromWith lib i e.tokens).map TreeNode.erase
        = ((e.items i).map Prod.snd).map TreeNode.erase
  | .term t => fun hwf i => by
    simpa [GExpr.tokens, GExpr.items] using
      GTerm.term_convertFromWith_erase lib t (by simpa [GExpr.wellFormed] using hwf) i
  | .add e op t => fun hwf i => by
    simp only [GExpr.wellFormed, Bool.and_eq_true] at hwf
    have h1 := GExpr.expr_convertFromWith_erase lib e hwf.1 i
    have h3 := GTerm.term_convertFromWith_erase lib t hwf.2 (i + e.tokens.length + 1)
    have hop : convertFromWith lib (i + e.tokens.length) (op.text :: t.tokens)
        = TreeNode.ofOperator (i + e.tokens.length) op.tag
          :: convertFromWith lib (i + e.tokens.length + 1) t.tokens := by
      simp [convertFromWith, op.add_facts.2.2.1, op.add_facts.2.2.2.2.2.1]
    simp only [GExpr.tokens, GExpr.items, convertFromWith_append, hop, List.map_append,
      List.map_cons, h1, h3, erase_ofOperator]
theorem GTerm.term_convertFromWith_erase (lib : Str → Int) : ∀ (t : GTerm),
    t.wellFormed = true → ∀ i : Nat,
      (convertFromWith lib i t.tokens).map TreeNode.erase
        = ((t.items i).map Prod.snd).map TreeNode.erase
  | .factor f => fun hwf i => by
    simpa [GTerm.tokens, GTerm.items] using
      GFactor.factor_convertFromWith_erase lib f (by simpa [GTerm.wellFormed] using hwf) i
  | .mul t op f => fun hwf i => by
    simp only [GTerm.wellFormed, Bool.and_eq_true] at hwf
    have h1 := GTerm.term_convertFromWith_erase lib t hwf.1 i
    have h3 := GFactor.factor_convertFromWith_erase lib f hwf.2 (i + t.tokens.length + 1)
    have hop : convertFromWith lib (i + t.tokens.length) (op.text :: f.tokens)
        = TreeNode.ofOperator (i + t.tokens.length) op.tag
          :: convertFromWith lib (i + t.tokens.length + 1) f.tokens := by
      simp [convertFromWith, op.mul_facts.2.2.1, op.mul_facts.2.2.2.2.2.1]
    simp only [GTerm.tokens, GTerm.items, convertFromWith_append, hop, List.map_append,
      List.map_cons, h1, h3, erase_ofOperator]
theorem GFactor.factor_convertFromWith_erase (lib : Str → Int) : ∀ (f : GFactor),
    f.wellFormed = true → ∀ i : Nat,
      (convertFromWith lib i f.tokens).map TreeNode.erase
        = ((f.items i).map Prod.snd).map TreeNode.erase
  | .number ds => fun hwf i => by
    simp only [GFactor.wellFormed] at hwf
    simp [GFactor.tokens, GFactor.items, convertFromWith, is_number_eq_isNumeral, hwf,
      TreeNode.ofValue, TreeNode.erase]
  | .paren e => fun hwf i => by
    have h1 := GExpr.expr_convertFromWith_erase lib e (by simpa [GFactor.wellFormed] using hwf)
      (i + 1)
    have hn : is_number ['('] = false ∧ is_number [')'] = false := by decide
    have hopen : ∀ rest, convertFromWith lib i (['('] :: rest)
        = TreeNode.ofOperator i .NoOp :: convertFromWith lib (i + 1) rest := by
      intro rest
      simp [convertFromWith, createOperatorNode, hn.1]
    have hclose : convertFromWith lib (i + 1 + e.tokens.length) [[')']]
        = [TreeNode.ofOperator (i + 1 + e.tokens.length) .NoOp] := by
      simp [convertFromWith, createOperatorNode, hn.2]
    simp only [GFactor.tokens, GFactor.items, hopen, convertFromWith_append, hclose,
      List.map_append, List.map_cons, List.map_nil, h1, erase_ofOperator]
end

theorem popUntilNoOp_erase : ∀ (ops out : List TreeNode),
    popUntilNoOp (ops.map TreeNode.erase) (out.map TreeNode.erase)
      = (popUntilNoOp ops out).map
          fun p => (p.1.map TreeNode.erase, p.2.map TreeNode.erase) := by
  intro ops
  induction ops with
  | nil => intro out; rfl
  | cons x below ih =>
    intro out
    cases x with
    | null => rfl
    | node a op v l r =>
      by_cases h : (op != Operator.NoOp) = true
      · have := ih (out ++ [.node a op v l r])
        simp only [List.map_append, List.map_cons, List.map_nil, TreeNode.erase] at this
        simp only [List.map_cons, TreeNode.erase, popUntilNoOp, h, if_true, this]
      · simp [popUntilNoOp, h, TreeNode.erase]

theorem popOperators_erase (p : Int) : ∀ (ops out : List TreeNode),
    popOperators p (ops.map TreeNode.erase) (out.map TreeNode.erase)
      = (popOperators p ops out).map
          fun q => (q.1.map TreeNode.erase, q.2.map TreeNode.erase) := by
  intro ops
  induction ops with
  | nil => intro out; rfl
  | cons x below ih =>
    intro out
    cases x with
    | null => rfl
    | node a op v l r =>
      by_cases h : (op.isOperator && decide (p ≤ precedence op)) = true
      · have := ih (out ++ [.node a op v l r])
        simp only [List.map_append, List.map_cons, List.map_nil, TreeNode.erase] at this
        simp only [List.map_cons, TreeNode.erase, popOperators, h, if_true, this]
      · simp [popOperators, h, TreeNode.erase]

theorem shuntingYardLoop_erase : ∀ (xs : List (Str × TreeNode)) (ops out : List TreeNode),
    shuntingYardLoop (xs.map fun p => (p.1, p.2.erase)) (ops.map TreeNode.erase)
        (out.map TreeNode.erase)
      = (shuntingYardLoop xs ops out).map
          fun q => (q.1.map TreeNode.erase, q.2.map TreeNode.erase) := by
  intro xs
  induction xs with
  | nil => intro ops out; rfl
  | cons x rest ih =>
    intro ops out
    obtain ⟨token, n⟩ := x
    cases n with
    | null => rfl
    | node a op v l r =>
      simp only [List.map_cons, TreeNode.erase, shuntingYardLoop]
      by_cases hv : op.isValue = true
      · have := ih ops (out ++ [.node a op v l r])
        simp only [List.map_append, List.map_cons, List.map_nil, TreeNode.erase] at this
        simp only [hv, if_true, this]
      · simp only [hv, Bool.false_eq_true, if_false]
        by_cases ho : token = ['(']
        · have := ih (.node a op v l r :: ops) out
          simp only [List.map_cons, TreeNode.erase] at this
          simp only [ho, if_true, this]
        · simp only [ho, if_false]
          by_cases hc : token = [')']
          · simp only [hc, if_true, popUntilNoOp_erase]
            cases hpop : popUntilNoOp ops out with
            | none => rfl
            | some q =>
              obtain ⟨st, out1⟩ := q
              cases st with
              | nil => rfl
              | cons top below => simpa using ih below out1
          · simp only [hc, if_false, popOperators_erase]
            cases hpop : popOperators (precedence op) ops out with
            | none => rfl
            | some q =>
              obtain ⟨st, out1⟩ := q
              have := ih (.node a op v l r :: st) out1
              simpa [TreeNode.erase] using this

theorem buildLoop_erase : ∀ (l st : List TreeNode),
    buildLoop (l.map TreeNode.erase) (st.map TreeNode.erase)
      = (buildLoop l st).map (List.map TreeNode.erase) := by
  intro l
  induction l with
  | nil => intro st; rfl
  | cons x rest ih =>
    intro st
    cases x with
    | null => rfl
    | node a op v l r =>
      simp only [List.map_cons, TreeNode.erase, buildLoop]
      by_cases hv : op.isValue = true
      · have := ih (.node a op v l r :: st)
        simp only [List.map_cons, TreeNode.erase] at this
        simp only [hv, if_true, this]
      · simp only [hv, Bool.false_eq_true, if_false]
        match st with
        | [] => rfl
        | [_] => rfl
        | right :: left :: below =>
          have := ih (.node a op v left right :: below)
          simpa [TreeNode.erase] using this

theorem erase_reachable : ∀ (n : TreeNode),
    n.erase.reachable = n.reachable.map TreeNode.erase
  | .null => rfl
  | .node a op v l r => by
    simp [TreeNode.erase, TreeNode.reachable, erase_reachable l, erase_reachable r]

theorem erase_modelNode (n : TreeNode) : n.erase.modelNode = n.modelNode := by
  cases n with
  | null => rfl
  | node a op v l r =>
    cases l <;> cases r <;> simp [TreeNode.erase, TreeNode.modelNode, TreeNode.isNull]

theorem modelNode_of_erase_eq (m root : TreeNode) (h : root.erase = m.erase)
    (hm : ∀ n ∈ m.reachable, n.modelNode = true) :
    ∀ n ∈ root.reachable, n.modelNode = true := by
  intro n hn
  have h1 : n.erase ∈ root.erase.reachable := by
    rw [erase_reachable]
    exact List.mem_map_of_mem _ hn
  rw [h, erase_reachable, List.mem_map] at h1
  obtain ⟨k, hk, hke⟩ := h1
  rw [← erase_modelNode n, ← hke, erase_modelNode]
  exact hm k hk

theorem buildTreeWith_tokens (lib : Str → Int) (e : GExpr) (hwf : e.wellFormed = true) :
    ∃ (postfixNodes : List TreeNode) (root : TreeNode),
      shuntingYardWith lib e.tokens = some postfixNodes ∧
      buildLoop postfixNodes [] = some [root] ∧
      ExprTree.buildTreeWith lib e.tokens = some (ExprTree.ofRoot root) ∧
      root.erase = (e.tree 0).erase := by
  have hfst := e.expr_items_fst 0
  have hconv := GExpr.expr_convertFromWith_erase lib e hwf 0
  have hlen : (convertFromWith lib 0 e.tokens).length = e.tokens.length := by
    have := congrArg List.length hconv
    simp only [List.length_map] at this
    rw [this, ← hfst, List.length_map]
  have hzip : (e.tokens.zip (convertFromWith lib 0 e.tokens)).map (fun p => (p.1, p.2.erase))
      = (e.items 0).map (fun p => (p.1, p.2.erase)) := by
    have hz : e.tokens.zip ((e.items 0).map Prod.snd) = e.items 0 :=
      (List.zip_of_prod hfst rfl).symm
    have e1 : (e.tokens.zip (convertFromWith lib 0 e.tokens)).map (fun p => (p.1, p.2.erase))
        = e.tokens.zip ((convertFromWith lib 0 e.tokens).map TreeNode.erase) := by
      rw [List.zip_map_right]
      rfl
    have e2 : (e.items 0).map (fun p => (p.1, p.2.erase))
        = e.tokens.zip (((e.items 0).map Prod.snd).map TreeNode.erase) := by
      rw [List.zip_map_right, hz]
      rfl
    rw [e1, e2, hconv]
  have hloop := GExpr.expr_shuntingYardLoop_items e 0 [] [] [] trivial
  simp only [List.append_nil, List.nil_append, shuntingYardLoop] at hloop
  have h1 := shuntingYardLoop_erase (e.tokens.zip (convertFromWith lib 0 e.tokens)) [] []
  have h2 := shuntingYardLoop_erase (e.items 0) [] []
  rw [hzip, h2, hloop] at h1
  cases hrun : shuntingYardLoop (e.tokens.zip (convertFromWith lib 0 e.tokens)) [] [] with
  | none => rw [hrun] at h1; simp at h1
  | some q =>
    obtain ⟨ops, out⟩ := q
    rw [hrun] at h1
    simp only [Option.map_some', Option.some.injEq, Prod.mk.injEq] at h1
    have hq : (out ++ ops).map TreeNode.erase = (e.tree 0).postNodes.map TreeNode.erase := by
      rw [List.map_append, ← h1.1, ← h1.2, ← List.map_append, e.expr_emitted_pending 0]
    have hb := buildLoop_erase (out ++ ops) []
    rw [hq] at hb
    have hb2 := buildLoop_erase (e.tree 0).postNodes []
    rw [buildLoop_tree e] at hb2
    rw [hb2] at hb
    cases hbl : buildLoop (out ++ ops) [] with
    | none => rw [hbl] at hb; simp at hb
    | some st =>
      rw [hbl] at hb
      simp only [Option.map_some', Option.some.injEq, List.map_cons, List.map_nil] at hb
      match st, hb with
      | [], hb => simp at hb
      | _ :: _ :: _, hb => simp at hb
      | [root], hb =>
        simp only [List.map_cons, List.map_nil, List.cons.injEq, and_true] at hb
        refine ⟨out ++ ops, root, ?_, hbl, ?_, hb.symm⟩
        · simp [shuntingYardWith, convertToVectorOfNodesWith, hrun]
        · simp [ExprTree.buildTreeWith, shuntingYardWith, convertToVectorOfNodesWith, hrun,
            queueToVector, hbl]

/-- C17: for an expression of the grammar whose numbers are digit strings of any length,
and a text that is its tokens with spaces put anywhere, whatever `int` the C library
returns for a digit string beyond the range of `int`: `buildTree(tokenise(text))` runs
without reading an empty operand stack, ends with exactly one node on it, the root of the
tree it returns, and in that tree every operator node has two non-null children, every
value node has none, and no node is a `NoOp` placeholder. When every number fits in an
`int`, these are the postfix sequence and the tree that `shuntingYard` and `buildTree`
have by the C standard alone. -/
theorem buildTree_well_formed_tree (lib : Str → Int) (e : GExpr) (text : Str)
    (hwf : e.wellFormed = true)
    (htext : text.filter (fun c => c != ' ') = e.tokens.flatten) :
    ∃ (postfixNodes : List TreeNode) (root : TreeNode),
      shuntingYardWith lib (ExprTree.tokenise text) = some postfixNodes ∧
      buildLoop postfixNodes [] = some [root] ∧
      ExprTree.buildTreeWith lib (ExprTree.tokenise text) = some (ExprTree.ofRoot root) ∧
      root ≠ .null ∧
      (∀ (a : Nat) (op : Operator) (v : Int) (l r : TreeNode),
        TreeNode.node a op v l r ∈ root.reachable →
          op ≠ .NoOp ∧ (op.isOperator = true → l ≠ .null ∧ r ≠ .null) ∧
          (op.isValue = true → l = .null ∧ r = .null)) ∧
      (numbersFit e.tokens = true →
        shuntingYard (ExprTree.tokenise text) = some postfixNodes ∧
        ExprTree.buildTree (ExprTree.tokenise text) = some (ExprTree.ofRoot root)) := by
  rw [tokenise_text e text hwf htext]
  obtain ⟨postfixNodes, root, hsy, hbl, hbt, herase⟩ := buildTreeWith_tokens lib e hwf
  refine ⟨postfixNodes, root, hsy, hbl, hbt, ?_, ?_, ?_⟩
  · intro hnull
    rw [hnull] at herase
    have hne := (e.expr_tree_shaped 0).2
    cases htree : e.tree 0 with
    | null => exact hne htree
    | node a op v l r => rw [htree] at herase; exact TreeNode.noConfusion herase
  · intro a op v l r hmem
    exact modelNode_node a op v l r
      (modelNode_of_erase_eq (e.tree 0) root herase (e.expr_tree_modelNodes 0) _ hmem)
  · intro hfit
    have h1 := shuntingYard_tokens_of_fit e hwf hfit
    have h2 := buildTree_tokens_of_fit e hwf hfit
    have h3 := shuntingYardWith_of_shuntingYard lib e.tokens _ h1
    have h4 := buildTreeWith_of_buildTree lib e.tokens _ h2
    rw [hsy] at h3
    rw [hbt] at h4
    exact ⟨by rw [h1, h3], by rw [h2, h4]⟩

/-- Witness of C17 on `(1 + 99999999999) * 3`, whose second number is beyond the range of
`int`, with a library that returns -1 for it. -/
theorem buildTree_well_formed_tree_witness :
    ∃ (postfixNodes : List TreeNode) (root : TreeNode),
      shuntingYardWith (fun _ => -1) (ExprTree.tokenise "(1 + 99999999999) * 3".toList)
        = some postfixNodes ∧
      buildLoop postfixNodes [] = some [root] ∧
      ExprTree.buildTreeWith (fun _ => -1) (ExprTree.tokenise "(1 + 99999999999) * 3".toList)
        = some (ExprTree.ofRoot root) ∧
      root ≠ .null ∧
      ∀ (a : Nat) (op : Operator) (v : Int) (l r : TreeNode),
        TreeNode.node a op v l r ∈ root.reachable →
          op ≠ .NoOp ∧ (op.isOperator = true → l ≠ .null ∧ r ≠ .null) ∧
          (op.isValue = true → l = .null ∧ r = .null) :=
  let ⟨postfixNodes, root, h1, h2, h3, h4, h5, _⟩ :=
    buildTree_well_formed_tree (fun _ => -1)
      (.term (.mul (.factor (.paren (.add (.term (.factor (.number "1".toList))) .plus
        (.factor (.number "99999999999".toList))))) .times (.number "3".toList)))
      "(1 + 99999999999) * 3".toList (by decide) (by decide)
  ⟨postfixNodes, root, h1, h2, h3, h4, h5⟩

/-! ## Precedence and associativity with any number tokens -/

theorem shuntingYardWith_three_operands (lib : Str → Int) (a b c : Str) (op1 op2 : Operator)
    (ha : isNumeral a = true) (hb : isNumeral b = true) (hc : isNumeral c = true)
    (h1 : op1.isOperator = true) (h2 : op2.isOperator = true) :
    shuntingYardWith lib [a, op1.text, b, op2.text, c] =
      some (if precedence op2 ≤ precedence op1 then
        [.node 0 .Value (to_numberWith lib a) .null .null,
          .node 2 .Value (to_numberWith lib b) .null .null, .node 1 op1 0 .null .null,
          .node 4 .Value (to_numberWith lib c) .null .null, .node 3 op2 0 .null .null]
      else
        [.node 0 .Value (to_numberWith lib a) .null .null,
          .node 2 .Value (to_numberWith lib b) .null .null,
          .node 4 .Value (to_numberWith lib c) .null .null, .node 3 op2 0 .null .null,
          .node 1 op1 0 .null .null]) := by
  have hconv : convertToVectorOfNodesWith lib [a, op1.text, b, op2.text, c] =
      [.node 0 .Value (to_numberWith lib a) .null .null, .node 1 op1 0 .null .null,
        .node 2 .Value (to_numberWith lib b) .null .null, .node 3 op2 0 .null .null,
        .node 4 .Value (to_numberWith lib c) .null .null] := by
    have t1 : isNumeral op1.text = false ∧
        createOperatorNode 1 op1.text = .node 1 op1 0 .null .null := by
      cases op1 <;> first | (exact absurd h1 (by decide)) | exact ⟨by decide, rfl⟩
    have t2 : isNumeral op2.text = false ∧
        createOperatorNode 3 op2.text = .node 3 op2 0 .null .null := by
      cases op2 <;> first | (exact absurd h2 (by decide)) | exact ⟨by decide, rfl⟩
    simp [convertToVectorOfNodesWith, convertFromWith, is_number_eq_isNumeral, ha, hb, hc,
      t1.1, t1.2, t2.1, t2.2, TreeNode.ofValue]
  rw [shuntingYardWith, hconv]
  cases op1 <;> first | (exact absurd h1 (by decide)) |
    (cases op2 <;> first | (exact absurd h2 (by decide)) |
      simp [shuntingYardLoop, popOperators, Operator.isValue, Operator.isOperator, precedence,
        Operator.text])

/-- C18: on the tokens `a op1 b op2 c`, with any number tokens `a`, `b`, `c` (digit
strings of any length, the C library returning whatever `int` it does for one beyond the
range of `int`) and operators among `+ - * /`, `buildTree` returns `op2(op1(a, b), c)`
when the precedence of `op1` is at least that of `op2`, and `op1(a, op2(b, c))`
otherwise, where `+` and `-` have precedence 1 and `*` and `/` precedence 2; when the
three numbers fit in an `int`, the leaves hold their values and the tree is the result
`buildTree` has by the C standard alone; `8 - 3 - 2` evaluates to 3 and `8 / 4 / 2`
to 1. -/
theorem buildTree_precedence_and_associativity (lib : Str → Int) (a b c : Str)
    (op1 op2 : Operator)
    (ha : isNumeral a = true) (hb : isNumeral b = true) (hc : isNumeral c = true)
    (h1 : op1.isOperator = true) (h2 : op2.isOperator = true) :
    (precedence op2 ≤ precedence op1 →
      ExprTree.buildTreeWith lib [a, op1.text, b, op2.text, c] = some (ExprTree.ofRoot
        (.node 3 op2 0
          (.node 1 op1 0 (.node 0 .Value (to_numberWith lib a) .null .null)
            (.node 2 .Value (to_numberWith lib b) .null .null))
          (.node 4 .Value (to_numberWith lib c) .null .null)))) ∧
    (precedence op1 < precedence op2 →
      ExprTree.buildTreeWith lib [a, op1.text, b, op2.text, c] = some (ExprTree.ofRoot
        (.node 1 op1 0 (.node 0 .Value (to_numberWith lib a) .null .null)
          (.node 3 op2 0 (.node 2 .Value (to_numberWith lib b) .null .null)
            (.node 4 .Value (to_numberWith lib c) .null .null))))) ∧
    (∀ x y z : Int, to_number a = some x → to_number b = some y → to_number c = some z →
      to_numberWith lib a = x ∧ to_numberWith lib b = y ∧ to_numberWith lib c = z ∧
      ExprTree.buildTree [a, op1.text, b, op2.text, c]
        = ExprTree.buildTreeWith lib [a, op1.text, b, op2.text, c]) ∧
    (precedence .Plus = 1 ∧ precedence .Minus = 1 ∧ precedence .Times = 2 ∧
      precedence .Divide = 2) ∧
    (ExprTree.buildTree (ExprTree.tokenise "8 - 3 - 2".toList)).bind
      ExprTree.evaluateWholeTree = some 3 ∧
    (ExprTree.buildTree (ExprTree.tokenise "8 / 4 / 2".toList)).bind
      ExprTree.evaluateWholeTree = some 1 := by
  have hsy := shuntingYardWith_three_operands lib a b c op1 op2 ha hb hc h1 h2
  have n1 : op1 ≠ Operator.Value := by
    intro h; subst h; exact absurd h1 (by decide)
  have n2 : op2 ≠ Operator.Value := by
    intro h; subst h; exact absurd h2 (by decide)
  refine ⟨?_, ?_, ?_, by decide, by decide, by decide⟩
  · intro hp
    rw [if_pos hp] at hsy
    simp [ExprTree.buildTreeWith, hsy, queueToVector, buildLoop, Operator.isValue, n1, n2]
  · intro hp
    rw [if_neg (by omega)] at hsy
    simp [ExprTree.buildTreeWith, hsy, queueToVector, buildLoop, Operator.isValue, n1, n2]
  · intro x y z hx hy hz
    refine ⟨by simp [to_numberWith, hx], by simp [to_numberWith, hy],
      by simp [to_numberWith, hz], ?_⟩
    have hstrict := shuntingYard_three_operands a b c x y z op1 op2 ha hb hc hx hy hz h1 h2
    have hbt : ∃ t, ExprTree.buildTree [a, op1.text, b, op2.text, c] = some t := by
      by_cases hp : precedence op2 ≤ precedence op1
      · rw [if_pos hp] at hstrict
        exact ⟨_, by
          simp [ExprTree.buildTree, hstrict, queueToVector, buildLoop, Operator.isValue, n1, n2]
          rfl⟩
      · rw [if_neg hp] at hstrict
        exact ⟨_, by
          simp [ExprTree.buildTree, hstrict, queueToVector, buildLoop, Operator.isValue, n1, n2]
          rfl⟩
    obtain ⟨t, ht⟩ := hbt
    rw [ht, buildTreeWith_of_buildTree lib _ t ht]

/-- Witness of C18 on `8 - 99999999999 * 2`, whose second number is beyond the range of
`int`, with a library that returns -1 for it: `*` binds tighter, the tree is
`-(8, *(-1, 2))`. -/
theorem buildTree_precedence_and_associativity_witness :
    ExprTree.buildTreeWith (fun _ => -1) ["8".toList, "-".toList, "99999999999".toList,
        "*".toList, "2".toList] = some (ExprTree.ofRoot
      (.node 1 .Minus 0 (.node 0 .Value 8 .null .null)
        (.node 3 .Times 0 (.node 2 .Value (-1) .null .null)
          (.node 4 .Value 2 .null .null)))) :=
  (buildTree_precedence_and_associativity (fun _ => -1) "8".toList "99999999999".toList
    "2".toList .Minus .Times (by decide) (by decide) (by decide) (by decide) (by decide)).2.1
    (by decide)

/-! ## Infix rendering of a built tree -/

theorem noLeadingZeros_append (l1 l2 : List Str) :
    noLeadingZeros (l1 ++ l2) = true ↔ noLeadingZeros l1 = true ∧ noLeadingZeros l2 = true := by
  simp [noLeadingZeros, List.all_append]

theorem noLeadingZeros_cons (x : Str) (l : List Str) :
    noLeadingZeros (x :: l) = true → noLeadingZeros l = true := by
  simp only [noLeadingZeros, List.all_cons, Bool.and_eq_true]
  exact fun h => h.2

theorem AddOp.add_symbol (noOp : Str) (op : AddOp) :
    symbol noOp op.tag 0 = op.text ∧ notParenthesis op.text = true := by
  cases op <;> exact ⟨rfl, by decide⟩

theorem MulOp.mul_symbol (noOp : Str) (op : MulOp) :
    symbol noOp op.tag 0 = op.text ∧ notParenthesis op.text = true := by
  cases op <;> exact ⟨rfl, by decide⟩

mutual
theorem GExpr.expr_inOrder_tree (noOp : Str) : ∀ (e : GExpr) (i : Nat),
    e.wellFormed = true → noLeadingZeros e.tokens = true →
    (e.tree i).inOrder noOp = e.tokens.filter notParenthesis
  | .term t, i => fun hwf hz => by
    simpa [GExpr.tree, GExpr.tokens] using
      GTerm.term_inOrder_tree noOp t i (by simpa [GExpr.wellFormed] using hwf)
        (by simpa [GExpr.tokens] using hz)
  | .add e op t, i => fun hwf hz => by
    simp only [GExpr.wellFormed, Bool.and_eq_true] at hwf
    simp only [GExpr.tokens, noLeadingZeros_append] at hz
    simp only [GExpr.tree, GExpr.tokens, TreeNode.inOrder, List.filter_append,
      List.filter_cons, (op.add_symbol noOp).1, (op.add_symbol noOp).2, if_true,
      GExpr.expr_inOrder_tree noOp e i hwf.1 hz.1,
      GTerm.term_inOrder_tree noOp t _ hwf.2 (noLeadingZeros_cons _ _ hz.2)]
theorem GTerm.term_inOrder_tree (noOp : Str) : ∀ (t : GTerm) (i : Nat),
    t.wellFormed = true → noLeadingZeros t.tokens = true →
    (t.tree i).inOrder noOp = t.tokens.filter notParenthesis
  | .factor f, i => fun hwf hz => by
    simpa [GTerm.tree, GTerm.tokens] using
      GFactor.factor_inOrder_tree noOp f i (by simpa [GTerm.wellFormed] using hwf)
        (by simpa [GTerm.tokens] using hz)
  | .mul t op f, i => fun hwf hz => by
    simp only [GTerm.wellFormed, Bool.and_eq_true] at hwf
    simp only [GTerm.tokens, noLeadingZeros_append] at hz
    simp only [GTerm.tree, GTerm.tokens, TreeNode.inOrder, List.filter_append,
      List.filter_cons, (op.mul_symbol noOp).1, (op.mul_symbol noOp).2, if_true,
      GTerm.term_inOrder_tree noOp t i hwf.1 hz.1,
      GFactor.factor_inOrder_tree noOp f _ hwf.2 (noLeadingZeros_cons _ _ hz.2)]
theorem GFactor.factor_inOrder_tree (noOp : Str) : ∀ (f : GFactor) (i : Nat),
    f.wellFormed = true → noLeadingZeros f.tokens = true →
    (f.tree i).inOrder noOp = f.tokens.filter notParenthesis
  | .number ds, i => fun hwf hz => by
    simp only [GFactor.wellFormed] at hwf
    have hcanon : ds = ['0'] ∨ ds.head? ≠ some '0' := by
      simpa [GFactor.tokens, noLeadingZeros, hwf] using hz
    have hnp : notParenthesis ds = true := by
      obtain ⟨hne, hdig⟩ := (isNumeral_iff ds).mp hwf
      simp only [notParenthesis, Bool.and_eq_true, bne_iff_ne, ne_eq]
      constructor
      · intro h; subst h; exact absurd (hdig '(' (by simp)) (by decide)
      · intro h; subst h; exact absurd (hdig ')' (by simp)) (by decide)
    simp [GFactor.tree, GFactor.tokens, TreeNode.ofValue, TreeNode.inOrder, symbol,
      to_string_digitsValue ds hwf hcanon, hnp]
  | .paren e, i => fun hwf hz => by
    simp only [GFactor.tokens] at hz
    have hz2 := ((noLeadingZeros_append _ _).mp (noLeadingZeros_cons _ _ hz)).1
    have := GExpr.expr_inOrder_tree noOp e (i + 1) (by simpa [GFactor.wellFormed] using hwf) hz2
    simp [GFactor.tree, GFactor.tokens, this, List.filter_cons, List.filter_append,
      notParenthesis]
end

theorem infixOrder_ofRoot (noOp : Str) (root : TreeNode) (hshape : root.shaped = true) :
    ExprTree.infixOrder noOp (ExprTree.ofRoot root) = some (joinSpaced (root.inOrder noOp)) := by
  rw [ExprTree.infixOrder, ExprTree.ofRoot,
    infixLoop_output noOp (calculateTreeSize root) _ root [] 0 [] rfl hshape (by simp)
      (by simp [stackedRightCount, count_cast_eq_calculateTreeSize]) (by simp) (by simp)]
  simp [stackedSymbols]

theorem filter_joinSpaced (ts : List Str) (h : ∀ t ∈ ts, ' ' ∉ t) :
    (joinSpaced ts).filter (fun c => c != ' ') = ts.flatten := by
  have hone : ∀ t ∈ ts, t.filter (fun c => c != ' ') = t := by
    intro t ht
    rw [List.filter_eq_self]
    intro c hc
    have : c ≠ ' ' := fun hcs => h t ht (hcs ▸ hc)
    simpa using this
  induction ts with
  | nil => rfl
  | cons x xs ih =>
    cases xs with
    | nil => simpa [joinSpaced_singleton] using hone x (by simp)
    | cons y ys =>
      rw [joinSpaced_cons_cons, List.filter_append, hone x (by simp), List.filter_cons]
      simp only [bne_self_eq_false, Bool.false_eq_true, if_false]
      rw [ih (fun t ht => h t (by simp [ht])) (fun t ht => hone t (by simp [ht]))]
      simp

/-- C19: for an expression of the grammar whose numbers are digit strings without leading
zeros that fit in an `int`, and a text that is its tokens with spaces put anywhere,
`infixOrder(buildTree(tokenise(text)))` is the tokens of `tokenise(text)` other than `(`
and `)`, in their order, joined by single spaces; and when no token is a parenthesis,
tokenising that rendering gives `tokenise(text)` back. -/
theorem infixOrder_reproduces_tokens (noOp : Str) (e : GExpr) (text : Str)
    (hwf : e.wellFormed = true) (hfit : numbersFit e.tokens = true)
    (hzero : noLeadingZeros e.tokens = true)
    (htext : text.filter (fun c => c != ' ') = e.tokens.flatten) :
    (ExprTree.buildTree (ExprTree.tokenise text)).bind (ExprTree.infixOrder noOp)
      = some (joinSpaced ((ExprTree.tokenise text).filter notParenthesis)) ∧
    ((∀ t ∈ ExprTree.tokenise text, notParenthesis t = true) →
      ((ExprTree.buildTree (ExprTree.tokenise text)).bind
        (ExprTree.infixOrder noOp)).map ExprTree.tokenise
        = some (ExprTree.tokenise text)) := by
  have htok := tokenise_text e text hwf htext
  have hmain : (ExprTree.buildTree (ExprTree.tokenise text)).bind (ExprTree.infixOrder noOp)
      = some (joinSpaced ((ExprTree.tokenise text).filter notParenthesis)) := by
    rw [htok, buildTree_tokens_of_fit e hwf hfit, Option.some_bind,
      infixOrder_ofRoot noOp _ (e.expr_tree_shaped 0).1,
      e.expr_inOrder_tree noOp 0 hwf hzero]
  refine ⟨hmain, ?_⟩
  intro hnp
  rw [hmain, Option.map_some', List.filter_eq_self.mpr hnp, htok]
  congr 1
  refine tokenise_text e _ hwf (filter_joinSpaced e.tokens ?_)
  intro t ht hmem
  have := (e.expr_tokens_ok hwf).2 t ht ' ' hmem
  exact absurd this (by decide)

/-- Witness of C19 on `(1 + 2) * 30`, rendered as `1 + 2 * 30`. -/
theorem infixOrder_reproduces_tokens_witness :
    (ExprTree.buildTree (ExprTree.tokenise "(1 + 2) * 30".toList)).bind (ExprTree.infixOrder [])
      = some "1 + 2 * 30".toList :=
  (infixOrder_reproduces_tokens []
    (.term (.mul (.factor (.paren (.add (.term (.factor (.number ['1']))) .plus
      (.factor (.number ['2']))))) .times (.number ['3', '0'])))
    "(1 + 2) * 30".toList (by decide) (by decide) (by decide) (by decide)).1

/-! ## Postfix rendering read back by buildTree -/

theorem operatorFree_append (l1 l2 : List Str) :
    operatorFree (l1 ++ l2) = true ↔ operatorFree l1 = true ∧ operatorFree l2 = true := by
  simp [operatorFree, List.all_append]

theorem operatorFree_cons (x : Str) (l : List Str) :
    operatorFree (x :: l) = true → operatorFree l = true := by
  simp only [operatorFree, List.all_cons, Bool.and_eq_true]
  exact fun h => h.2

theorem AddOp.add_not_operatorFree (op : AddOp) (l : List Str) :
    operatorFree (op.text :: l) = false := by
  cases op <;> simp [operatorFree, AddOp.text]

theorem MulOp.mul_not_operatorFree (op : MulOp) (l : List Str) :
    operatorFree (op.text :: l) = false := by
  cases op <;> simp [operatorFree, MulOp.text]

mutual
theorem GExpr.expr_tree_operatorFree : ∀ (e : GExpr) (i : Nat), e.wellFormed = true →
    operatorFree e.tokens = true →
    ∃ (j : Nat) (ds : Str), e.tree i = TreeNode.ofValue j (digitsValue ds) ∧ ds ∈ e.tokens ∧
      isNumeral ds = true
  | .term t, i => fun hwf hfree => by
    simpa [GExpr.tree, GExpr.tokens] using
      GTerm.term_tree_operatorFree t i (by simpa [GExpr.wellFormed] using hwf)
        (by simpa [GExpr.tokens] using hfree)
  | .add e op t, i => fun _ hfree => by
    simp only [GExpr.tokens, operatorFree_append, op.add_not_operatorFree] at hfree
    exact absurd hfree.2 (by simp)
theorem GTerm.term_tree_operatorFree : ∀ (t : GTerm) (i : Nat), t.wellFormed = true →
    operatorFree t.tokens = true →
    ∃ (j : Nat) (ds : Str), t.tree i = TreeNode.ofValue j (digitsValue ds) ∧ ds ∈ t.tokens ∧
      isNumeral ds = true
  | .factor f, i => fun hwf hfree => by
    simpa [GTerm.tree, GTerm.tokens] using
      GFactor.factor_tree_operatorFree f i (by simpa [GTerm.wellFormed] using hwf)
        (by simpa [GTerm.tokens] using hfree)
  | .mul t op f, i => fun _ hfree => by
    simp only [GTerm.tokens, operatorFree_append, op.mul_not_operatorFree] at hfree
    exact absurd hfree.2 (by simp)
theorem GFactor.factor_tree_operatorFree : ∀ (f : GFactor) (i : Nat), f.wellFormed = true →
    operatorFree f.tokens = true →
    ∃ (j : Nat) (ds : Str), f.tree i = TreeNode.ofValue j (digitsValue ds) ∧ ds ∈ f.tokens ∧
      isNumeral ds = true
  | .number ds, i => fun hwf _ =>
    ⟨i, ds, rfl, by simp [GFactor.tokens], by simpa [GFactor.wellFormed] using hwf⟩
  | .paren e, i => fun hwf hfree => by
    simp only [GFactor.tokens] at hfree
    have hfree2 := ((operatorFree_append _ _).mp (operatorFree_cons _ _ hfree)).1
    obtain ⟨j, ds, h1, h2, h3⟩ := GExpr.expr_tree_operatorFree e (i + 1)
      (by simpa [GFactor.wellFormed] using hwf) hfree2
    exact ⟨j, ds, by simpa [GFactor.tree] using h1, by simp [GFactor.tokens, h2], h3⟩
end

/-- The tree of a single number, rendered in postfix and read back by `buildTree`, is
again a single leaf with the same value. -/
theorem buildTree_postfixOrder_leaf (noOp : Str) (j : Nat) (ds : Str)
    (hnum : isNumeral ds = true) (hfit : (numeralValue ds : Int) ≤ INT_MAX) :
    ExprTree.evaluateWholeTree (ExprTree.ofRoot (TreeNode.ofValue j (digitsValue ds)))
      = some (numeralValue ds : Int) ∧
    (ExprTree.buildTree (ExprTree.tokenise (ExprTree.postfixOrder noOp
      (ExprTree.ofRoot (TreeNode.ofValue j (digitsValue ds)))))).bind
        ExprTree.evaluateWholeTree = some (numeralValue ds : Int) := by
  have hval := digitsValue_eq_numeralValue ds ((isNumeral_iff ds).mp hnum).2
  have hnn : ¬ ((numeralValue ds : Int) < 0) := by omega
  have hpost : ExprTree.postfixOrder noOp
      (ExprTree.ofRoot (TreeNode.ofValue j (digitsValue ds)))
      = Nat.toDigits 10 (numeralValue ds) := by
    simp [ExprTree.postfixOrder, ExprTree.ofRoot, TreeNode.ofValue, postOrderTraversalString,
      TreeNode.samePointer, symbol, to_string, hval, hnn]
  have hp := toDigits_isNumeral (numeralValue ds)
  have hpval : digitsValue (Nat.toDigits 10 (numeralValue ds)) = (numeralValue ds : Int) :=
    digitsValue_toDigits _
  have hpnum : (numeralValue (Nat.toDigits 10 (numeralValue ds)) : Int) = numeralValue ds := by
    rw [← digitsValue_eq_numeralValue _ ((isNumeral_iff _).mp hp).2, hpval]
  have hwf : (GExpr.term (.factor (.number (Nat.toDigits 10 (numeralValue ds))))).wellFormed
      = true := by
    simpa [GExpr.wellFormed, GTerm.wellFormed, GFactor.wellFormed] using hp
  have hfit2 : numbersFit
      (GExpr.term (.factor (.number (Nat.toDigits 10 (numeralValue ds))))).tokens = true := by
    simp [GExpr.tokens, GTerm.tokens, GFactor.tokens, numbersFit, hp, hpnum, hfit]
  have htext : (Nat.toDigits 10 (numeralValue ds)).filter (fun c => c != ' ')
      = (GExpr.term (.factor (.number (Nat.toDigits 10 (numeralValue ds))))).tokens.flatten := by
    simp only [GExpr.tokens, GTerm.tokens, GFactor.tokens, List.flatten_cons, List.flatten_nil,
      List.append_nil]
    rw [List.filter_eq_self]
    intro c hc
    have hd := ((isNumeral_iff _).mp hp).2 c hc
    have : c ≠ ' ' := by
      intro h; subst h; exact absurd hd (by decide)
    simpa using this
  refine ⟨by simp [ExprTree.evaluateWholeTree, ExprTree.getRoot, ExprTree.ofRoot,
    TreeNode.ofValue, ExprTree.evaluate, Operator.isValue, hval], ?_⟩
  rw [hpost, tokenise_text _ _ hwf htext, buildTree_tokens_of_fit _ hwf hfit2]
  simp [ExprTree.evaluateWholeTree, ExprTree.getRoot, ExprTree.ofRoot, GExpr.tree, GTerm.tree,
    GFactor.tree, TreeNode.ofValue, ExprTree.evaluate, Operator.isValue, hpval]

/-- C16, as stated, fails: the tree of `1 + 2` evaluates to 3 and its postfix rendering
is `1 2 +`; `tokenise` removes the spaces before it scans, so the tokens of that
rendering are `12` and `+`, for which `buildTree` has no defined result. -/
theorem postfix_round_trip_counterexample :
    ExprTree.buildTree (ExprTree.tokenise "1 + 2".toList) =
      some { root := .node 1 .Plus 0 (.node 0 .Value 1 .null .null)
               (.node 2 .Value 2 .null .null),
             _size := 3 } ∧
    ExprTree.evaluateWholeTree
      { root := .node 1 .Plus 0 (.node 0 .Value 1 .null .null) (.node 2 .Value 2 .null .null),
        _size := 3 } = some 3 ∧
    (∀ noOp : Str, ExprTree.postfixOrder noOp
      { root := .node 1 .Plus 0 (.node 0 .Value 1 .null .null) (.node 2 .Value 2 .null .null),
        _size := 3 } = "1 2 +".toList) ∧
    ExprTree.tokenise "1 2 +".toList = [['1', '2'], ['+']] ∧
    ExprTree.buildTree [['1', '2'], ['+']] = none ∧
    (ExprTree.buildTree (ExprTree.tokenise "1 2 +".toList)).bind ExprTree.evaluateWholeTree
      ≠ some 3 := by
  refine ⟨by decide, by decide, fun _ => rfl, by decide, by decide, by decide⟩

/-- C16 amended: for a tree built from a well-formed expression that has no operator (a
number that fits in an `int`, possibly in parentheses),
`buildTree(tokenise(postfixOrder(t)))` yields a tree whose `evaluateWholeTree` value
equals that of `t`. -/
theorem postfix_round_trip_of_number (noOp : Str) (e : GExpr) (text : Str)
    (hwf : e.wellFormed = true) (hfit : numbersFit e.tokens = true)
    (hfree : operatorFree e.tokens = true)
    (htext : text.filter (fun c => c != ' ') = e.tokens.flatten) :
    ∃ (t : ExprTree) (v : Int),
      ExprTree.buildTree (ExprTree.tokenise text) = some t ∧
      ExprTree.evaluateWholeTree t = some v ∧
      (ExprTree.buildTree (ExprTree.tokenise (ExprTree.postfixOrder noOp t))).bind
        ExprTree.evaluateWholeTree = some v := by
  obtain ⟨j, ds, htree, hmem, hnum⟩ := e.expr_tree_operatorFree 0 hwf hfree
  have hds : (numeralValue ds : Int) ≤ INT_MAX := by
    have := (List.all_eq_true.mp hfit) ds hmem
    simpa [hnum] using this
  obtain ⟨h1, h2⟩ := buildTree_postfixOrder_leaf noOp j ds hnum hds
  refine ⟨ExprTree.ofRoot (TreeNode.ofValue j (digitsValue ds)), (numeralValue ds : Int), ?_,
    h1, h2⟩
  rw [tokenise_text e text hwf htext, buildTree_tokens_of_fit e hwf hfit, htree]

/-- Witness of C16 amended on `((42))`. -/
theorem postfix_round_trip_of_number_witness :
    ∃ (t : ExprTree) (v : Int),
      ExprTree.buildTree (ExprTree.tokenise "((42))".toList) = some t ∧
      ExprTree.evaluateWholeTree t = some v ∧
      (ExprTree.buildTree (ExprTree.tokenise (ExprTree.postfixOrder [] t))).bind
        ExprTree.evaluateWholeTree = some v :=
  postfix_round_trip_of_number []
    (.term (.factor (.paren (.term (.factor (.paren (.term (.factor
      (.number ['4', '2'])))))))))
    "((42))".toList (by decide) (by decide) (by decide) (by decide)

/-! ### Token sequences with too few numbers -/

theorem buildLoop_length : ∀ (l st st1 : List TreeNode), buildLoop l st = some st1 →
    st1.length + l.countP (fun n => !n.isValueNode) = st.length + l.countP TreeNode.isValueNode := by
  intro l
  induction l with
  | nil =>
    intro st st1 h
    simp only [buildLoop, Option.some.injEq] at h
    simp [h]
  | cons n rest ih =>
    intro st st1 h
    cases n with
    | null => simp [buildLoop] at h
    | node a op v l r =>
      by_cases hv : op.isValue = true
      · simp only [buildLoop, hv, if_true] at h
        have := ih _ _ h
        simp only [List.countP_cons, TreeNode.isValueNode, hv, Bool.not_true, Bool.false_eq_true,
          if_false, if_true, List.length_cons] at this ⊢
        omega
      · have hv2 : op.isValue = false := by simpa using hv
        simp only [buildLoop, hv2, Bool.false_eq_true, if_false] at h
        match st, h with
        | right :: left :: below, h =>
          have := ih _ _ h
          simp only [List.countP_cons, TreeNode.isValueNode, hv2, Bool.not_false,
            Bool.false_eq_true, if_false, if_true, List.length_cons] at this ⊢
          omega

theorem popOperators_append (p : Int) : ∀ (ops out ops1 out1 : List TreeNode),
    popOperators p ops out = some (ops1, out1) → out1 ++ ops1 = out ++ ops := by
  intro ops
  induction ops with
  | nil =>
    intro out ops1 out1 h
    simp only [popOperators, Option.some.injEq, Prod.mk.injEq] at h
    rw [← h.1, ← h.2]
  | cons n below ih =>
    intro out ops1 out1 h
    cases n with
    | null => simp [popOperators] at h
    | node a op v l r =>
      simp only [popOperators] at h
      split at h
      · have := ih _ _ _ h
        simpa using this
      · simp only [Option.some.injEq, Prod.mk.injEq] at h
        rw [← h.1, ← h.2]

theorem shuntingYardLoop_countP (P : TreeNode → Bool) :
    ∀ (items : List (Str × TreeNode)) (ops out ops1 out1 : List TreeNode),
      (∀ x ∈ items, x.1 ≠ ['('] ∧ x.1 ≠ [')']) →
      shuntingYardLoop items ops out = some (ops1, out1) →
      (out1 ++ ops1).countP P = (out ++ ops).countP P + (items.map Prod.snd).countP P := by
  intro items
  induction items with
  | nil =>
    intro ops out ops1 out1 _ h
    simp only [shuntingYardLoop, Option.some.injEq, Prod.mk.injEq] at h
    simp [h.1, h.2]
  | cons x rest ih =>
    intro ops out ops1 out1 hnp h
    obtain ⟨tok, n⟩ := x
    have hrest : ∀ y ∈ rest, y.1 ≠ ['('] ∧ y.1 ≠ [')'] := fun y hy => hnp y (by simp [hy])
    have htok := hnp (tok, n) (by simp)
    cases n with
    | null => simp [shuntingYardLoop] at h
    | node a op v l r =>
      simp only [shuntingYardLoop, htok.1, htok.2, if_false] at h
      split at h
      · have := ih _ _ _ _ hrest h
        simp only [List.countP_append, List.countP_cons, List.countP_nil, List.map_cons] at this ⊢
        omega
      · split at h
        · rename_i ops2 out2 hpop
          have hsame := congrArg (List.countP P) (popOperators_append _ _ _ _ _ hpop)
          have := ih _ _ _ _ hrest h
          simp only [List.countP_append, List.countP_cons, List.countP_nil, List.map_cons]
            at this hsame ⊢
          omega
        · exact absurd h (by simp)

theorem convertFrom_countP : ∀ (tokens : List Str) (i : Nat) (nodes : List TreeNode),
    convertFrom i tokens = some nodes →
    nodes.length = tokens.length ∧
    nodes.countP TreeNode.isValueNode = tokens.countP isNumeral ∧
    nodes.countP (fun n => !n.isValueNode) = tokens.countP (fun t => !isNumeral t) := by
  intro tokens
  induction tokens with
  | nil =>
    intro i nodes h
    simp only [convertFrom, Option.some.injEq] at h
    simp [← h]
  | cons tok rest ih =>
    intro i nodes h
    simp only [convertFrom, Option.bind_eq_some, Option.map_eq_some'] at h
    obtain ⟨node, hnode, nodes1, hnodes, rfl⟩ := h
    obtain ⟨h1, h2, h3⟩ := ih _ _ hnodes
    have hkind : node.isValueNode = isNumeral tok := by
      rw [← is_number_eq_isNumeral]
      by_cases hn : is_number tok = true
      · simp only [hn, if_true, Option.map_eq_some'] at hnode
        obtain ⟨v, _, rfl⟩ := hnode
        simp [TreeNode.ofValue, TreeNode.isValueNode, Operator.isValue, hn]
      · have hn2 : is_number tok = false := by simpa using hn
        simp only [hn2, Bool.false_eq_true, if_false, Option.some.injEq] at hnode
        rw [← hnode, hn2]
        simp only [createOperatorNode]
        split_ifs <;> rfl
    simp only [List.length_cons, List.countP_cons, hkind, h1, h2, h3, and_self]

/-- A token sequence without parentheses in which the numbers are not more than the other
tokens is outside what `buildTree` handles: the call has no defined result. -/
theorem buildTree_none_of_few_numbers (tokens : List Str)
    (hnp : ∀ t ∈ tokens, t ≠ ['('] ∧ t ≠ [')'])
    (hcount : tokens.countP isNumeral ≤ tokens.countP (fun t => !isNumeral t)) :
    ExprTree.buildTree tokens = none := by
  cases hsy : shuntingYard tokens with
  | none => simp [ExprTree.buildTree, hsy]
  | some post =>
    simp only [shuntingYard, convertToVectorOfNodes, Option.bind_eq_some,
      Option.map_eq_some'] at hsy
    obtain ⟨nodes, hconv, ⟨ops1, out1⟩, hloop, hpost⟩ := hsy
    simp only at hpost
    obtain ⟨hlen, hV, hO⟩ := convertFrom_countP tokens 0 nodes hconv
    have hsnd : (tokens.zip nodes).map Prod.snd = nodes :=
      List.map_snd_zip _ _ (by omega)
    have hnp2 : ∀ x ∈ tokens.zip nodes, x.1 ≠ ['('] ∧ x.1 ≠ [')'] := by
      intro x hx
      exact hnp x.1 (List.of_mem_zip hx).1
    have cV := shuntingYardLoop_countP TreeNode.isValueNode _ _ _ _ _ hnp2 hloop
    have cO := shuntingYardLoop_countP (fun n => !n.isValueNode) _ _ _ _ _ hnp2 hloop
    rw [hsnd, hpost] at cV cO
    simp only [List.append_nil, List.countP_nil, Nat.zero_add] at cV cO
    have hsy2 : shuntingYard tokens = some post := by
      simp only [shuntingYard, convertToVectorOfNodes, hconv, Option.some_bind, hloop,
        Option.map_some', hpost]
    cases hb : buildLoop post [] with
    | none => simp [ExprTree.buildTree, hsy2, queueToVector, hb]
    | some st =>
      have := buildLoop_length post [] st hb
      simp only [List.length_nil, Nat.zero_add] at this
      have hst : st = [] := List.length_eq_zero.mp (by omega)
      simp [ExprTree.buildTree, hsy2, queueToVector, hb, hst]

theorem maximalRuns_countP : ∀ (ts : List Str), MaximalRuns ts →
    (∀ x, ts.getLast? = some x → isNumeral x = false) →
    ts.countP isNumeral ≤ ts.countP (fun t => !isNumeral t) ∧
    (∀ x rest, ts = x :: rest → isNumeral x = false →
      ts.countP isNumeral + 1 ≤ ts.countP (fun t => !isNumeral t)) := by
  intro ts
  induction ts with
  | nil => intro _ _; simp
  | cons x rest ih =>
    intro hmax hlast
    cases rest with
    | nil =>
      have hx : isNumeral x = false := hlast x rfl
      simp [List.countP_cons, hx]
    | cons y rest2 =>
      have hlast2 : ∀ z, (y :: rest2).getLast? = some z → isNumeral z = false := by
        intro z hz
        exact hlast z (by rw [List.getLast?_cons_cons]; exact hz)
      obtain ⟨ih1, ih2⟩ := ih hmax.tail hlast2
      by_cases hx : isNumeral x = true
      · have hy : isNumeral y = false := by
          have := (List.chain'_cons.mp hmax.2).1
          simpa [hx] using this
        have := ih2 y rest2 rfl hy
        refine ⟨?_, fun _ _ h hx2 => ?_⟩
        · simp only [List.countP_cons, hx, hy, Bool.not_true, Bool.not_false, if_true,
            Bool.false_eq_true, if_false] at this ⊢
          omega
        · simp only [List.cons.injEq] at h
          rw [← h.1, hx] at hx2
          exact absurd hx2 (by simp)
      · have hx2 : isNumeral x = false := by simpa using hx
        have e1 : List.countP isNumeral (x :: y :: rest2)
            = List.countP isNumeral (y :: rest2) := by
          rw [List.countP_cons]; simp [hx2]
        have e2 : List.countP (fun t => !isNumeral t) (x :: y :: rest2)
            = List.countP (fun t => !isNumeral t) (y :: rest2) + 1 := by
          rw [List.countP_cons]; simp [hx2]
        refine ⟨?_, fun _ _ _ _ => ?_⟩ <;>
        · rw [e1, e2]
          omega

theorem postfixChar_to_string (v : Int) : ∀ c ∈ to_string v, postfixChar c = true := by
  have hdig : ∀ n : Nat, ∀ c ∈ Nat.toDigits 10 n, postfixChar c = true := by
    intro n c hc
    have := ((isNumeral_iff _).mp (toDigits_isNumeral n)).2 c hc
    simp [postfixChar, this]
  intro c hc
  simp only [to_string] at hc
  split at hc
  · rcases List.mem_cons.mp hc with rfl | hc
    · decide
    · exact hdig _ c hc
  · exact hdig _ c hc

theorem postfixChar_postOrderTraversalString (noOp : Str) (tree : ExprTree) (n : TreeNode) :
    (∀ x ∈ n.reachable, x.modelNode = true) →
    ∀ c ∈ postOrderTraversalString noOp tree n, postfixChar c = true := by
  induction n with
  | null => intro _ c hc; simp [postOrderTraversalString] at hc
  | node a op v l r ihl ihr =>
    intro hmodel c hc
    have hl := ihl (fun x hx => hmodel x (by simp [TreeNode.reachable, hx]))
    have hr := ihr (fun x hx => hmodel x (by simp [TreeNode.reachable, hx]))
    have hself := hmodel (.node a op v l r) (by simp [TreeNode.reachable])
    simp only [postOrderTraversalString, List.mem_append] at hc
    rcases hc with ((hc | hc) | hc) | hc
    · exact hl c hc
    · exact hr c hc
    · cases op with
      | Value => exact postfixChar_to_string v c (by simpa [symbol] using hc)
      | NoOp => simp [TreeNode.modelNode, Operator.isValue, Operator.isOperator] at hself
      | Plus => simp only [symbol, List.mem_singleton] at hc; subst hc; decide
      | Minus => simp only [symbol, List.mem_singleton] at hc; subst hc; decide
      | Times => simp only [symbol, List.mem_singleton] at hc; subst hc; decide
      | Divide => simp only [symbol, List.mem_singleton] at hc; subst hc; decide
    · split at hc
      · simp at hc
      · simp only [List.mem_singleton] at hc; subst hc; decide

theorem postfixChar_facts (c : Char) (h : postfixChar c = true) :
    (isspace c = true → c = ' ') ∧ c ≠ '(' ∧ c ≠ ')' := by
  simp only [postfixChar, Bool.or_eq_true, beq_iff_eq] at h
  rcases h with ((((h | h) | h) | h) | h) | h
  · subst h; decide
  · obtain ⟨_, hs, _, _, h1, h2⟩ := isdigit_facts c h
    exact ⟨fun hsp => absurd hsp (by simp [hs]), h1, h2⟩
  · subst h; decide
  · subst h; decide
  · subst h; decide
  · subst h; decide

theorem operatorFree_of_numeral (ds : Str) (h : isNumeral ds = true) :
    operatorFree [ds] = true := by
  obtain ⟨_, hdig⟩ := (isNumeral_iff ds).mp h
  have key : ∀ c : Char, isdigit c = false → ds ≠ [c] := by
    intro c hc heq
    have := hdig c (by simp [heq])
    simp [hc] at this
  simp [operatorFree, key '+' (by decide), key '-' (by decide), key '*' (by decide),
    key '/' (by decide)]

mutual
theorem GExpr.expr_tree_operator : ∀ (e : GExpr) (i : Nat), e.wellFormed = true →
    operatorFree e.tokens = false →
    ∃ (a : Nat) (op : Operator) (l r : TreeNode),
      e.tree i = .node a op 0 l r ∧ op.isOperator = true
  | .term t, i => fun hwf hop => by
    simpa [GExpr.tree] using
      GTerm.term_tree_operator t i (by simpa [GExpr.wellFormed] using hwf)
        (by simpa [GExpr.tokens] using hop)
  | .add e op t, i => fun _ _ =>
    ⟨_, op.tag, _, _, rfl, op.add_facts.2.2.2.2.2.2.2.1⟩
theorem GTerm.term_tree_operator : ∀ (t : GTerm) (i : Nat), t.wellFormed = true →
    operatorFree t.tokens = false →
    ∃ (a : Nat) (op : Operator) (l r : TreeNode),
      t.tree i = .node a op 0 l r ∧ op.isOperator = true
  | .factor f, i => fun hwf hop => by
    simpa [GTerm.tree] using
      GFactor.factor_tree_operator f i (by simpa [GTerm.wellFormed] using hwf)
        (by simpa [GTerm.tokens] using hop)
  | .mul t op f, i => fun _ _ =>
    ⟨_, op.tag, _, _, rfl, op.mul_facts.2.2.2.2.2.2.2.1⟩
theorem GFactor.factor_tree_operator : ∀ (f : GFactor) (i : Nat), f.wellFormed = true →
    operatorFree f.tokens = false →
    ∃ (a : Nat) (op : Operator) (l r : TreeNode),
      f.tree i = .node a op 0 l r ∧ op.isOperator = true
  | .number ds, i => fun hwf hop => by
    simp only [GFactor.wellFormed] at hwf
    simp only [GFactor.tokens, operatorFree_of_numeral ds hwf] at hop
    exact absurd hop (by simp)
  | .paren e, i => fun hwf hop => by
    have hop2 : operatorFree e.tokens = false := by
      by_contra hcon
      have hfree : operatorFree e.tokens = true := by simpa using hcon
      have : operatorFree (['('] :: (e.tokens ++ [[')']])) = true := by
        simp only [operatorFree, List.all_cons, List.all_append, List.all_nil] at hfree ⊢
        simp [hfree]
      simp only [GFactor.tokens, this] at hop
      exact absurd hop (by simp)
    simpa [GFactor.tree] using
      GExpr.expr_tree_operator e (i + 1) (by simpa [GFactor.wellFormed] using hwf) hop2
end

/-- The postfix rendering of a tree with an operator at its root, read back by
`buildTree`: the rendering ends with the operator, so among its tokens the numbers are
not more than the operators, and `buildTree` has no defined result. -/
theorem buildTree_postfixOrder_operator (noOp : Str) (a : Nat) (op : Operator)
    (v : Int) (l r : TreeNode) (size : Int) (hop : op.isOperator = true)
    (hmodel : ∀ x ∈ (TreeNode.node a op v l r).reachable, x.modelNode = true) :
    ExprTree.buildTree (ExprTree.tokenise
      (ExprTree.postfixOrder noOp { root := .node a op v l r, _size := size })) = none := by
  obtain ⟨c, hsym, hcd, hcs⟩ : ∃ c : Char, symbol noOp op v = [c] ∧ isdigit c = false
      ∧ c ≠ ' ' := by
    cases op with
    | Value => exact absurd hop (by decide)
    | NoOp => exact absurd hop (by decide)
    | Plus => exact ⟨'+', rfl, by decide, by decide⟩
    | Minus => exact ⟨'-', rfl, by decide, by decide⟩
    | Times => exact ⟨'*', rfl, by decide, by decide⟩
    | Divide => exact ⟨'/', rfl, by decide, by decide⟩
  have hchars := postfixChar_postOrderTraversalString noOp
    { root := .node a op v l r, _size := size } (.node a op v l r) hmodel
  obtain ⟨body, hbody⟩ : ∃ body : Str, ExprTree.postfixOrder noOp
      { root := .node a op v l r, _size := size } = body ++ [c] := by
    refine ⟨postOrderTraversalString noOp { root := .node a op v l r, _size := size } l
      ++ postOrderTraversalString noOp { root := .node a op v l r, _size := size } r, ?_⟩
    simp [ExprTree.postfixOrder, postOrderTraversalString, TreeNode.samePointer, hsym]
  have hchars2 : ∀ d ∈ body ++ [c], postfixChar d = true := by
    intro d hd
    rw [← hbody] at hd
    exact hchars d hd
  rw [hbody]
  have hsp : ∀ d ∈ body ++ [c], isspace d = true → d = ' ' :=
    fun d hd => (postfixChar_facts d (hchars2 d hd)).1
  have hfilter : (body ++ [c]).filter (fun d => d != ' ')
      = body.filter (fun d => d != ' ') ++ [c] := by
    simp [List.filter_append, List.filter_cons, hcs]
  obtain ⟨ts, hmax, hflat⟩ := exists_maximalRuns ((body ++ [c]).filter (fun d => d != ' '))
  rw [tokenise_eq_of_maximalRuns (body ++ [c]) ts hsp hmax hflat]
  have hmemtext : ∀ t ∈ ts, ∀ d ∈ t, d ∈ body ++ [c] := by
    intro t ht d hd
    have : d ∈ ts.flatten := List.mem_flatten.mpr ⟨t, ht, hd⟩
    rw [hflat] at this
    exact (List.mem_filter.mp this).1
  refine buildTree_none_of_few_numbers ts ?_ ?_
  · intro t ht
    constructor
    · intro h
      have := (postfixChar_facts '(' (hchars2 '(' (hmemtext t ht '(' (by simp [h])))).2.1
      exact this rfl
    · intro h
      have := (postfixChar_facts ')' (hchars2 ')' (hmemtext t ht ')' (by simp [h])))).2.2
      exact this rfl
  · refine (maximalRuns_countP ts hmax ?_).1
    intro x hx
    obtain ⟨init, rfl⟩ := List.getLast?_eq_some_iff.mp hx
    by_contra hnum
    have hnum2 : isNumeral x = true := by simpa using hnum
    obtain ⟨hne, hdig⟩ := (isNumeral_iff x).mp hnum2
    obtain ⟨x1, d, rfl⟩ : ∃ x1 d, x = x1 ++ [d] := by
      rcases List.eq_nil_or_concat x with h | ⟨x1, d, h⟩
      · exact absurd h hne
      · exact ⟨x1, d, by simpa using h⟩
    have hlast := congrArg List.getLast? hflat
    rw [hfilter] at hlast
    simp only [List.flatten_append, List.flatten_cons, List.flatten_nil, List.append_nil,
      ← List.append_assoc, List.getLast?_concat, Option.some.injEq] at hlast
    have := hdig d (by simp)
    rw [hlast, hcd] at this
    exact absurd this (by simp)

/-- For a tree built from a well-formed expression that has an operator, the postfix
rendering is not read back: `buildTree(tokenise(postfixOrder(t)))` has no defined
result. -/
theorem postfix_round_trip_fails_with_operator (noOp : Str) (e : GExpr) (text : Str)
    (hwf : e.wellFormed = true) (hfit : numbersFit e.tokens = true)
    (hop : operatorFree e.tokens = false)
    (htext : text.filter (fun c => c != ' ') = e.tokens.flatten) :
    ∃ t : ExprTree, ExprTree.buildTree (ExprTree.tokenise text) = some t ∧
      ExprTree.buildTree (ExprTree.tokenise (ExprTree.postfixOrder noOp t)) = none := by
  obtain ⟨a, op, l, r, htree, hisop⟩ := e.expr_tree_operator 0 hwf hop
  refine ⟨ExprTree.ofRoot (e.tree 0), ?_, ?_⟩
  · rw [tokenise_text e text hwf htext, buildTree_tokens_of_fit e hwf hfit]
  · have hmodel := e.expr_tree_modelNodes 0
    rw [htree] at hmodel ⊢
    exact buildTree_postfixOrder_operator noOp a op 0 l r _ hisop hmodel

end Assignment1
